import Mathlib

/-
Verification of the structural-consistency checker/fixer for a LaTeX
solutions book (`check_problems.py`).  Documents are modelled as `List Char`;
regular-expression operations of the source, which are all flat substring
searches with literal tokens, are modelled by executable list functions.
Each definition mirrors one function (or one sub-step) of the source.
-/

set_option maxRecDepth 100000

namespace CheckProblems

/-! ### Literal tokens of the markup conventions (section 6 of the spec) -/

/-- Token starting a problem record together with the opening bracket of its
title argument: the literal head of the regex
`\\begin\x7bproblembox\x7d\[([^\]]+)\](.*?)\\end\x7bproblembox\x7d`. -/
def beginBracketTok : List Char := ("\\begin\x7bproblembox\x7d[").data

/-- Bare begin-record token, used by the source to bound each record's search
window (`re.search(r'\\begin\x7bproblembox\x7d', remaining_content)`). -/
def beginTok : List Char := ("\\begin\x7bproblembox\x7d").data

/-- End-record token. -/
def endTok : List Char := ("\\end\x7bproblembox\x7d").data

/-- Closing bracket of the title argument. -/
def rbrackTok : List Char := ("]").data

/-- Strategy label token. -/
def strategyLabel : List Char := ("\\textbf\x7bStrategy:\x7d").data

/-- Solution label token. -/
def solutionLabel : List Char := ("\\textbf\x7bSolution:\x7d").data

/-- Closing-proof marker token `\qed`. -/
def qedTok : List Char := ("\\qed").data

/-- Importance label token. -/
def importanceLabel : List Char := ("\\textbf\x7bImportance:\x7d").data

/-- Wrapper-open token for importance remarks. -/
def importanceOpen : List Char := ("\\begin\x7bimportance\x7d").data

/-- Wrapper-close token for importance remarks. -/
def importanceClose : List Char := ("\\end\x7bimportance\x7d").data

/-- Boundary token `\textbf\x7b` of the importance-content lookahead. -/
def textbfBrace : List Char := ("\\textbf\x7b").data

/-- Boundary token `\begin\x7b` of the importance-content lookahead. -/
def beginBrace : List Char := ("\\begin\x7b").data

/-- Boundary token `\end\x7b` of the importance-content lookahead. -/
def endBrace : List Char := ("\\end\x7b").data

/-- Newline character inserted by the importance wrapper. -/
def nlChar : List Char := ("\n").data

/-- The backslash character, the first character of every LaTeX token the
checker searches for. -/
def backslashChar : Char := '\\'

/-! ### Flat substring search primitives -/

/-- Index of the first occurrence of `pat` in `s` (Python `re.search` of a
literal pattern, `.start()` of the match), `none` when `pat` never occurs. -/
def findSub (pat : List Char) : List Char → Option Nat
  | [] => if pat.isEmpty then some 0 else none
  | c :: rest =>
    if pat.isPrefixOf (c :: rest) then some 0
    else (findSub pat rest).map (fun n => n + 1)

/-- Substring containment (Python `pat in s`). -/
def containsSub (pat s : List Char) : Bool := (findSub pat s).isSome

/-- Start offsets of the non-overlapping left-to-right occurrences of `pat`
in `s`, as produced by `re.finditer` on a literal pattern: after a match the
scan resumes immediately after it, which the character-by-character recursion
realises by carrying the number `skip` of match characters still to be
stepped over. -/
def tokOffsetsAux (pat : List Char) (skip : Nat) : List Char → List Nat
  | [] => []
  | c :: rest =>
    match skip with
    | Nat.succ k => (tokOffsetsAux pat k rest).map (fun n => n + 1)
    | 0 =>
      if pat.isPrefixOf (c :: rest) then
        0 :: (tokOffsetsAux pat (pat.length - 1) rest).map (fun n => n + 1)
      else (tokOffsetsAux pat 0 rest).map (fun n => n + 1)

/-- Offsets of all (non-overlapping, left-to-right) occurrences of `pat`. -/
def tokOffsets (pat s : List Char) : List Nat := tokOffsetsAux pat 0 s

/-- Removal of every non-overlapping left-to-right occurrence of `pat`
(Python `re.sub(pat, '', s)` on a literal pattern), by the same
skip-carrying scan as `tokOffsetsAux`. -/
def removeTokAux (pat : List Char) (skip : Nat) : List Char → List Char
  | [] => []
  | c :: rest =>
    match skip with
    | Nat.succ k => removeTokAux pat k rest
    | 0 =>
      if pat.isPrefixOf (c :: rest) then removeTokAux pat (pat.length - 1) rest
      else c :: removeTokAux pat 0 rest

/-- Delete all occurrences of `pat` from `s`. -/
def removeAll (pat s : List Char) : List Char := removeTokAux pat 0 s

/-- Python whitespace test for `str.strip` / `str.rstrip` (the source only
ever meets ASCII whitespace, which is what is modelled). -/
def pySpace (c : Char) : Bool :=
  c == ' ' || c == '\t' || c == '\n' || c == '\r' || c == '\x0b' || c == '\x0c'

/-- Python `str.rstrip()`. -/
def rstripChars (s : List Char) : List Char :=
  (List.dropWhile pySpace s.reverse).reverse

/-- Python `str.strip()`. -/
def stripChars (s : List Char) : List Char :=
  rstripChars (List.dropWhile pySpace s)

/-- Python slice `s[-n:]`: the last `n` characters (all of `s` when shorter). -/
def lastN (n : Nat) (s : List Char) : List Char := List.drop (s.length - n) s

/-! ### Record extraction: the problembox regex -/

/-- One match of the problembox pattern: start offset, total length, raw
title group and raw body group. -/
structure PBMatch where
  mstart : Nat
  mlen : Nat
  title : List Char
  body : List Char
deriving DecidableEq

/-- Offset one past the end of the match (Python `match.end()`). -/
def PBMatch.mend (m : PBMatch) : Nat := m.mstart + m.mlen

/-- Attempt to match the problembox pattern at the head of `s`: the literal
begin token with `[`, a non-empty title free of `]` up to the first `]`, then
a lazy body up to the first end token.  Returns the title group, body group
and total match length. -/
def matchPBAt (s : List Char) : Option (List Char × List Char × Nat) :=
  if beginBracketTok.isPrefixOf s then
    let r1 := List.drop beginBracketTok.length s
    match findSub rbrackTok r1 with
    | none => none
    | some j =>
      if j = 0 then none
      else
        match findSub endTok (List.drop (j + 1) r1) with
        | none => none
        | some k =>
          some (List.take j r1, List.take k (List.drop (j + 1) r1),
            beginBracketTok.length + j + 1 + k + endTok.length)
  else none

/-- The part of `matchPBAt` after the begin-token prefix check, as a function
of the text following the begin token (`matchPBAt` restructured for reuse in
proofs; `matchPBAt_eq_tail` states the equivalence). -/
def matchPBTail (r1 : List Char) : Option (List Char × List Char × Nat) :=
  match findSub rbrackTok r1 with
  | none => none
  | some j =>
    if j = 0 then none
    else
      match findSub endTok (List.drop (j + 1) r1) with
      | none => none
      | some k =>
        some (List.take j r1, List.take k (List.drop (j + 1) r1),
          beginBracketTok.length + j + 1 + k + endTok.length)

/-- Leftmost match of the problembox pattern in `s`: offset of the first
position where `matchPBAt` succeeds, with the title, body and length of the
match there. -/
def findPB : List Char → Option (Nat × List Char × List Char × Nat)
  | [] => none
  | c :: rest =>
    match matchPBAt (c :: rest) with
    | some r => some (0, r)
    | none => (findPB rest).map (fun r => (r.1 + 1, r.2))

/-- All non-overlapping matches of the problembox pattern, scanning left to
right and resuming after each match (`re.finditer`).  `off` is the absolute
offset of `s` inside the document; `fuel` bounds the recursion and
`s.length` is always enough since every match consumes at least one
character. -/
def finditerPB : Nat → Nat → List Char → List PBMatch
  | 0, _, _ => []
  | Nat.succ fuel, off, s =>
    match findPB s with
    | none => []
    | some (i, t, b, n) =>
      ⟨off + i, n, t, b⟩ ::
        finditerPB fuel (off + i + n) (List.drop (i + n) s)

/-- All problembox matches of a document
(`list(re.finditer(problembox_pattern, content, re.DOTALL))`). -/
def extractPB (content : List Char) : List PBMatch :=
  finditerPB content.length 0 content

/-- Search window of the record whose match ends at `pbEnd`: the text from
`pbEnd` up to the next bare begin-record token, or to the end of the document
when there is none (`search_content` in the source). -/
def windowOf (content : List Char) (pbEnd : Nat) : List Char :=
  match findSub beginTok (List.drop pbEnd content) with
  | some n => List.take n (List.drop pbEnd content)
  | none => List.drop pbEnd content

/-! ### Per-record classification (`extract_problems` / `check_file`) -/

/-- Issue kinds reported by the checker.  In the source these are the literal
strings "Missing Strategy", "Missing Solution", "Missing \qed",
"Multiple \qed (n found)" and "\qed without Solution (n found)". -/
inductive Issue where
  | missingStrategy : Issue
  | missingSolution : Issue
  | missingQed : Issue
  | multipleQed : Nat → Issue
  | qedWithoutSolution : Nat → Issue
deriving DecidableEq

/-- Record dictionary built by `extract_problems` for one problembox match. -/
structure Problem where
  title : List Char
  has_strategy : Bool
  has_solution : Bool
  has_qed : Bool
  qed_count : Nat
  extra_qed_issues : List Issue
deriving DecidableEq

/-- Companion-section analysis of one match (the loop body of
`extract_problems`): strategy and solution are searched in the record's
window; `\qed` occurrences are counted after the solution label when a
solution exists, and in the whole window otherwise. -/
def problemOfMatch (content : List Char) (m : PBMatch) : Problem :=
  let sc := windowOf content m.mend
  let has_strategy := (findSub strategyLabel sc).isSome
  match findSub solutionLabel sc with
  | some so =>
    let afterSol := List.drop (so + solutionLabel.length) sc
    let qc := (tokOffsets qedTok afterSol).length
    { title := stripChars m.title
      has_strategy := has_strategy
      has_solution := true
      has_qed := decide (0 < qc)
      qed_count := qc
      extra_qed_issues :=
        if 1 < qc then [Issue.multipleQed qc]
        else if qc = 0 then [Issue.missingQed] else [] }
  | none =>
    let qn := (tokOffsets qedTok sc).length
    { title := stripChars m.title
      has_strategy := has_strategy
      has_solution := false
      has_qed := false
      qed_count := 0
      extra_qed_issues :=
        if 0 < qn then [Issue.qedWithoutSolution qn] else [] }

/-- All problems of a document (`extract_problems`). -/
def extract_problems (content : List Char) : List Problem :=
  (extractPB content).map (problemOfMatch content)

/-- Issue list of one problem as assembled by `check_file`: the three
completeness checks followed by the extraction's `extra_qed_issues`. -/
def checkIssues (p : Problem) : List Issue :=
  (if p.has_strategy then [] else [Issue.missingStrategy]) ++
  (if p.has_solution then [] else [Issue.missingSolution]) ++
  (if p.has_solution && !p.has_qed then [Issue.missingQed] else []) ++
  p.extra_qed_issues

/-- Issue report of a document (`check_file`): title and issues of every
problem that has at least one issue. -/
def check_file (content : List Char) : List (List Char × List Issue) :=
  (extract_problems content).filterMap (fun p =>
    let issues := checkIssues p
    if issues.isEmpty then none else some (p.title, issues))

/-- Completeness test of the detailed report (`generate_detailed_report`,
lines deciding `COMPLETE`): strategy and solution present and the closing
marker correct. -/
def isProblemComplete (p : Problem) : Bool :=
  let is_qed_correct :=
    (p.has_solution && p.has_qed && p.extra_qed_issues.isEmpty) ||
    (!p.has_solution)
  p.has_strategy && p.has_solution && is_qed_correct

/-- Complete-problem and total-problem counters accumulated by
`generate_detailed_report` over the documents (a document with no problems
contributes nothing, matching the `continue`). -/
def detailedReportTotals (docs : List (List Char)) : Nat × Nat :=
  docs.foldl (fun acc d =>
    let ps := extract_problems d
    (acc.1 + (ps.filter isProblemComplete).length, acc.2 + ps.length))
    (0, 0)

/-- Outcome of the final `TOTAL` line of `generate_detailed_report`, which
computes `complete_problems/total_problems*100` with no guard: `none` models
the `ZeroDivisionError` raised when the total is zero, and the percentage is
modelled in tenths of a percent (the float formatting itself is irrelevant to
the division's definedness). -/
def detailedReportRun (docs : List (List Char)) :
    Option (Nat × Nat × Nat) :=
  let t := detailedReportTotals docs
  if t.2 = 0 then none else some (t.1, t.2, t.1 * 1000 / t.2)

/-- Exit outcome of `main`, given whether the target directory exists, the
chapter documents found in it, and the two flags.  `some c` is a normal
`sys.exit` with status `c`; `none` models termination by an uncaught
exception (the unguarded division of the detailed report, the only
uncaught-exception site: all file errors are caught per file).  The detailed
report is suppressed under `--fix` and returns early when no chapter files
exist. -/
def mainRun (dirExists : Bool) (docs : List (List Char))
    (autoFix detailed : Bool) : Option Nat :=
  if !dirExists then some 1
  else if detailed && !autoFix then
    if docs.isEmpty then some 0
    else
      match detailedReportRun docs with
      | some _ => some 0
      | none => none
  else some 0

/-! ### Repair pass 1: insert missing closing marker (`fix_missing_qed`) -/

/-- Body of one iteration of the `fix_missing_qed` loop, for the (stale)
match `m` against the current `content`: when the record's window has a
solution label, no `\qed` after it, and non-empty post-solution content
after stripping trailing whitespace, insert `\qed` right after the stripped
content; otherwise leave the content unchanged.  Returns the new content and
the number of fixes applied (0 or 1). -/
def fixMissingStep (content : List Char) (m : PBMatch) : List Char × Nat :=
  let pbEnd := m.mend
  let sc := windowOf content pbEnd
  match findSub solutionLabel sc with
  | none => (content, 0)
  | some so =>
    let solEnd := so + solutionLabel.length
    let afterSol := List.drop solEnd sc
    match findSub qedTok afterSol with
    | some _ => (content, 0)
    | none =>
      let solutionContent := rstripChars afterSol
      if solutionContent.isEmpty then (content, 0)
      else
        let insertAt := pbEnd + solEnd + solutionContent.length
        (List.take insertAt content ++ qedTok ++ List.drop insertAt content, 1)

/-- In-memory effect of `fix_missing_qed` on one document: matches are
computed once from the original content and processed in reverse document
order, each step rereading the current content at the stale offsets. -/
def fix_missing_qed (content : List Char) : List Char × Nat :=
  ((extractPB content).reverse).foldl
    (fun acc m =>
      let r := fixMissingStep acc.1 m
      (r.1, acc.2 + r.2))
    (content, 0)

/-- File-level result of `fix_missing_qed`: when at least one fix was applied
the new content is written back, and a write failure (modelled by
`writeOk = false`) is reported and makes the pass return zero fixes, the file
keeping its original content.  Returns the on-disk content and the count
returned by the pass. -/
def fixMissingQedRun (writeOk : Bool) (content : List Char) :
    List Char × Nat :=
  let r := fix_missing_qed content
  if 0 < r.2 then (if writeOk then r else (content, 0)) else (content, r.2)

/-- Insertion of the closing marker at offset `q` of a document, the edit
shape produced by `fixMissingStep`. -/
def insertQed (q : Nat) (s : List Char) : List Char :=
  List.take q s ++ qedTok ++ List.drop q s

/-- A problembox match displaced by `k` characters, the effect of an earlier
insertion on a later record's offsets. -/
def shiftPB (k : Nat) (m : PBMatch) : PBMatch :=
  ⟨m.mstart + k, m.mlen, m.title, m.body⟩

/-- The decision taken by one iteration of the `fix_missing_qed` loop, as a
function of the record's end offset and its window: `none` when the record is
left alone, `some q` when `\qed` is inserted at document offset `q`. -/
def insDecisionW (pbEnd : Nat) (sc : List Char) : Option Nat :=
  match findSub solutionLabel sc with
  | none => none
  | some so =>
    match findSub qedTok (List.drop (so + solutionLabel.length) sc) with
    | some _ => none
    | none =>
      if (rstripChars (List.drop (so + solutionLabel.length) sc)).isEmpty
      then none
      else some (pbEnd + (so + solutionLabel.length) +
        (rstripChars (List.drop (so + solutionLabel.length) sc)).length)

/-! ### Repair pass 2: collapse excess closing markers (`fix_extra_qed`) -/

/-- Body of one iteration of the `fix_extra_qed` loop: with a solution label
and more than one `\qed` after it, keep the first occurrence and delete all
occurrences of `\qed` from the rest of the window; with no solution label and
at least one `\qed` in the window, delete all occurrences from the window. -/
def fixExtraStep (content : List Char) (m : PBMatch) : List Char × Nat :=
  let pbEnd := m.mend
  let sc := windowOf content pbEnd
  match findSub solutionLabel sc with
  | some so =>
    let solEnd := so + solutionLabel.length
    let afterSol := List.drop solEnd sc
    match tokOffsets qedTok afterSol with
    | q0 :: _ :: _ =>
      let firstQedEnd := q0 + qedTok.length
      let fixedContent := removeAll qedTok (List.drop firstQedEnd afterSol)
      let solStart := pbEnd + solEnd
      (List.take (solStart + firstQedEnd) content ++ fixedContent ++
        List.drop (solStart + afterSol.length) content,
       (tokOffsets qedTok afterSol).length - 1)
    | _ => (content, 0)
  | none =>
    match tokOffsets qedTok sc with
    | [] => (content, 0)
    | qs =>
      (List.take pbEnd content ++ removeAll qedTok sc ++
        List.drop (pbEnd + sc.length) content,
       qs.length)

/-- In-memory effect of `fix_extra_qed` on one document (stale matches,
reverse order, as in `fix_missing_qed`). -/
def fix_extra_qed (content : List Char) : List Char × Nat :=
  ((extractPB content).reverse).foldl
    (fun acc m =>
      let r := fixExtraStep acc.1 m
      (r.1, acc.2 + r.2))
    (content, 0)

/-- File-level result of `fix_extra_qed` (write failure returns zero). -/
def fixExtraQedRun (writeOk : Bool) (content : List Char) :
    List Char × Nat :=
  let r := fix_extra_qed content
  if 0 < r.2 then (if writeOk then r else (content, 0)) else (content, r.2)

/-! ### Repair pass 3: wrap importance remarks (`fix_importance_sections`) -/

/-- Position of the first importance-content boundary in `s`: the first
offset where `\textbf\x7b`, `\begin\x7b` or `\end\x7b` starts, or `s.length`
when none occurs (the regex lookahead
`(?=\\textbf\{|\\begin\{|\\end\{|$)` with lazy content). -/
def firstBoundary : List Char → Nat
  | [] => 0
  | c :: rest =>
    if textbfBrace.isPrefixOf (c :: rest) || beginBrace.isPrefixOf (c :: rest)
        || endBrace.isPrefixOf (c :: rest) then 0
    else 1 + firstBoundary rest

/-- Importance matches of a window: for each occurrence of the importance
label, the match start, the match end (label plus lazy content up to the
first boundary) and the raw content group.  Since the label itself starts
with the boundary token `\textbf\x7b` and cannot occur inside a content
group, the non-overlapping occurrences of the label enumerate exactly the
`re.finditer` matches of the importance pattern. -/
def impMatchesIn (sc : List Char) : List (Nat × Nat × List Char) :=
  (tokOffsets importanceLabel sc).map (fun p =>
    let rest := List.drop (p + importanceLabel.length) sc
    let b := firstBoundary rest
    (p, p + importanceLabel.length + b, List.take b rest))

/-- Body of one iteration of the `fix_importance_sections` loop for one
record: the importance matches (with their window-relative offsets and the
lookback/lookahead texts) are taken from the window `sc` computed when the
record was reached, while edits apply to the evolving content at the stale
offsets, in reverse order of the matches. -/
def fixImportanceStep (content : List Char) (m : PBMatch) : List Char × Nat :=
  let pbEnd := m.mend
  let sc := windowOf content pbEnd
  ((impMatchesIn sc).reverse).foldl
    (fun acc im =>
      let istart := im.1
      let iend := im.2.1
      let icontent := stripChars im.2.2
      let before := List.take istart sc
      let afterImp := List.drop iend sc
      if containsSub importanceOpen (lastN 50 before) then acc
      else if containsSub importanceClose (List.take 50 afterImp) then acc
      else
        let wrapped := importanceOpen ++ nlChar ++ importanceLabel ++
          icontent ++ nlChar ++ importanceClose
        (List.take (pbEnd + istart) acc.1 ++ wrapped ++
          List.drop (pbEnd + iend) acc.1,
         acc.2 + 1))
    (content, 0)

/-- In-memory effect of `fix_importance_sections` on one document. -/
def fix_importance_sections (content : List Char) : List Char × Nat :=
  ((extractPB content).reverse).foldl
    (fun acc m =>
      let r := fixImportanceStep acc.1 m
      (r.1, acc.2 + r.2))
    (content, 0)

/-- File-level result of `fix_importance_sections` (write failure returns
zero). -/
def fixImportanceRun (writeOk : Bool) (content : List Char) :
    List Char × Nat :=
  let r := fix_importance_sections content
  if 0 < r.2 then (if writeOk then r else (content, 0)) else (content, r.2)

/-- Skip condition of one inner iteration of `fix_importance_sections` for
the importance match `im` of the window `sc`: the remark is detected as
already wrapped when the wrapper-open token occurs in the 50-character
lookback before the match or the wrapper-close token occurs in the
50-character lookahead after it. -/
def impSkip (sc : List Char) (im : Nat × Nat × List Char) : Bool :=
  containsSub importanceOpen (lastN 50 (List.take im.1 sc)) ||
  containsSub importanceClose (List.take 50 (List.drop im.2.1 sc))

/-- The replacement text produced when wrapping a remark whose stripped
content is `icontent`. -/
def wrapBlock (icontent : List Char) : List Char :=
  importanceOpen ++ nlChar ++ importanceLabel ++ icontent ++ nlChar ++
    importanceClose

/-- Every importance match of the window `sc` is detected as already
wrapped. -/
def MarkedW (sc : List Char) : Prop :=
  ∀ im ∈ impMatchesIn sc, impSkip sc im = true

/-- The boundary test of the lazy importance-content group: the position
starts with a bold-label, begin-environment or end-environment token
(the lookahead alternatives of the importance pattern). -/
def isBoundary (s : List Char) : Bool :=
  textbfBrace.isPrefixOf s || beginBrace.isPrefixOf s || endBrace.isPrefixOf s

/-- A text free of all three boundary tokens (the shape of an importance
content group). -/
def boundaryFree (g : List Char) : Prop :=
  ∀ i, isBoundary (List.drop i g) = false

/-- The importance label at offset `r` of `v` is detected as already wrapped
when its match (with the extent the importance pattern would give it in `v`)
satisfies the skip condition. -/
def markedAt (v : List Char) (r : Nat) : Prop :=
  impSkip v (r, r + importanceLabel.length +
    firstBoundary (List.drop (r + importanceLabel.length) v), []) = true

/-- One inner iteration of the `fix_importance_sections` loop: skip when the
lookback holds the wrapper-open token or the lookahead holds the
wrapper-close token, otherwise replace the match region (at its stale
offsets) with the wrapped block.  `fixImportanceStep` folds this over the
reversed match list. -/
def impInnerStep (sc : List Char) (pbEnd : Nat)
    (acc : List Char × Nat) (im : Nat × Nat × List Char) : List Char × Nat :=
  if containsSub importanceOpen (lastN 50 (List.take im.1 sc)) then acc
  else if containsSub importanceClose
      (List.take 50 (List.drop im.2.1 sc)) then acc
  else
    (List.take (pbEnd + im.1) acc.1 ++ wrapBlock (stripChars im.2.2) ++
      List.drop (pbEnd + im.2.1) acc.1,
     acc.2 + 1)

/-- End offset of the importance match starting at `π` in `sc`: the label
plus the lazy content group up to the first boundary. -/
def impExtent (sc : List Char) (π : Nat) : Nat :=
  π + importanceLabel.length +
    firstBoundary (List.drop (π + importanceLabel.length) sc)

/-- The window text produced by one record's inner loop, built left to right
from the cursor `c`: skipped matches leave the text alone, a wrapped match
contributes the segment before it, the wrapped block, and the rewrite of the
remaining matches from its stale end offset. -/
def impRewrite (sc : List Char) : Nat → List (Nat × Nat × List Char) →
    List Char
  | c, [] => List.drop c sc
  | c, im :: rest =>
    if impSkip sc im then impRewrite sc c rest
    else List.take (im.1 - c) (List.drop c sc) ++
      wrapBlock (stripChars im.2.2) ++ impRewrite sc im.2.1 rest

/-- Number of matches of the inner loop that are wrapped (not skipped). -/
def impFired (sc : List Char) (l : List (Nat × Nat × List Char)) : Nat :=
  (l.filter (fun im => ! impSkip sc im)).length

/-! ### Companion-section offsets attributed to a record (claim C3) -/

/-- Window-relative start offsets of every companion-section match attributed
to a record with window `sc`: the strategy label match, the solution label
match, and the `\qed` occurrences (searched after the solution label when it
exists, in the whole window otherwise), exactly as located by
`extract_problems`. -/
def companionOffsets (sc : List Char) : List Nat :=
  (match findSub strategyLabel sc with
   | some j => [j]
   | none => []) ++
  (match findSub solutionLabel sc with
   | some so =>
     so :: (tokOffsets qedTok (List.drop (so + solutionLabel.length) sc)).map
       (fun q => so + solutionLabel.length + q)
   | none => tokOffsets qedTok sc)

/-! ### Combinatorial side conditions on tokens -/

/-- A token has no self-overlap when no proper non-empty prefix of it is also
a suffix; two occurrences of such a token can never overlap. -/
def noOverlap (pat : List Char) : Prop :=
  ∀ k, 0 < k → k < pat.length →
    List.take k pat ≠ List.drop (pat.length - k) pat

/-- No occurrence of `pat` can overlap an inserted copy of `ins` (for
`ins` shorter than `pat`): no suffix of `pat` is a prefix of `ins`, no
prefix of `pat` is a suffix of `ins`, and `ins` does not occur inside
`pat`. -/
def noCrossIns (pat ins : List Char) : Prop :=
  (∀ k, 0 < k → k ≤ ins.length →
     List.drop (pat.length - k) pat ≠ List.take k ins) ∧
  (∀ d, 0 < d → d < ins.length →
     List.take (ins.length - d) pat ≠ List.drop d ins) ∧
  (∀ d, 0 < d → d + ins.length ≤ pat.length →
     List.take ins.length (List.drop d pat) ≠ ins) ∧
  List.take ins.length pat ≠ ins ∧
  (∀ d, d + pat.length ≤ ins.length → ¬ pat <+: List.drop d ins)

/-- Executable check of `noCrossIns`, ranging over the finitely many overlap
lengths. -/
def noCrossInsB (pat ins : List Char) : Bool :=
  ((List.range (ins.length + 1)).all (fun k =>
    decide (k = 0) ||
      decide (List.drop (pat.length - k) pat ≠ List.take k ins))) &&
  ((List.range ins.length).all (fun d =>
    decide (d = 0) ||
      decide (List.take (ins.length - d) pat ≠ List.drop d ins))) &&
  ((List.range (pat.length + 1)).all (fun d =>
    decide (d = 0) || decide (¬ d + ins.length ≤ pat.length) ||
      decide (List.take ins.length (List.drop d pat) ≠ ins))) &&
  decide (List.take ins.length pat ≠ ins) &&
  ((List.range (ins.length + 1)).all (fun d =>
    decide (¬ d + pat.length ≤ ins.length) ||
      decide (¬ pat.isPrefixOf (List.drop d ins))))

/-! ### Concrete documents used by counterexamples and witnesses -/

/-- Document with two records: the first has a strategy and a solution but no
closing marker, the second has a strategy and a closing marker but no
solution. -/
def docDup : List Char :=
  ("\\begin\x7bproblembox\x7d[P1]b\\end\x7bproblembox\x7d\\textbf\x7bStrategy:\x7d s \\textbf\x7bSolution:\x7d work\\begin\x7bproblembox\x7d[P2]b\\end\x7bproblembox\x7d\\textbf\x7bStrategy:\x7d s \\qed").data

/-- Document with no problembox records at all. -/
def docNoRecords : List Char := ("hello").data

/-- Document whose single record has no solution label and one closing-marker
occurrence sitting inside `\q\qeded`, where deleting the occurrence glues a
new occurrence together. -/
def docJunction : List Char :=
  ("\\begin\x7bproblembox\x7d[T]P\\end\x7bproblembox\x7d \\q\\qeded").data

/-- Document with two adjacent records, the first followed by a solution and
a closing marker. -/
def docTwoRec : List Char :=
  ("\\begin\x7bproblembox\x7d[A]x\\end\x7bproblembox\x7d\\textbf\x7bSolution:\x7dok\\qed\\begin\x7bproblembox\x7d[B]y\\end\x7bproblembox\x7d").data

/-- Document whose single record has a solution with content but no closing
marker (trailing whitespace after the content). -/
def docMissing : List Char :=
  ("\\begin\x7bproblembox\x7d[W]b\\end\x7bproblembox\x7d\\textbf\x7bSolution:\x7d work  ").data

/-- Document whose single record has a solution followed by three separated
closing markers. -/
def docThreeQed : List Char :=
  ("\\begin\x7bproblembox\x7d[T3]b\\end\x7bproblembox\x7d\\textbf\x7bSolution:\x7dA\\qed B\\qed C\\qed D").data

/-- Document whose single record has a solution followed by `\qed` and by
`\qedhere`, a longer command of which the marker is a proper prefix. -/
def docQedHere : List Char :=
  ("\\begin\x7bproblembox\x7d[Q]b\\end\x7bproblembox\x7d\\textbf\x7bSolution:\x7dA\\qed B\\qedhere C").data

/-- Document whose single record has an unwrapped importance remark. -/
def docImp : List Char :=
  ("\\begin\x7bproblembox\x7d[I]b\\end\x7bproblembox\x7d\\textbf\x7bImportance:\x7d really big deal ").data

/-! ## Lemmas about the search primitives -/

theorem findSub_some_prefix (pat : List Char) :
    ∀ (s : List Char) (i : Nat),
      findSub pat s = some i → pat <+: List.drop i s := by
  intro s
  induction s with
  | nil =>
    intro i h
    simp only [findSub] at h
    split at h
    · simp only [Option.some.injEq] at h
      subst h
      rename_i hempty
      simp only [List.isEmpty_iff] at hempty
      simp [hempty]
    · exact absurd h (by simp)
  | cons c rest ih =>
    intro i h
    simp only [findSub] at h
    split at h
    · simp only [Option.some.injEq] at h
      subst h
      rename_i hpre
      simpa using List.isPrefixOf_iff_prefix.mp hpre
    · cases hm : findSub pat rest with
      | none => rw [hm] at h; simp at h
      | some j =>
        rw [hm] at h
        simp only [Option.map_some', Option.some.injEq] at h
        subst h
        simpa [List.drop_succ_cons] using ih j hm

theorem findSub_min (pat : List Char) :
    ∀ (s : List Char) (n : Nat), findSub pat s = some n →
      ∀ i, i < n → ¬ pat <+: List.drop i s := by
  intro s
  induction s with
  | nil =>
    intro n h i hi
    simp only [findSub] at h
    split at h
    · simp only [Option.some.injEq] at h; omega
    · exact absurd h (by simp)
  | cons c rest ih =>
    intro n h i hi
    simp only [findSub] at h
    split at h
    · simp only [Option.some.injEq] at h; omega
    · cases hm : findSub pat rest with
      | none => rw [hm] at h; simp at h
      | some j =>
        rw [hm] at h
        simp only [Option.map_some', Option.some.injEq] at h
        subst h
        cases i with
        | zero =>
          rename_i hpre
          simp only [List.drop_zero]
          intro hcon
          exact hpre (List.isPrefixOf_iff_prefix.mpr hcon)
        | succ i' =>
          simp only [List.drop_succ_cons]
          exact ih j hm i' (by omega)

theorem findSub_exists_le (pat : List Char) :
    ∀ (s : List Char) (p : Nat), pat <+: List.drop p s →
      ∃ i, findSub pat s = some i ∧ i ≤ p := by
  intro s
  induction s with
  | nil =>
    intro p h
    rw [List.drop_nil] at h
    rw [List.prefix_nil] at h
    subst h
    exact ⟨0, by simp [findSub], Nat.zero_le p⟩
  | cons c rest ih =>
    intro p h
    by_cases hpre : pat.isPrefixOf (c :: rest)
    · exact ⟨0, by simp [findSub, hpre], Nat.zero_le p⟩
    · cases p with
      | zero =>
        rw [List.drop_zero] at h
        exact absurd (List.isPrefixOf_iff_prefix.mpr h) hpre
      | succ p' =>
        rw [List.drop_succ_cons] at h
        obtain ⟨i, hfind, hle⟩ := ih p' h
        refine ⟨i + 1, ?_, by omega⟩
        simp [findSub, hpre, hfind]

theorem findSub_none_no_occ (pat : List Char) (s : List Char)
    (h : findSub pat s = none) : ∀ i, ¬ pat <+: List.drop i s := by
  intro i hocc
  obtain ⟨j, hfind, _⟩ := findSub_exists_le pat s i hocc
  rw [h] at hfind
  exact absurd hfind (by simp)

theorem prefix_drop_bound {pat s : List Char} {i : Nat} (hpat : pat ≠ [])
    (h : pat <+: List.drop i s) : i + pat.length ≤ s.length := by
  have h1 := h.length_le
  rw [List.length_drop] at h1
  have h2 : 0 < pat.length := List.length_pos.mpr hpat
  omega

theorem tokOffsetsAux_mem (pat : List Char) :
    ∀ (s : List Char) (skip q : Nat), q ∈ tokOffsetsAux pat skip s →
      pat <+: List.drop q s := by
  intro s
  induction s with
  | nil => intro skip q h; simp [tokOffsetsAux] at h
  | cons c rest ih =>
    intro skip q h
    match skip, h with
    | Nat.succ k, h =>
      simp only [tokOffsetsAux, List.mem_map] at h
      obtain ⟨q', hq', rfl⟩ := h
      rw [List.drop_succ_cons]
      exact ih k q' hq'
    | 0, h =>
      simp only [tokOffsetsAux] at h
      by_cases hpre : pat.isPrefixOf (c :: rest)
      · rw [if_pos hpre] at h
        rcases List.mem_cons.mp h with h0 | hrest
        · subst h0
          simpa using List.isPrefixOf_iff_prefix.mp hpre
        · simp only [List.mem_map] at hrest
          obtain ⟨q', hq', rfl⟩ := hrest
          rw [List.drop_succ_cons]
          exact ih _ q' hq'
      · rw [if_neg hpre] at h
        simp only [List.mem_map] at h
        obtain ⟨q', hq', rfl⟩ := h
        rw [List.drop_succ_cons]
        exact ih 0 q' hq'

theorem tokOffsets_head_min (pat : List Char) :
    ∀ (s : List Char) (q : Nat) (qs : List Nat),
      tokOffsetsAux pat 0 s = q :: qs → ∀ i, i < q → ¬ pat <+: List.drop i s := by
  intro s
  induction s with
  | nil => intro q qs h; simp [tokOffsetsAux] at h
  | cons c rest ih =>
    intro q qs h i hi
    simp only [tokOffsetsAux] at h
    by_cases hpre : pat.isPrefixOf (c :: rest)
    · rw [if_pos hpre] at h
      simp only [List.cons.injEq] at h
      omega
    · rw [if_neg hpre] at h
      cases htok : tokOffsetsAux pat 0 rest with
      | nil => rw [htok] at h; simp at h
      | cons q' qs' =>
        rw [htok] at h
        simp only [List.map_cons, List.cons.injEq] at h
        obtain ⟨rfl, _⟩ := h
        cases i with
        | zero =>
          simp only [List.drop_zero]
          intro hcon
          exact hpre (List.isPrefixOf_iff_prefix.mpr hcon)
        | succ i' =>
          rw [List.drop_succ_cons]
          exact ih q' qs' htok i' (by omega)

theorem tokOffsetsAux_nil_iff (pat : List Char) (hpat : pat ≠ []) :
    ∀ (s : List Char), tokOffsetsAux pat 0 s = [] ↔ findSub pat s = none := by
  intro s
  induction s with
  | nil => simp [tokOffsetsAux, findSub, hpat]
  | cons c rest ih =>
    simp only [tokOffsetsAux, findSub]
    split
    · simp
    · cases htok : tokOffsetsAux pat 0 rest with
      | nil =>
        have := ih.mp htok
        simp [this]
      | cons q' qs' =>
        have : findSub pat rest ≠ none := by
          intro hn
          rw [ih.mpr hn] at htok
          exact absurd htok (by simp)
        cases hf : findSub pat rest with
        | none => exact absurd hf this
        | some j => simp

theorem prefix_append_iff_of_le {pat u : List Char} (z : List Char)
    (h : pat.length ≤ u.length) : pat <+: u ++ z ↔ pat <+: u := by
  constructor
  · intro hp
    rw [List.prefix_iff_eq_take] at hp ⊢
    rw [List.take_append_eq_append_take] at hp
    have h0 : pat.length - u.length = 0 := by omega
    rw [h0, List.take_zero, List.append_nil] at hp
    exact hp
  · intro hp
    exact hp.trans (List.prefix_append u z)

theorem map_add_add (l : List Nat) (a b : Nat) :
    (l.map (fun n => n + a)).map (fun n => n + b) =
      l.map (fun n => n + (a + b)) := by
  rw [List.map_map]
  apply List.map_congr_left
  intro n _
  simp [Function.comp, Nat.add_assoc]

theorem tokOffsetsAux_skip (pat : List Char) :
    ∀ (u y : List Char),
      tokOffsetsAux pat u.length (u ++ y) =
        (tokOffsetsAux pat 0 y).map (fun n => n + u.length) := by
  intro u
  induction u with
  | nil =>
    intro y
    simp
  | cons c u' ih =>
    intro y
    simp only [List.cons_append, List.length_cons, tokOffsetsAux, List.append_eq]
    rw [ih y]
    rw [map_add_add]

theorem no_junction_start {pat : List Char} (hno : noOverlap pat)
    (u z : List Char) (hu : u ≠ []) (hlen : u.length < pat.length) :
    ¬ pat <+: (u ++ (pat ++ z)) := by
  intro h
  have hp := List.prefix_iff_eq_take.mp h
  rw [List.take_append_eq_append_take] at hp
  rw [List.take_of_length_le (by omega)] at hp
  rw [List.take_append_of_le_length (by omega)] at hp
  have hdrop : List.drop u.length pat = List.take (pat.length - u.length) pat := by
    conv_lhs => rw [hp]
    rw [List.drop_left]
  have h0 : 0 < u.length := List.length_pos.mpr hu
  have := hno (pat.length - u.length) (by omega) (by omega)
  rw [show pat.length - (pat.length - u.length) = u.length by omega] at this
  exact this hdrop.symm

theorem tokOffsetsAux_insert_self (pat : List Char) (hpat : pat ≠ [])
    (hno : noOverlap pat) :
    ∀ (x y : List Char), (∀ i, ¬ pat <+: List.drop i x) →
      tokOffsetsAux pat 0 (x ++ pat ++ y) =
        x.length ::
          (tokOffsetsAux pat 0 y).map (fun n => n + (x.length + pat.length)) := by
  intro x
  induction x with
  | nil =>
    intro y _
    obtain ⟨p0, pt, rfl⟩ : ∃ p0 pt, pat = p0 :: pt := by
      cases pat with
      | nil => exact absurd rfl hpat
      | cons a b => exact ⟨a, b, rfl⟩
    simp only [List.nil_append, List.cons_append, tokOffsetsAux, List.append_eq]
    rw [if_pos (List.isPrefixOf_iff_prefix.mpr
      (by rw [← List.cons_append]; exact List.prefix_append _ y))]
    have hskip := tokOffsetsAux_skip (p0 :: pt) pt y
    simp only [List.length_cons] at hskip ⊢
    rw [show pt.length + 1 - 1 = pt.length by omega]
    rw [hskip, map_add_add]
    simp
  | cons c x' ih =>
    intro y hx
    have hnotpre : ¬ pat.isPrefixOf ((c :: x') ++ pat ++ y) := by
      intro hpre
      have hp : pat <+: (c :: x') ++ pat ++ y :=
        List.isPrefixOf_iff_prefix.mp hpre
      by_cases hle : pat.length ≤ (c :: x').length
      · rw [List.append_assoc] at hp
        rw [prefix_append_iff_of_le _ hle] at hp
        exact hx 0 (by simpa using hp)
      · rw [List.append_assoc] at hp
        exact no_junction_start hno (c :: x') y (by simp) (by omega) hp
    simp only [List.cons_append, tokOffsetsAux, List.append_eq]
    rw [if_neg (by simpa [List.cons_append] using hnotpre)]
    have hx' : ∀ i, ¬ pat <+: List.drop i x' := by
      intro i
      have := hx (i + 1)
      rwa [List.drop_succ_cons] at this
    rw [ih y hx', List.map_cons, map_add_add]
    simp only [List.length_cons]
    congr 1
    apply List.map_congr_left
    intro n _
    omega

theorem prefix_drop_append_left_of (pat u z : List Char) (i : Nat)
    (h : pat <+: List.drop i u) : pat <+: List.drop i (u ++ z) := by
  by_cases hle : i ≤ u.length
  · rw [List.drop_append_of_le_length hle]
    exact h.trans (List.prefix_append _ z)
  · rw [List.drop_of_length_le (by omega)] at h
    rw [List.prefix_nil] at h
    subst h
    exact List.nil_prefix

theorem prefix_drop_insert_iff (pat ins u v : List Char)
    (hpat : pat ≠ []) (hnc : noCrossIns pat ins) (i : Nat) :
    pat <+: List.drop i (u ++ ins ++ v) ↔
      (pat <+: List.drop i u) ∨
      (u.length + ins.length ≤ i ∧
        pat <+: List.drop (i - (u.length + ins.length)) v) := by
  have hpl : 0 < pat.length := List.length_pos.mpr hpat
  obtain ⟨hA, hB, hC, hD, hE⟩ := hnc
  constructor
  · intro hp
    by_cases hc1 : i + pat.length ≤ u.length
    · left
      rw [List.append_assoc, List.drop_append_of_le_length (by omega)] at hp
      rw [prefix_append_iff_of_le _ (by rw [List.length_drop]; omega)] at hp
      exact hp
    · by_cases hc2 : u.length + ins.length ≤ i
      · right
        refine ⟨hc2, ?_⟩
        rw [List.drop_append_eq_append_drop,
          List.drop_of_length_le (by rw [List.length_append]; omega),
          List.length_append, List.nil_append] at hp
        exact hp
      · exfalso
        by_cases hc3 : i < u.length
        · rw [List.append_assoc, List.drop_append_of_le_length (by omega)] at hp
          have hulen : (List.drop i u).length = u.length - i := by
            rw [List.length_drop]
          have hup : 0 < (List.drop i u).length := by omega
          have hplarge : (List.drop i u).length < pat.length := by omega
          have hsplit : pat =
              List.drop i u ++ List.take (pat.length - (u.length - i)) (ins ++ v) := by
            have := List.prefix_iff_eq_take.mp hp
            rw [List.take_append_eq_append_take,
              List.take_of_length_le (by omega), hulen] at this
            exact this
          have hdru : List.drop (List.drop i u).length pat =
              List.take (pat.length - (u.length - i)) (ins ++ v) := by
            conv_lhs => rw [hsplit]
            rw [List.drop_left]
          by_cases hc4 : pat.length - (u.length - i) ≤ ins.length
          · rw [List.take_append_of_le_length hc4] at hdru
            refine hA (pat.length - (u.length - i)) (by omega) hc4 ?_
            rw [show pat.length - (pat.length - (u.length - i)) = u.length - i
              by omega]
            rw [← hulen, hdru, hulen]
          · rw [List.take_append_eq_append_take,
              List.take_of_length_le (by omega)] at hdru
            refine hC (List.drop i u).length (by omega) (by omega) ?_
            rw [hdru]
            rw [List.take_left]
        · have hd : i - u.length < ins.length := by omega
          have hi : u.length ≤ i := by omega
          rw [List.append_assoc, List.drop_append_eq_append_drop,
            List.drop_of_length_le (by omega), List.nil_append,
            List.drop_append_of_le_length (by omega)] at hp
          have hlend : (List.drop (i - u.length) ins).length =
              ins.length - (i - u.length) := by rw [List.length_drop]
          by_cases hbd : ins.length - (i - u.length) < pat.length
          · have hsplit : pat = List.drop (i - u.length) ins ++
                List.take (pat.length - (ins.length - (i - u.length))) v := by
              have := List.prefix_iff_eq_take.mp hp
              rw [List.take_append_eq_append_take,
                List.take_of_length_le (by omega), hlend] at this
              exact this
            have htk : List.take (ins.length - (i - u.length)) pat =
                List.drop (i - u.length) ins := by
              conv_lhs => rw [hsplit]
              rw [← hlend, List.take_left]
            by_cases hd0 : i - u.length = 0
            · rw [hd0, List.drop_zero] at htk
              rw [show ins.length - 0 = ins.length by omega] at htk
              exact hD htk
            · exact hB (i - u.length) (by omega) hd htk
          · rw [prefix_append_iff_of_le _ (by omega)] at hp
            exact hE (i - u.length) (by omega) hp
  · intro hp
    rcases hp with h1 | ⟨h2, h3⟩
    · rw [List.append_assoc]
      exact prefix_drop_append_left_of pat u _ i h1
    · have : List.drop i (u ++ ins ++ v) =
          List.drop (i - (u.length + ins.length)) v := by
        rw [List.drop_append_eq_append_drop,
          List.drop_of_length_le (by rw [List.length_append]; omega),
          List.length_append, List.nil_append]
      rw [this]
      exact h3

theorem findSub_insert_none (pat ins u v : List Char)
    (hpat : pat ≠ []) (hnc : noCrossIns pat ins)
    (hu : ∀ i, ¬ pat <+: List.drop i u) :
    findSub pat (u ++ ins ++ v) =
      (findSub pat v).map (fun n => n + (u.length + ins.length)) := by
  cases hv : findSub pat v with
  | none =>
    cases hw : findSub pat (u ++ ins ++ v) with
    | none => simp
    | some m =>
      have hocc := findSub_some_prefix _ _ _ hw
      rw [prefix_drop_insert_iff pat ins u v hpat hnc] at hocc
      rcases hocc with h1 | ⟨h2, h3⟩
      · exact absurd h1 (hu m)
      · exact absurd h3 (findSub_none_no_occ pat v hv _)
  | some n =>
    have hocc := findSub_some_prefix pat v n hv
    have hex : pat <+: List.drop (u.length + ins.length + n) (u ++ ins ++ v) := by
      rw [prefix_drop_insert_iff pat ins u v hpat hnc]
      right
      refine ⟨by omega, ?_⟩
      rw [show u.length + ins.length + n - (u.length + ins.length) = n by omega]
      exact hocc
    obtain ⟨m, hm, hmle⟩ := findSub_exists_le pat _ _ hex
    have hoccm := findSub_some_prefix _ _ _ hm
    rw [prefix_drop_insert_iff pat ins u v hpat hnc] at hoccm
    rcases hoccm with h1 | ⟨h2, h3⟩
    · exact absurd h1 (hu m)
    · have hmin := findSub_min pat v n hv
      have hnlt : ¬ (m - (u.length + ins.length) < n) := fun hlt => hmin _ hlt h3
      rw [hm]
      simp only [Option.map_some', Option.some.injEq]
      omega

theorem findSub_insert_left (pat ins u v : List Char)
    (hpat : pat ≠ []) (hnc : noCrossIns pat ins)
    {j : Nat} (hu : findSub pat u = some j) :
    findSub pat (u ++ ins ++ v) = some j := by
  have hocc := findSub_some_prefix pat u j hu
  have hex : pat <+: List.drop j (u ++ ins ++ v) := by
    rw [prefix_drop_insert_iff pat ins u v hpat hnc]
    left
    exact hocc
  obtain ⟨m, hm, hmle⟩ := findSub_exists_le pat _ _ hex
  have hoccm := findSub_some_prefix _ _ _ hm
  rw [prefix_drop_insert_iff pat ins u v hpat hnc] at hoccm
  have hj : j + pat.length ≤ u.length := prefix_drop_bound hpat hocc
  rcases hoccm with h1 | ⟨h2, h3⟩
  · have hmin := findSub_min pat u j hu
    have : ¬ (m < j) := fun hlt => hmin m hlt h1
    rw [hm]
    congr 1
    omega
  · have : 0 < pat.length := List.length_pos.mpr hpat
    omega

theorem noCrossIns_of_B (pat ins : List Char)
    (h : noCrossInsB pat ins = true) : noCrossIns pat ins := by
  simp only [noCrossInsB, Bool.and_eq_true, List.all_eq_true,
    List.mem_range] at h
  obtain ⟨⟨⟨⟨hA, hB⟩, hC⟩, hD⟩, hE⟩ := h
  refine ⟨?_, ?_, ?_, ?_, ?_⟩
  · intro k h1 h2
    have := hA k (by omega)
    simp only [Bool.or_eq_true, decide_eq_true_eq] at this
    rcases this with h | h
    · omega
    · exact h
  · intro d h1 h2
    have := hB d (by omega)
    simp only [Bool.or_eq_true, decide_eq_true_eq] at this
    rcases this with h | h
    · omega
    · exact h
  · intro d h1 h2
    have := hC d (by omega)
    simp only [Bool.or_eq_true, decide_eq_true_eq] at this
    rcases this with (h | h) | h
    · omega
    · omega
    · exact h
  · simpa using hD
  · intro d hd
    have := hE d (by omega)
    simp only [Bool.or_eq_true, decide_eq_true_eq] at this
    rcases this with h | h
    · omega
    · intro hcon
      exact h (List.isPrefixOf_iff_prefix.mpr hcon)

theorem qedTok_noOverlap : noOverlap qedTok := by
  intro k h1 h2
  have h4 : qedTok.length = 4 := rfl
  rw [h4] at h2
  interval_cases k <;> decide

theorem noCross_beginTok_qed : noCrossIns beginTok qedTok :=
  noCrossIns_of_B _ _ (by decide)

theorem noCross_beginBracketTok_qed : noCrossIns beginBracketTok qedTok :=
  noCrossIns_of_B _ _ (by decide)

theorem noCross_endTok_qed : noCrossIns endTok qedTok :=
  noCrossIns_of_B _ _ (by decide)

theorem noCross_solutionLabel_qed : noCrossIns solutionLabel qedTok :=
  noCrossIns_of_B _ _ (by decide)

theorem noCross_strategyLabel_qed : noCrossIns strategyLabel qedTok :=
  noCrossIns_of_B _ _ (by decide)

/-! ## Lemmas about record extraction -/

theorem matchPBAt_isPrefix (s : List Char) (r : List Char × List Char × Nat)
    (h : matchPBAt s = some r) : beginBracketTok <+: s := by
  by_cases hpre : beginBracketTok.isPrefixOf s
  · exact List.isPrefixOf_iff_prefix.mp hpre
  · unfold matchPBAt at h
    rw [if_neg hpre] at h
    exact absurd h (by simp)

theorem findPB_prefix :
    ∀ (s : List Char) (r : Nat × List Char × List Char × Nat),
      findPB s = some r → beginBracketTok <+: List.drop r.1 s := by
  intro s
  induction s with
  | nil => intro r h; simp [findPB] at h
  | cons c rest ih =>
    intro r h
    simp only [findPB] at h
    cases hm : matchPBAt (c :: rest) with
    | some rm =>
      rw [hm] at h
      simp only [Option.some.injEq] at h
      subst h
      simpa using matchPBAt_isPrefix _ rm hm
    | none =>
      rw [hm] at h
      rw [Option.map_eq_some'] at h
      obtain ⟨r', hr', rfl⟩ := h
      rw [List.drop_succ_cons]
      exact ih r' hr'

theorem finditerPB_mem : ∀ (fuel off : Nat) (s : List Char) (m : PBMatch),
    m ∈ finditerPB fuel off s →
      off ≤ m.mstart ∧ beginBracketTok <+: List.drop (m.mstart - off) s := by
  intro fuel
  induction fuel with
  | zero => intro off s m h; simp [finditerPB] at h
  | succ fuel ih =>
    intro off s m h
    simp only [finditerPB] at h
    cases hf : findPB s with
    | none => rw [hf] at h; simp at h
    | some r =>
      obtain ⟨i, t, b, n⟩ := r
      rw [hf] at h
      rcases List.mem_cons.mp h with h0 | hrest
      · subst h0
        refine ⟨by simp, ?_⟩
        have : off + i - off = i := by omega
        rw [this]
        exact findPB_prefix s (i, t, b, n) hf
      · obtain ⟨h1, h2⟩ := ih (off + i + n) (List.drop (i + n) s) m hrest
        refine ⟨by omega, ?_⟩
        rw [List.drop_drop] at h2
        rw [show i + n + (m.mstart - (off + i + n)) = m.mstart - off
          by omega] at h2
        exact h2

theorem finditerPB_pairwise : ∀ (fuel off : Nat) (s : List Char),
    List.Pairwise (fun a b => a.mend ≤ b.mstart) (finditerPB fuel off s) := by
  intro fuel
  induction fuel with
  | zero => intro off s; simp [finditerPB]
  | succ fuel ih =>
    intro off s
    simp only [finditerPB]
    cases hf : findPB s with
    | none => exact List.Pairwise.nil
    | some r =>
      obtain ⟨i, t, b, n⟩ := r
      refine List.Pairwise.cons ?_ (ih _ _)
      intro m hm
      have := (finditerPB_mem fuel (off + i + n) _ m hm).1
      simp only [PBMatch.mend]
      omega

theorem companionOffsets_lt (sc : List Char) (o : Nat)
    (ho : o ∈ companionOffsets sc) : o < sc.length := by
  simp only [companionOffsets, List.mem_append] at ho
  rcases ho with h | h
  · cases hs : findSub strategyLabel sc with
    | none => rw [hs] at h; simp at h
    | some j =>
      rw [hs] at h
      simp only [List.mem_singleton] at h
      subst h
      have hp := findSub_some_prefix _ _ _ hs
      have hb := prefix_drop_bound (show strategyLabel ≠ [] by decide) hp
      have : 0 < strategyLabel.length := by decide
      omega
  · cases hsol : findSub solutionLabel sc with
    | none =>
      rw [hsol] at h
      have hp := tokOffsetsAux_mem qedTok sc 0 o h
      have hb := prefix_drop_bound (show qedTok ≠ [] by decide) hp
      have : 0 < qedTok.length := by decide
      omega
    | some so =>
      rw [hsol] at h
      have hsolb := prefix_drop_bound (show solutionLabel ≠ [] by decide)
        ( findSub_some_prefix _ _ _ hsol)
      rcases List.mem_cons.mp h with h0 | hq
      · subst h0
        have : 0 < solutionLabel.length := by decide
        omega
      · simp only [List.mem_map] at hq
        obtain ⟨q, hq, rfl⟩ := hq
        have hp := tokOffsetsAux_mem qedTok _ 0 q hq
        have hb := prefix_drop_bound (show qedTok ≠ [] by decide) hp
        rw [List.length_drop] at hb
        have : 0 < qedTok.length := by decide
        omega

/-- Claim C3: for every document text and every pair of adjacent extracted
records A (earlier) and B (later), every companion-section match (strategy
label, solution label, closing marker) attributed to A lies at an absolute
offset strictly below B's begin-marker offset. -/
theorem c3_non_crossing (content : List Char) (i : Nat) (A B : PBMatch)
    (hA : (extractPB content).get? i = some A)
    (hB : (extractPB content).get? (i + 1) = some B)
    (o : Nat) (ho : o ∈ companionOffsets (windowOf content A.mend)) :
    A.mend + o < B.mstart := by
  have hpw : List.Pairwise (fun a b => a.mend ≤ b.mstart)
      (extractPB content) := finditerPB_pairwise content.length 0 content
  rw [List.pairwise_iff_get] at hpw
  obtain ⟨hAlt, hAget⟩ := List.get?_eq_some.mp hA
  obtain ⟨hBlt, hBget⟩ := List.get?_eq_some.mp hB
  have hAB : A.mend ≤ B.mstart := by
    have := hpw ⟨i, hAlt⟩ ⟨i + 1, hBlt⟩
      (Fin.mk_lt_mk.mpr (Nat.lt_succ_self i))
    rw [hAget, hBget] at this
    exact this
  have hBmem : B ∈ extractPB content := List.get?_mem hB
  have hBpre := (finditerPB_mem content.length 0 content B hBmem).2
  rw [Nat.sub_zero] at hBpre
  have hBT : beginTok <+: List.drop B.mstart content :=
    List.IsPrefix.trans (by decide) hBpre
  have hocc : beginTok <+:
      List.drop (B.mstart - A.mend) (List.drop A.mend content) := by
    rw [List.drop_drop]
    rw [show A.mend + (B.mstart - A.mend) = B.mstart by omega]
    exact hBT
  obtain ⟨nf, hnf, hnfle⟩ := findSub_exists_le beginTok _ _ hocc
  have hwin : windowOf content A.mend =
      List.take nf (List.drop A.mend content) := by
    simp only [windowOf, hnf]
  have holt := companionOffsets_lt _ o ho
  rw [hwin, List.length_take] at holt
  omega

/-- Witness for claim C3 at a concrete two-record document: the closing
marker attributed to record A (window offset 20, absolute offset 58) lies
strictly before record B's begin-marker offset 62. -/
theorem c3_non_crossing_witness :
    PBMatch.mend ⟨0, 38, ("A").data, ("x").data⟩ + 20 <
      PBMatch.mstart ⟨62, 38, ("B").data, ("y").data⟩ :=
  c3_non_crossing docTwoRec 0 ⟨0, 38, ("A").data, ("x").data⟩
    ⟨62, 38, ("B").data, ("y").data⟩ (by decide) (by decide) 20 (by decide)

/-- Claim C1, counterexample: in `docDup` the first record has a strategy
and a solution and zero closing markers, yet its issue list contains the
missing-closing-marker issue twice (not exactly once); the second record has
a closing marker and no solution, and its issue list contains
`Missing Solution` besides `ClosingMarkerWithoutSolution(1)`. -/
theorem c1_counterexample :
    (extract_problems docDup).map Problem.has_strategy = [true, true] ∧
    (extract_problems docDup).map Problem.has_solution = [true, false] ∧
    (extract_problems docDup).map Problem.qed_count = [0, 0] ∧
    (extract_problems docDup).map checkIssues =
      [[Issue.missingQed, Issue.missingQed],
       [Issue.missingSolution, Issue.qedWithoutSolution 1]] := by
  decide

/-- Claim C1, amended: for a record with a solution label and zero
closing-marker occurrences after it, the issue list is the possible
`Missing Strategy` entry followed by the missing-closing-marker issue twice
(once from the completeness check of `check_file`, once from the
extraction's issue list); for a record with `n > 0` closing markers and no
solution label it is the possible `Missing Strategy` entry followed by
`Missing Solution` and `ClosingMarkerWithoutSolution(n)`. -/
theorem c1_amended (content : List Char) (m : PBMatch) :
    (∀ so, findSub solutionLabel (windowOf content m.mend) = some so →
      tokOffsets qedTok (List.drop (so + solutionLabel.length)
        (windowOf content m.mend)) = [] →
      checkIssues (problemOfMatch content m) =
        (if (findSub strategyLabel (windowOf content m.mend)).isSome then []
         else [Issue.missingStrategy]) ++
          [Issue.missingQed, Issue.missingQed]) ∧
    (findSub solutionLabel (windowOf content m.mend) = none →
      ∀ n, (tokOffsets qedTok (windowOf content m.mend)).length = n →
        0 < n →
        checkIssues (problemOfMatch content m) =
          (if (findSub strategyLabel (windowOf content m.mend)).isSome
           then [] else [Issue.missingStrategy]) ++
            [Issue.missingSolution, Issue.qedWithoutSolution n]) := by
  constructor
  · intro so hso hq
    by_cases hst : (findSub strategyLabel (windowOf content m.mend)).isSome
    · simp [problemOfMatch, checkIssues, hso, hq, hst]
    · simp [problemOfMatch, checkIssues, hso, hq, hst]
  · intro hsol n hn hpos
    subst hn
    by_cases hst : (findSub strategyLabel (windowOf content m.mend)).isSome
    · simp [problemOfMatch, checkIssues, hsol, hst, hpos]
    · simp [problemOfMatch, checkIssues, hsol, hst, hpos]

/-- Witness for the amended claim C1 on the two records of `docDup`. -/
theorem c1_amended_witness :
    checkIssues (problemOfMatch docDup ⟨0, 39, ("P1").data, ("b").data⟩) =
      [Issue.missingQed, Issue.missingQed] ∧
    checkIssues (problemOfMatch docDup ⟨83, 39, ("P2").data, ("b").data⟩) =
      [Issue.missingSolution, Issue.qedWithoutSolution 1] := by
  constructor
  · have h := (c1_amended docDup ⟨0, 39, ("P1").data, ("b").data⟩).1 21
      (by decide) (by decide)
    rw [h]
    decide
  · have h := (c1_amended docDup ⟨83, 39, ("P2").data, ("b").data⟩).2
      (by decide) 1 (by decide) (by decide)
    rw [h]
    decide

/-- Claim C2: the detailed report's completion percentage is not in fact
guarded against a zero total.  On a directory whose single chapter file
contains no records, the total is zero and the percentage computation
raises `ZeroDivisionError` (modelled `none`): the report does not terminate
normally. -/
theorem c2_unguarded_division :
    extract_problems docNoRecords = [] ∧
    detailedReportTotals [docNoRecords] = (0, 0) ∧
    detailedReportRun [docNoRecords] = none ∧
    mainRun true [docNoRecords] false true = none := by
  decide

/-- Claim C8: the checker does exit non-zero (status 1) when the directory
is missing, but with an existing directory it does not always exit zero:
requesting the detailed report on a directory whose chapter files contain
zero records terminates with an uncaught `ZeroDivisionError` (modelled
`none`) instead of `some 0`. -/
theorem c8_exit_behavior :
    mainRun false [] false false = some 1 ∧
    mainRun false [docDup] true true = some 1 ∧
    mainRun true [docDup] false false = some 0 ∧
    mainRun true [docDup] true false = some 0 ∧
    mainRun true [docDup] false true = some 0 ∧
    mainRun true [] false true = some 0 ∧
    mainRun true [docNoRecords] false true = none := by
  decide

theorem runGuard_false (content : List Char) (r : List Char × Nat) :
    (if 0 < r.2 then (if (false : Bool) = true then r else (content, 0))
      else (content, r.2)) = (content, 0) := by
  split
  · simp
  · rename_i h
    have h0 : r.2 = 0 := by omega
    rw [h0]

/-- Claim C9: a repair pass whose write back fails (modelled
`writeOk = false`) leaves the file unchanged and returns zero fixes, for all
three passes; consequently a pass returns a positive count only when the
write succeeded. -/
theorem c9_write_failure (content : List Char) (writeOk : Bool) :
    fixMissingQedRun false content = (content, 0) ∧
    fixExtraQedRun false content = (content, 0) ∧
    fixImportanceRun false content = (content, 0) ∧
    (0 < (fixMissingQedRun writeOk content).2 → writeOk = true) ∧
    (0 < (fixExtraQedRun writeOk content).2 → writeOk = true) ∧
    (0 < (fixImportanceRun writeOk content).2 → writeOk = true) := by
  refine ⟨runGuard_false content _, runGuard_false content _,
    runGuard_false content _, ?_, ?_, ?_⟩
  · intro h
    cases writeOk with
    | true => rfl
    | false =>
      have heq : fixMissingQedRun false content = (content, 0) :=
        runGuard_false content _
      rw [heq] at h
      exact absurd h (by simp)
  · intro h
    cases writeOk with
    | true => rfl
    | false =>
      have heq : fixExtraQedRun false content = (content, 0) :=
        runGuard_false content _
      rw [heq] at h
      exact absurd h (by simp)
  · intro h
    cases writeOk with
    | true => rfl
    | false =>
      have heq : fixImportanceRun false content = (content, 0) :=
        runGuard_false content _
      rw [heq] at h
      exact absurd h (by simp)

/-- Witness for claim C9: on `docMissing` the insert pass applies one fix,
so with a successful write it returns a positive count, and with a failing
write it returns zero and leaves the document unchanged. -/
theorem c9_write_failure_witness :
    fixMissingQedRun false docMissing = (docMissing, 0) ∧
    (0 < (fixMissingQedRun true docMissing).2 → (true : Bool) = true) := by
  refine ⟨(c9_write_failure docMissing true).1, ?_⟩
  exact (c9_write_failure docMissing true).2.2.2.1

/-- Claim C10: closing-marker detection is substring-based.  Any occurrence
of the literal token is counted, also when it is a proper prefix of a longer
command: in `x\qedhere y` the occurrence inside `\qedhere` is counted, and
the collapse pass on `docQedHere` deletes exactly the token substring from
`\qedhere`, leaving the letters `here` behind. -/
theorem c10_substring_semantics :
    (∀ (w : List Char) (i : Nat), qedTok <+: List.drop i w →
      tokOffsets qedTok w ≠ []) ∧
    tokOffsets qedTok (("x\\qedhere y").data) = [1] ∧
    fix_extra_qed docQedHere =
      (("\\begin\x7bproblembox\x7d[Q]b\\end\x7bproblembox\x7d\\textbf\x7bSolution:\x7dA\\qed Bhere C").data,
       1) := by
  refine ⟨?_, by decide, by decide⟩
  intro w i hocc hnil
  obtain ⟨j, hj, _⟩ := findSub_exists_le qedTok w i hocc
  rw [(tokOffsetsAux_nil_iff qedTok (by decide) w).mp hnil] at hj
  exact absurd hj (by simp)

/-- Witness for claim C10: the general counting conjunct applied to the
concrete window `x\qedhere y` with the occurrence at offset 1. -/
theorem c10_substring_semantics_witness :
    tokOffsets qedTok (("x\\qedhere y").data) ≠ [] :=
  c10_substring_semantics.1 (("x\\qedhere y").data) 1 (by decide)

/-- Claim C4, counterexample: in `docJunction` the single record has a
closing marker and no solution label, yet after one run of the collapse pass
one closing-marker occurrence remains in its window (deleting the occurrence
inside `\q\qeded` glues `\q` and `ed` into a fresh occurrence), not zero. -/
theorem c4_counterexample :
    (extract_problems docJunction).map
      (fun p => (p.has_solution, p.extra_qed_issues)) =
        [(false, [Issue.qedWithoutSolution 1])] ∧
    fix_extra_qed docJunction =
      (("\\begin\x7bproblembox\x7d[T]P\\end\x7bproblembox\x7d \\qed").data, 1) ∧
    tokOffsets qedTok
      (windowOf (fix_extra_qed docJunction).1 38) = [1] := by
  decide

/-! ## Lemmas supporting the repair-pass claims -/

theorem findSub_eq_some_of (pat s : List Char) (n : Nat)
    (hocc : pat <+: List.drop n s)
    (hmin : ∀ i, i < n → ¬ pat <+: List.drop i s) :
    findSub pat s = some n := by
  obtain ⟨m, hm, hle⟩ := findSub_exists_le pat s n hocc
  have hp := findSub_some_prefix pat s m hm
  have : m = n := by
    by_contra hne
    exact hmin m (by omega) hp
  rw [hm, this]

theorem removeTokAux_length (pat : List Char) (hpat : pat ≠ []) :
    ∀ (s : List Char) (k : Nat), k ≤ s.length →
      (removeTokAux pat k s).length + k +
        pat.length * (tokOffsetsAux pat k s).length = s.length := by
  have hp1 : 0 < pat.length := List.length_pos.mpr hpat
  intro s
  induction s with
  | nil =>
    intro k hk
    simp only [List.length_nil, Nat.le_zero] at hk
    subst hk
    simp [removeTokAux, tokOffsetsAux]
  | cons c rest ih =>
    intro k hk
    match k with
    | Nat.succ k' =>
      simp only [removeTokAux, tokOffsetsAux, List.length_map,
        List.length_cons]
      have := ih k' (by simpa using Nat.lt_succ_iff.mp (by
        simpa [Nat.lt_succ_iff] using hk))
      omega
    | 0 =>
      simp only [removeTokAux, tokOffsetsAux]
      by_cases hpre : pat.isPrefixOf (c :: rest)
      · rw [if_pos hpre, if_pos hpre]
        have hlen : pat.length ≤ rest.length + 1 := by
          have := (List.isPrefixOf_iff_prefix.mp hpre).length_le
          simpa using this
        have := ih (pat.length - 1) (by omega)
        simp only [List.length_cons, List.length_map]
        rw [Nat.mul_succ]
        omega
      · rw [if_neg hpre, if_neg hpre]
        have := ih 0 (by omega)
        simp only [List.length_cons, List.length_map]
        omega

theorem removeAll_length (pat : List Char) (hpat : pat ≠ [])
    (s : List Char) :
    (removeAll pat s).length + pat.length * (tokOffsets pat s).length =
      s.length := by
  have := removeTokAux_length pat hpat s 0 (by omega)
  simpa [removeAll, tokOffsets] using this

theorem rstrip_append (s : List Char) :
    rstripChars s ++ (List.takeWhile pySpace s.reverse).reverse = s := by
  unfold rstripChars
  rw [← List.reverse_append, ← List.takeWhile_append_dropWhile pySpace s.reverse]
  simp

theorem rstrip_length_le (s : List Char) :
    (rstripChars s).length ≤ s.length := by
  conv_rhs => rw [← rstrip_append s]
  simp

theorem take_rstrip_length (s : List Char) :
    List.take (rstripChars s).length s = rstripChars s := by
  nth_rewrite 2 [← rstrip_append s]
  exact List.take_left _ _

theorem drop_rstrip_length (s : List Char) :
    List.drop (rstripChars s).length s =
      (List.takeWhile pySpace s.reverse).reverse := by
  nth_rewrite 2 [← rstrip_append s]
  exact List.drop_left _ _

theorem prefix_drop_take {pat s : List Char} {i p : Nat} (hpat : pat ≠ [])
    (h : pat <+: List.drop i (List.take p s)) :
    pat <+: List.drop i s ∧ i + pat.length ≤ p := by
  rw [List.drop_take] at h
  rw [List.prefix_take_iff] at h
  obtain ⟨h1, h2⟩ := h
  have : 0 < pat.length := List.length_pos.mpr hpat
  exact ⟨h1, by omega⟩

theorem prefix_take_of_drop {pat s : List Char} {i p : Nat}
    (h : pat <+: List.drop i s) (hb : i + pat.length ≤ p) :
    pat <+: List.drop i (List.take p s) := by
  rw [List.drop_take, List.prefix_take_iff]
  exact ⟨h, by omega⟩

theorem windowOf_length_le (content : List Char) (e : Nat) :
    (windowOf content e).length ≤ content.length - e := by
  unfold windowOf
  cases h : findSub beginTok (List.drop e content) with
  | none => simp
  | some n => simp [List.length_take, List.length_drop]

theorem drop_take_insert (s ins : List Char) (d p : Nat) (hd : d ≤ p)
    (hp : p ≤ s.length) :
    List.drop d (List.take p s ++ ins ++ List.drop p s) =
      List.take (p - d) (List.drop d s) ++ ins ++ List.drop p s := by
  rw [List.append_assoc, List.drop_append_of_le_length
    (by rw [List.length_take]; omega)]
  rw [List.drop_take, List.append_assoc]

theorem take_insert_left (s ins : List Char) (q p : Nat) (hq : p ≤ q)
    (hps : p ≤ s.length) :
    List.take (q + ins.length) (List.take p s ++ ins ++ List.drop p s) =
      List.take p s ++ ins ++ List.take (q - p) (List.drop p s) := by
  rw [List.append_assoc, List.take_append_eq_append_take,
    List.take_of_length_le (by rw [List.length_take]; omega),
    List.length_take, Nat.min_eq_left hps,
    List.take_append_eq_append_take,
    List.take_of_length_le (show ins.length ≤ q + ins.length - p by omega),
    ← List.append_assoc]
  congr 2
  omega

theorem windowOf_eq_none (content : List Char) (e : Nat)
    (h : findSub beginTok (List.drop e content) = none) :
    windowOf content e = List.drop e content := by
  unfold windowOf
  rw [h]

theorem windowOf_eq_some (content : List Char) (e n : Nat)
    (h : findSub beginTok (List.drop e content) = some n) :
    windowOf content e = List.take n (List.drop e content) := by
  unfold windowOf
  rw [h]

theorem tokOffsets_insert_self (pat : List Char) (hpat : pat ≠ [])
    (hno : noOverlap pat) (x y : List Char)
    (hx : ∀ i, ¬ pat <+: List.drop i x) :
    tokOffsets pat (x ++ pat ++ y) =
      x.length ::
        (tokOffsets pat y).map (fun n => n + (x.length + pat.length)) :=
  tokOffsetsAux_insert_self pat hpat hno x y hx

theorem windowOf_insert_qed (content : List Char) (e ipos : Nat)
    (he : e ≤ content.length)
    (hip : ipos ≤ (windowOf content e).length) :
    windowOf (List.take (e + ipos) content ++ qedTok ++
        List.drop (e + ipos) content) e =
      List.take ipos (windowOf content e) ++ qedTok ++
        List.drop ipos (windowOf content e) := by
  have hwl := windowOf_length_le content e
  have hipc : e + ipos ≤ content.length := by omega
  have hipr : ipos ≤ (List.drop e content).length := by
    rw [List.length_drop]
    omega
  have hrem : List.drop e (List.take (e + ipos) content ++ qedTok ++
      List.drop (e + ipos) content) =
      List.take ipos (List.drop e content) ++ qedTok ++
        List.drop ipos (List.drop e content) := by
    rw [drop_take_insert content qedTok e (e + ipos) (by omega) hipc,
      List.drop_drop, show e + ipos - e = ipos by omega]
  cases hfs : findSub beginTok (List.drop e content) with
  | none =>
    have hno := findSub_none_no_occ beginTok _ hfs
    have hU : ∀ i, ¬ beginTok <+: List.drop i
        (List.take ipos (List.drop e content)) := by
      intro i hi
      exact hno i (prefix_drop_take (by decide) hi).1
    have hV : findSub beginTok
        (List.drop ipos (List.drop e content)) = none := by
      cases hv : findSub beginTok (List.drop ipos (List.drop e content)) with
      | none => rfl
      | some j =>
        have hp := findSub_some_prefix _ _ _ hv
        rw [List.drop_drop] at hp
        exact absurd hp (hno (ipos + j))
    have hnew : findSub beginTok
        (List.take ipos (List.drop e content) ++ qedTok ++
          List.drop ipos (List.drop e content)) = none := by
      rw [findSub_insert_none beginTok qedTok _ _ (by decide)
        noCross_beginTok_qed hU, hV]
      rfl
    rw [windowOf_eq_none _ _ (by rw [hrem]; exact hnew)]
    rw [hrem, windowOf_eq_none _ _ hfs]
  | some n =>
    have hocc := findSub_some_prefix _ _ _ hfs
    have hmin := findSub_min _ _ _ hfs
    have hnb := prefix_drop_bound (show beginTok ≠ [] by decide) hocc
    have hwin := windowOf_eq_some content e n hfs
    have hipn : ipos ≤ n := by
      rw [hwin, List.length_take, List.length_drop] at hip
      omega
    have hU : ∀ i, ¬ beginTok <+: List.drop i
        (List.take ipos (List.drop e content)) := by
      intro i hi
      obtain ⟨h1, h2⟩ := prefix_drop_take (show beginTok ≠ [] by decide) hi
      have h3 : 0 < beginTok.length := by decide
      exact hmin i (by omega) h1
    have hV : findSub beginTok (List.drop ipos (List.drop e content)) =
        some (n - ipos) := by
      apply findSub_eq_some_of
      · rw [List.drop_drop, show ipos + (n - ipos) = n by omega]
        exact hocc
      · intro j hj hcon
        rw [List.drop_drop] at hcon
        exact hmin (ipos + j) (by omega) hcon
    have hnew : findSub beginTok
        (List.take ipos (List.drop e content) ++ qedTok ++
          List.drop ipos (List.drop e content)) =
          some (n + qedTok.length) := by
      rw [findSub_insert_none beginTok qedTok _ _ (by decide)
        noCross_beginTok_qed hU, hV]
      simp only [Option.map_some', Option.some.injEq]
      rw [List.length_take, Nat.min_eq_left hipr]
      omega
    rw [windowOf_eq_some _ _ _ (by rw [hrem]; exact hnew)]
    rw [hrem, hwin]
    rw [take_insert_left (List.drop e content) qedTok n ipos hipn hipr]
    rw [List.take_take, Nat.min_eq_left hipn, List.drop_take]

theorem window_after_insert_count (content : List Char) (e so ipos : Nat)
    (sc asol stripped : List Char)
    (hsc : windowOf content e = sc)
    (hasol : List.drop (so + solutionLabel.length) sc = asol)
    (hstr : rstripChars asol = stripped)
    (hipos : ipos = so + solutionLabel.length + stripped.length)
    (hsol : findSub solutionLabel sc = some so)
    (hqed : findSub qedTok asol = none) :
    tokOffsets qedTok (List.drop (so + solutionLabel.length)
      (windowOf (List.take (e + ipos) content ++ qedTok ++
        List.drop (e + ipos) content) e)) = [stripped.length] := by
  have hq4 : qedTok ≠ [] := by decide
  have hsl : solutionLabel ≠ [] := by decide
  have hsolb : so + solutionLabel.length ≤ sc.length :=
    prefix_drop_bound hsl ( findSub_some_prefix _ _ _ hsol)
  have hstl : stripped.length ≤ sc.length - (so + solutionLabel.length) := by
    rw [← hstr, ← hasol]
    refine le_trans (rstrip_length_le _) ?_
    rw [List.length_drop]
  have hip : ipos ≤ sc.length := by omega
  have hwl := windowOf_length_le content e
  have he : e ≤ content.length := by
    have hsp : 0 < solutionLabel.length := by decide
    rw [hsc] at hwl
    omega
  have hwnew := windowOf_insert_qed content e ipos he (by rw [hsc]; omega)
  rw [hwnew, hsc]
  have hsoLle : so + solutionLabel.length ≤ (List.take ipos sc).length := by
    rw [List.length_take]
    omega
  rw [List.append_assoc, List.drop_append_of_le_length hsoLle,
    ← List.append_assoc]
  have hstr2 : List.drop (so + solutionLabel.length) (List.take ipos sc) =
      stripped := by
    rw [List.drop_take,
      show ipos - (so + solutionLabel.length) = stripped.length by omega,
      hasol, ← hstr]
    exact take_rstrip_length asol
  rw [hstr2]
  have hws : List.drop ipos sc = List.drop stripped.length asol := by
    rw [← hasol, List.drop_drop, ← hipos]
  rw [hws]
  have hnoq := findSub_none_no_occ qedTok asol hqed
  have hx : ∀ i, ¬ qedTok <+: List.drop i stripped := by
    intro i hi
    have htk : stripped = List.take stripped.length asol := by
      rw [← hstr]
      exact (take_rstrip_length asol).symm
    rw [htk] at hi
    exact hnoq i (prefix_drop_take hq4 hi).1
  rw [tokOffsets_insert_self qedTok hq4 qedTok_noOverlap stripped _ hx]
  have hwsnil : tokOffsets qedTok (List.drop stripped.length asol) = [] := by
    cases hv : findSub qedTok (List.drop stripped.length asol) with
    | none => exact (tokOffsetsAux_nil_iff qedTok hq4 _).mpr hv
    | some j =>
      have hp := findSub_some_prefix _ _ _ hv
      rw [List.drop_drop] at hp
      exact absurd hp (hnoq _)
  rw [hwsnil]
  rfl

/-- Claim C6: the insert-missing-closing-marker pass edits a record only
when its window has a solution label, zero `\qed` occurrences after it, and
non-empty post-solution content after trailing-whitespace stripping; the
marker is inserted immediately after the trimmed end of the post-solution
content, records with empty post-solution content are skipped, and after the
edit the record's post-solution window holds exactly one `\qed` occurrence
(at the insertion point), so the pass never raises the count above one. -/
theorem c6_insert_missing_marker (content : List Char) (m : PBMatch)
    (sc : List Char) (hsc : windowOf content m.mend = sc) :
    (findSub solutionLabel sc = none →
      fixMissingStep content m = (content, 0)) ∧
    (∀ so q, findSub solutionLabel sc = some so →
      findSub qedTok (List.drop (so + solutionLabel.length) sc) = some q →
      fixMissingStep content m = (content, 0)) ∧
    (∀ so, findSub solutionLabel sc = some so →
      findSub qedTok (List.drop (so + solutionLabel.length) sc) = none →
      rstripChars (List.drop (so + solutionLabel.length) sc) = [] →
      fixMissingStep content m = (content, 0)) ∧
    (∀ so, findSub solutionLabel sc = some so →
      findSub qedTok (List.drop (so + solutionLabel.length) sc) = none →
      rstripChars (List.drop (so + solutionLabel.length) sc) ≠ [] →
      fixMissingStep content m =
        (List.take (m.mend + (so + solutionLabel.length) +
            (rstripChars (List.drop (so + solutionLabel.length) sc)).length)
            content ++ qedTok ++
          List.drop (m.mend + (so + solutionLabel.length) +
            (rstripChars (List.drop (so + solutionLabel.length) sc)).length)
            content,
         1) ∧
      tokOffsets qedTok (List.drop (so + solutionLabel.length)
          (windowOf (fixMissingStep content m).1 m.mend)) =
        [(rstripChars (List.drop (so + solutionLabel.length) sc)).length]) := by
  refine ⟨?_, ?_, ?_, ?_⟩
  · intro h1
    simp only [fixMissingStep, hsc, h1]
  · intro so q hso hq
    simp only [fixMissingStep, hsc, hso, hq]
  · intro so hso hq hstr
    simp only [fixMissingStep, hsc, hso, hq, hstr, List.isEmpty_nil,
      if_true]
  · intro so hso hq hstr
    have hstep : fixMissingStep content m =
        (List.take (m.mend + (so + solutionLabel.length) +
            (rstripChars (List.drop (so + solutionLabel.length) sc)).length)
            content ++ qedTok ++
          List.drop (m.mend + (so + solutionLabel.length) +
            (rstripChars (List.drop (so + solutionLabel.length) sc)).length)
            content,
         1) := by
      simp only [fixMissingStep, hsc, hso, hq]
      rw [if_neg (by simpa [List.isEmpty_iff] using hstr)]
    refine ⟨hstep, ?_⟩
    rw [hstep]
    have harith : m.mend + (so + solutionLabel.length) +
        (rstripChars (List.drop (so + solutionLabel.length) sc)).length =
        m.mend + (so + solutionLabel.length +
          (rstripChars (List.drop (so + solutionLabel.length) sc)).length) := by
      omega
    rw [harith]
    exact window_after_insert_count content m.mend so _ sc _ _ hsc rfl rfl rfl
      hso hq

/-- Witness for claim C6 on `docMissing`: the single record's post-solution
content strips to 5 characters, and after the pass the re-extracted window
has exactly one `\qed` occurrence, at the insertion point. -/
theorem c6_insert_missing_marker_witness :
    tokOffsets qedTok (List.drop (0 + solutionLabel.length)
      (windowOf (fixMissingStep docMissing
        ⟨0, 38, ("W").data, ("b").data⟩).1
        (PBMatch.mend ⟨0, 38, ("W").data, ("b").data⟩))) =
      [(rstripChars (List.drop (0 + solutionLabel.length)
        (windowOf docMissing
          (PBMatch.mend ⟨0, 38, ("W").data, ("b").data⟩)))).length] ∧
    (rstripChars (List.drop (0 + solutionLabel.length)
      (windowOf docMissing
        (PBMatch.mend ⟨0, 38, ("W").data, ("b").data⟩)))).length = 5 := by
  constructor
  · exact ((c6_insert_missing_marker docMissing
      ⟨0, 38, ("W").data, ("b").data⟩ _ rfl).2.2.2 0
        (by decide) (by decide) (by decide)).2
  · decide

theorem take_first_occurrence (pat s : List Char) (q : Nat)
    (hocc : pat <+: List.drop q s) :
    List.take (q + pat.length) s = List.take q s ++ pat := by
  rw [List.take_add]
  congr 1
  exact (List.prefix_iff_eq_take.mp hocc).symm

/-- Claim C4, amended: the collapse pass replaces exactly the scanned region
of the record's window.  With a solution label and at least two `\qed`
occurrences after it, the text after the first occurrence is replaced by the
same text with every `\qed` substring deleted, so the first occurrence
remains at its original position and the occurrence list of the new
post-solution region is that position followed only by occurrences newly
glued together by the deletions (none in the well-separated case, so exactly
one occurrence remains); with no solution label, the whole window is
replaced by the window with every `\qed` substring deleted.  The deletions
remove exactly `4·count` characters. -/
theorem c4_amended_collapse (content : List Char) (m : PBMatch)
    (sc : List Char) (hsc : windowOf content m.mend = sc) :
    (∀ so asol q0 q1 qrest, findSub solutionLabel sc = some so →
      List.drop (so + solutionLabel.length) sc = asol →
      tokOffsets qedTok asol = q0 :: q1 :: qrest →
      fixExtraStep content m =
        (List.take (m.mend + (so + solutionLabel.length) +
            (q0 + qedTok.length)) content ++
          removeAll qedTok (List.drop (q0 + qedTok.length) asol) ++
          List.drop (m.mend + (so + solutionLabel.length) + asol.length)
            content,
         (q0 :: q1 :: qrest).length - 1) ∧
      tokOffsets qedTok (List.take (q0 + qedTok.length) asol ++
          removeAll qedTok (List.drop (q0 + qedTok.length) asol)) =
        q0 :: (tokOffsets qedTok (removeAll qedTok
            (List.drop (q0 + qedTok.length) asol))).map
          (fun n => n + (q0 + qedTok.length))) ∧
    (findSub solutionLabel sc = none → tokOffsets qedTok sc ≠ [] →
      fixExtraStep content m =
        (List.take m.mend content ++ removeAll qedTok sc ++
          List.drop (m.mend + sc.length) content,
         (tokOffsets qedTok sc).length)) ∧
    (∀ s : List Char, (removeAll qedTok s).length +
      qedTok.length * (tokOffsets qedTok s).length = s.length) := by
  have hq4 : qedTok ≠ [] := by decide
  refine ⟨?_, ?_, removeAll_length qedTok hq4⟩
  · intro so asol q0 q1 qrest hso hasol hq
    have hstep : fixExtraStep content m =
        (List.take (m.mend + (so + solutionLabel.length) +
            (q0 + qedTok.length)) content ++
          removeAll qedTok (List.drop (q0 + qedTok.length) asol) ++
          List.drop (m.mend + (so + solutionLabel.length) + asol.length)
            content,
         (q0 :: q1 :: qrest).length - 1) := by
      simp only [fixExtraStep, hsc, hso, hasol, hq]
    refine ⟨hstep, ?_⟩
    have hq0mem : q0 ∈ tokOffsets qedTok asol := by
      rw [hq]
      exact List.mem_cons_self _ _
    have hocc := tokOffsetsAux_mem qedTok asol 0 q0 hq0mem
    have hmin := tokOffsets_head_min qedTok asol q0 (q1 :: qrest) hq
    have hb := prefix_drop_bound hq4 hocc
    have htk := take_first_occurrence qedTok asol q0 hocc
    rw [htk]
    have hx : ∀ i, ¬ qedTok <+: List.drop i (List.take q0 asol) := by
      intro i hi
      obtain ⟨h1, h2⟩ := prefix_drop_take hq4 hi
      have : 0 < qedTok.length := by decide
      exact hmin i (by omega) h1
    rw [tokOffsets_insert_self qedTok hq4 qedTok_noOverlap
      (List.take q0 asol) _ hx]
    rw [List.length_take, Nat.min_eq_left (by omega)]
  · intro hsol hne
    cases htok : tokOffsets qedTok sc with
    | nil => exact absurd htok hne
    | cons q qs' =>
      simp only [fixExtraStep, hsc, hsol, htok]

/-- Witness for the amended claim C4 on `docThreeQed`: a solution followed by
three well-separated markers collapses to exactly one occurrence, at the
original first occurrence's position 1, with two fixes counted. -/
theorem c4_amended_collapse_witness :
    tokOffsets qedTok (List.take (1 + qedTok.length)
        (List.drop (0 + solutionLabel.length)
          (windowOf docThreeQed
            (PBMatch.mend ⟨0, 39, ("T3").data, ("b").data⟩))) ++
      removeAll qedTok (List.drop (1 + qedTok.length)
        (List.drop (0 + solutionLabel.length)
          (windowOf docThreeQed
            (PBMatch.mend ⟨0, 39, ("T3").data, ("b").data⟩))))) = [1] ∧
    (fixExtraStep docThreeQed ⟨0, 39, ("T3").data, ("b").data⟩).2 = 2 := by
  constructor
  · have h := ((c4_amended_collapse docThreeQed
      ⟨0, 39, ("T3").data, ("b").data⟩ _ rfl).1 0 _ 1 7 [13]
        (by decide) rfl (by decide)).2
    rw [h]
    decide
  · have h := ((c4_amended_collapse docThreeQed
      ⟨0, 39, ("T3").data, ("b").data⟩ _ rfl).1 0 _ 1 7 [13]
        (by decide) rfl (by decide)).1
    rw [h]
    decide

/-! ## Lemmas for the pass-level idempotence of the insert pass -/

theorem noCross_rbrackTok_qed : noCrossIns rbrackTok qedTok :=
  noCrossIns_of_B _ _ (by decide)

theorem noCross_endTok_qed2 : noCrossIns endTok qedTok :=
  noCrossIns_of_B _ _ (by decide)

theorem findSub_append_none_transfer (pat u v : List Char)
    (h : findSub pat (u ++ v) = none) :
    findSub pat u = none ∧ findSub pat v = none := by
  have hno := findSub_none_no_occ pat _ h
  constructor
  · cases hu : findSub pat u with
    | none => rfl
    | some j =>
      have hp := findSub_some_prefix _ _ _ hu
      exact absurd (prefix_drop_append_left_of pat u v j hp) (hno j)
  · cases hv : findSub pat v with
    | none => rfl
    | some j =>
      have hp := findSub_some_prefix _ _ _ hv
      have : pat <+: List.drop (u.length + j) (u ++ v) := by
        rw [List.drop_append]
        exact hp
      exact absurd this (hno _)

theorem findSub_append_first_in_left (pat u v : List Char) (j : Nat)
    (h : findSub pat (u ++ v) = some j) (hj : j + pat.length ≤ u.length) :
    findSub pat u = some j := by
  have hocc := findSub_some_prefix _ _ _ h
  have hmin := findSub_min _ _ _ h
  apply findSub_eq_some_of
  · rw [List.drop_append_of_le_length (by omega)] at hocc
    rw [prefix_append_iff_of_le _ (by rw [List.length_drop]; omega)] at hocc
    exact hocc
  · intro i hi hcon
    exact hmin i hi (prefix_drop_append_left_of pat u v i hcon)

theorem findSub_append_first_in_right (pat u v : List Char) (j : Nat)
    (h : findSub pat (u ++ v) = some j) (hj : u.length ≤ j) :
    findSub pat v = some (j - u.length) := by
  have hocc := findSub_some_prefix _ _ _ h
  have hmin := findSub_min _ _ _ h
  apply findSub_eq_some_of
  · have : List.drop j (u ++ v) = List.drop (j - u.length) v := by
      rw [List.drop_append_eq_append_drop, List.drop_of_length_le (by omega),
        List.nil_append]
    rw [this] at hocc
    exact hocc
  · intro i hi hcon
    have : pat <+: List.drop (u.length + i) (u ++ v) := by
      rw [List.drop_append]
      exact hcon
    exact hmin (u.length + i) (by omega) this

theorem findSub_insert_general (pat ins u v : List Char)
    (hpat : pat ≠ []) (hnc : noCrossIns pat ins) :
    findSub pat (u ++ ins ++ v) =
      match findSub pat u with
      | some j => some j
      | none =>
        (findSub pat v).map (fun n => n + (u.length + ins.length)) := by
  cases hu : findSub pat u with
  | some j => exact findSub_insert_left pat ins u v hpat hnc hu
  | none =>
    exact findSub_insert_none pat ins u v hpat hnc
      (findSub_none_no_occ pat u hu)

theorem findSub_locality (pat : List Char) (r r' : List Char) (N j : Nat)
    (h : findSub pat r = some j) (hN : j + pat.length ≤ N)
    (heq : List.take N r = List.take N r') : findSub pat r' = some j := by
  have hocc := findSub_some_prefix _ _ _ h
  have hmin := findSub_min _ _ _ h
  apply findSub_eq_some_of
  · have h1 : pat <+: List.drop j (List.take N r) :=
      prefix_take_of_drop hocc hN
    rw [heq] at h1
    rw [List.drop_take] at h1
    rw [List.prefix_take_iff] at h1
    exact h1.1
  · intro i hi hcon
    have h2 : pat <+: List.drop i (List.take N r') :=
      prefix_take_of_drop hcon (by omega)
    rw [← heq] at h2
    rw [List.drop_take, List.prefix_take_iff] at h2
    exact hmin i hi h2.1

theorem matchPBAt_none_of_not_prefix (s : List Char)
    (h : ¬ beginBracketTok.isPrefixOf s) : matchPBAt s = none := by
  unfold matchPBAt
  rw [if_neg h]

theorem matchPBAt_pos (s : List Char)
    (h : beginBracketTok.isPrefixOf s) :
    matchPBAt s =
      match findSub rbrackTok (List.drop beginBracketTok.length s) with
      | none => none
      | some j =>
        if j = 0 then none
        else
          match findSub endTok
              (List.drop (j + 1) (List.drop beginBracketTok.length s)) with
          | none => none
          | some k =>
            some (List.take j (List.drop beginBracketTok.length s),
              List.take k
                (List.drop (j + 1) (List.drop beginBracketTok.length s)),
              beginBracketTok.length + j + 1 + k + endTok.length) := by
  unfold matchPBAt
  rw [if_pos h]

theorem matchPBAt_nil : matchPBAt [] = none := by
  apply matchPBAt_none_of_not_prefix
  decide

theorem append_prefix_flip {pat u : List Char} (v : List Char)
    (h : pat <+: u ++ v) (hle : u.length ≤ pat.length) :
    u = List.take u.length pat := by
  obtain ⟨w, hw⟩ := h
  have h2 := congrArg (List.take u.length) hw
  rw [List.take_append_of_le_length hle, List.take_left] at h2
  exact h2.symm

theorem matchPBAt_bounds {s t b : List Char} {n : Nat}
    (h : matchPBAt s = some (t, b, n)) : 37 ≤ n ∧ n ≤ s.length := by
  have hpre : beginBracketTok.isPrefixOf s :=
    List.isPrefixOf_iff_prefix.mpr (matchPBAt_isPrefix s _ h)
  have hslen : beginBracketTok.length ≤ s.length :=
    (List.isPrefixOf_iff_prefix.mp hpre).length_le
  rw [matchPBAt_pos s hpre] at h
  cases hr : findSub rbrackTok (List.drop beginBracketTok.length s) with
  | none => simp only [hr] at h; exact absurd h (by simp)
  | some j =>
    simp only [hr] at h
    by_cases hj : j = 0
    · rw [if_pos hj] at h; exact absurd h (by simp)
    · rw [if_neg hj] at h
      cases he : findSub endTok
          (List.drop (j + 1) (List.drop beginBracketTok.length s)) with
      | none => simp only [he] at h; exact absurd h (by simp)
      | some k =>
        simp only [he] at h
        simp only [Option.some.injEq, Prod.mk.injEq] at h
        obtain ⟨-, -, hn⟩ := h
        have hjb : j + rbrackTok.length ≤
            (List.drop beginBracketTok.length s).length :=
          prefix_drop_bound (by decide) ( findSub_some_prefix _ _ _ hr)
        have hkb : k + endTok.length ≤
            (List.drop (j + 1) (List.drop beginBracketTok.length s)).length :=
          prefix_drop_bound (by decide) ( findSub_some_prefix _ _ _ he)
        rw [List.length_drop] at hjb
        rw [List.length_drop, List.length_drop] at hkb
        have h19 : beginBracketTok.length = 19 := by decide
        have h16 : endTok.length = 16 := by decide
        have h1 : rbrackTok.length = 1 := by decide
        constructor
        · omega
        · omega

theorem matchPBAt_locality {s s' t b : List Char} {n : Nat}
    (h : matchPBAt s = some (t, b, n))
    (heq : List.take n s = List.take n s') :
    matchPBAt s' = some (t, b, n) := by
  obtain ⟨h37, hlen⟩ := matchPBAt_bounds h
  have hpre : beginBracketTok <+: s := matchPBAt_isPrefix s _ h
  have h19 : beginBracketTok.length = 19 := by decide
  have hpre' : beginBracketTok <+: s' := by
    have h1 : beginBracketTok <+: List.take n s :=
      List.prefix_take_iff.mpr ⟨hpre, by omega⟩
    rw [heq] at h1
    exact (List.prefix_take_iff.mp h1).1
  rw [matchPBAt_pos s (List.isPrefixOf_iff_prefix.mpr hpre)] at h
  rw [matchPBAt_pos s' (List.isPrefixOf_iff_prefix.mpr hpre')]
  have hdt : ∀ (r : List Char) (d : Nat), List.take (n - d) (List.drop d r) =
      List.drop d (List.take n r) := by
    intro r d
    rw [List.drop_take]
  cases hr : findSub rbrackTok (List.drop beginBracketTok.length s) with
  | none => simp only [hr] at h; exact absurd h (by simp)
  | some j =>
    simp only [hr] at h
    by_cases hj : j = 0
    · rw [if_pos hj] at h; exact absurd h (by simp)
    · rw [if_neg hj] at h
      cases he : findSub endTok
          (List.drop (j + 1) (List.drop beginBracketTok.length s)) with
      | none => simp only [he] at h; exact absurd h (by simp)
      | some k =>
        simp only [he] at h
        simp only [Option.some.injEq, Prod.mk.injEq] at h
        obtain ⟨ht, hb, hn⟩ := h
        have htk1 : List.take (n - beginBracketTok.length)
            (List.drop beginBracketTok.length s) =
            List.take (n - beginBracketTok.length)
              (List.drop beginBracketTok.length s') := by
          rw [hdt s, hdt s', heq]
        have hr' : findSub rbrackTok (List.drop beginBracketTok.length s') =
            some j := by
          refine findSub_locality rbrackTok _ _ (n - beginBracketTok.length)
            j hr ?_ htk1
          have h1 : rbrackTok.length = 1 := by decide
          omega
        simp only [hr']
        rw [if_neg hj]
        have hdd : ∀ (r : List Char), List.drop (j + 1)
            (List.drop beginBracketTok.length r) =
            List.drop (beginBracketTok.length + (j + 1)) r := by
          intro r
          rw [List.drop_drop]
        have htk2 : List.take (n - (beginBracketTok.length + (j + 1)))
            (List.drop (beginBracketTok.length + (j + 1)) s) =
            List.take (n - (beginBracketTok.length + (j + 1)))
              (List.drop (beginBracketTok.length + (j + 1)) s') := by
          rw [hdt s, hdt s', heq]
        have he' : findSub endTok
            (List.drop (j + 1) (List.drop beginBracketTok.length s')) =
            some k := by
          rw [hdd s']
          refine findSub_locality endTok
            (List.drop (beginBracketTok.length + (j + 1)) s) _
            (n - (beginBracketTok.length + (j + 1))) k ?_ ?_ htk2
          · rw [← hdd s]
            exact he
          · have h16 : endTok.length = 16 := by decide
            omega
        simp only [he']
        have hteq : List.take j (List.drop beginBracketTok.length s') = t := by
          rw [← ht]
          have hj1 : j ≤ n - beginBracketTok.length := by omega
          rw [show (List.take j (List.drop beginBracketTok.length s')) =
              List.take j (List.take (n - beginBracketTok.length)
                (List.drop beginBracketTok.length s'))
            by rw [List.take_take, Nat.min_eq_left hj1]]
          rw [← htk1, List.take_take, Nat.min_eq_left hj1]
        have hbeq : List.take k (List.drop (j + 1)
            (List.drop beginBracketTok.length s')) = b := by
          rw [← hb, hdd s', hdd s]
          have hk1 : k ≤ n - (beginBracketTok.length + (j + 1)) := by
            have : endTok.length = 16 := by decide
            omega
          rw [show (List.take k
              (List.drop (beginBracketTok.length + (j + 1)) s')) =
              List.take k (List.take (n - (beginBracketTok.length + (j + 1)))
                (List.drop (beginBracketTok.length + (j + 1)) s'))
            by rw [List.take_take, Nat.min_eq_left hk1]]
          rw [← htk2, List.take_take, Nat.min_eq_left hk1]
        rw [hteq, hbeq, hn]

theorem matchPBAt_eq_tail (s : List Char) :
    matchPBAt s = if beginBracketTok.isPrefixOf s
      then matchPBTail (List.drop beginBracketTok.length s) else none := rfl

theorem matchPBTail_insert_none (u₁ v : List Char) (hpos : u₁ ≠ [])
    (h : matchPBTail (u₁ ++ v) = none) :
    matchPBTail (u₁ ++ qedTok ++ v) = none := by
  have h4 : qedTok.length = 4 := by decide
  have h1r : rbrackTok.length = 1 := by decide
  have hu₁pos : 0 < u₁.length := List.length_pos.mpr hpos
  unfold matchPBTail at h ⊢
  cases hr : findSub rbrackTok (u₁ ++ v) with
  | none =>
    obtain ⟨hru, hrv⟩ := findSub_append_none_transfer rbrackTok u₁ v hr
    have hall : findSub rbrackTok (u₁ ++ qedTok ++ v) = none := by
      rw [findSub_insert_none rbrackTok qedTok u₁ v (by decide)
        noCross_rbrackTok_qed (findSub_none_no_occ _ _ hru), hrv]
      rfl
    simp only [hall]
  | some j =>
    simp only [hr] at h
    rcases Nat.lt_or_ge j u₁.length with hjl | hjr
    · have hju : findSub rbrackTok u₁ = some j :=
        findSub_append_first_in_left rbrackTok u₁ v j hr (by omega)
      have hj' : findSub rbrackTok (u₁ ++ qedTok ++ v) = some j :=
        findSub_insert_left rbrackTok qedTok u₁ v (by decide)
          noCross_rbrackTok_qed hju
      simp only [hj']
      by_cases hj0 : j = 0
      · rw [if_pos hj0]
      · rw [if_neg hj0] at h
        rw [if_neg hj0]
        have hd3 : List.drop (j + 1) (u₁ ++ v) =
            List.drop (j + 1) u₁ ++ v :=
          List.drop_append_of_le_length (by omega)
        have hd4 : List.drop (j + 1) (u₁ ++ qedTok ++ v) =
            List.drop (j + 1) u₁ ++ qedTok ++ v := by
          rw [List.append_assoc, List.drop_append_of_le_length (by omega)]
          exact (List.append_assoc _ _ _).symm
        rw [hd3] at h
        rw [hd4]
        cases hhe : findSub endTok (List.drop (j + 1) u₁ ++ v) with
        | some k =>
          simp only [hhe] at h
          exact absurd h (by simp)
        | none =>
          obtain ⟨heu, hev⟩ := findSub_append_none_transfer endTok _ v hhe
          have hend : findSub endTok
              (List.drop (j + 1) u₁ ++ qedTok ++ v) = none := by
            rw [findSub_insert_none endTok qedTok _ v (by decide)
              noCross_endTok_qed (findSub_none_no_occ _ _ heu), hev]
            rfl
          simp only [hend]
    · have hju1 : findSub rbrackTok u₁ = none := by
        cases hru : findSub rbrackTok u₁ with
        | none => rfl
        | some j₀ =>
          have hocc := findSub_some_prefix _ _ _ hru
          have hb := prefix_drop_bound (show rbrackTok ≠ [] by decide) hocc
          exact absurd (prefix_drop_append_left_of rbrackTok u₁ v j₀ hocc)
            (findSub_min _ _ _ hr j₀ (by omega))
      have hjv : findSub rbrackTok v = some (j - u₁.length) :=
        findSub_append_first_in_right rbrackTok u₁ v j hr hjr
      have hj' : findSub rbrackTok (u₁ ++ qedTok ++ v) =
          some (j + qedTok.length) := by
        rw [findSub_insert_none rbrackTok qedTok u₁ v (by decide)
          noCross_rbrackTok_qed (findSub_none_no_occ _ _ hju1), hjv]
        simp only [Option.map_some']
        congr 1
        omega
      simp only [hj']
      rw [if_neg (show ¬ (j + qedTok.length = 0) by omega)]
      have hj0 : ¬ j = 0 := by omega
      rw [if_neg hj0] at h
      have hlen12 : (u₁ ++ qedTok).length ≤ j + qedTok.length + 1 := by
        rw [List.length_append]
        omega
      have hd5 : List.drop (j + qedTok.length + 1) (u₁ ++ qedTok ++ v) =
          List.drop (j + 1 - u₁.length) v := by
        rw [List.drop_append_eq_append_drop, List.drop_of_length_le hlen12,
          List.nil_append]
        congr 1
        rw [List.length_append]
        omega
      have hd6 : List.drop (j + 1) (u₁ ++ v) =
          List.drop (j + 1 - u₁.length) v := by
        rw [List.drop_append_eq_append_drop,
          List.drop_of_length_le (by omega), List.nil_append]
      rw [hd6] at h
      rw [hd5]
      cases hhe : findSub endTok (List.drop (j + 1 - u₁.length) v) with
      | some k =>
        simp only [hhe] at h
        exact absurd h (by simp)
      | none => simp only [hhe]

theorem matchPBAt_insert_none (u v : List Char)
    (hH2 : u.length = beginBracketTok.length → ¬ beginBracketTok <+: u)
    (h : matchPBAt (u ++ v) = none) :
    matchPBAt (u ++ qedTok ++ v) = none := by
  rw [matchPBAt_eq_tail] at h ⊢
  by_cases hpre : beginBracketTok.isPrefixOf (u ++ qedTok ++ v)
  · rw [if_pos hpre]
    have hpre' := List.isPrefixOf_iff_prefix.mp hpre
    have h19 : beginBracketTok.length = 19 := by decide
    have h4 : qedTok.length = 4 := by decide
    obtain ⟨hA, hB, hC, hD, hE⟩ := noCross_beginBracketTok_qed
    have hpre2 : beginBracketTok <+: u ++ (qedTok ++ v) := by
      rw [← List.append_assoc]
      exact hpre'
    rcases Nat.lt_or_ge u.length beginBracketTok.length with hul | hul
    · exfalso
      have hbbt := List.prefix_iff_eq_take.mp hpre2
      have hdropu : List.drop u.length beginBracketTok =
          List.take (beginBracketTok.length - u.length) (qedTok ++ v) := by
        conv_lhs => rw [hbbt]
        rw [List.drop_take, List.drop_left]
      rcases le_or_lt (u.length + qedTok.length)
          beginBracketTok.length with hle4 | hlt4
      · have hqin : List.take qedTok.length
            (List.drop u.length beginBracketTok) = qedTok := by
          rw [hdropu, List.take_take, Nat.min_eq_left (by omega),
            List.take_append_of_le_length (le_refl qedTok.length),
            List.take_length]
        cases Nat.eq_zero_or_pos u.length with
        | inl h0 =>
          rw [h0, List.drop_zero] at hqin
          exact hD hqin
        | inr hupos => exact hC u.length hupos (by omega) hqin
      · have hk : beginBracketTok.length - u.length ≤ qedTok.length := by
          omega
        have hqpre : List.drop u.length beginBracketTok =
            List.take (beginBracketTok.length - u.length) qedTok := by
          rw [hdropu, List.take_append_of_le_length hk]
        have hA' := hA (beginBracketTok.length - u.length) (by omega) hk
        rw [show beginBracketTok.length -
            (beginBracketTok.length - u.length) = u.length by omega] at hA'
        exact hA' hqpre
    · have hpreu : beginBracketTok <+: u :=
        (prefix_append_iff_of_le _ hul).mp hpre2
      rcases Nat.eq_or_lt_of_le hul with heq | hlt
      · exact absurd hpreu (hH2 heq.symm)
      · have hpuv : beginBracketTok.isPrefixOf (u ++ v) :=
          List.isPrefixOf_iff_prefix.mpr (hpreu.trans (List.prefix_append u v))
        rw [if_pos hpuv] at h
        have hd1 : List.drop beginBracketTok.length (u ++ v) =
            List.drop beginBracketTok.length u ++ v :=
          List.drop_append_of_le_length hul
        have hd2 : List.drop beginBracketTok.length (u ++ qedTok ++ v) =
            List.drop beginBracketTok.length u ++ qedTok ++ v := by
          rw [List.append_assoc, List.drop_append_of_le_length hul]
          exact (List.append_assoc _ _ _).symm
        rw [hd1] at h
        rw [hd2]
        refine matchPBTail_insert_none _ v ?_ h
        intro hnil
        have hl := congrArg List.length hnil
        rw [List.length_drop, List.length_nil] at hl
        omega
  · rw [if_neg hpre]

theorem matchPBAt_qed_suffix_none (d : Nat) (hd : d < qedTok.length)
    (v : List Char) : matchPBAt (List.drop d qedTok ++ v) = none := by
  apply matchPBAt_none_of_not_prefix
  intro hpre
  have hp : beginBracketTok <+: List.drop d qedTok ++ v :=
    List.isPrefixOf_iff_prefix.mp hpre
  have h4 : qedTok.length = 4 := by decide
  have h19 : beginBracketTok.length = 19 := by decide
  have hlen : (List.drop d qedTok).length ≤ beginBracketTok.length := by
    rw [List.length_drop]
    omega
  have hu := append_prefix_flip v hp hlen
  obtain ⟨hA, hB, hC, hD, hE⟩ := noCross_beginBracketTok_qed
  cases Nat.eq_zero_or_pos d with
  | inl h0 =>
    rw [h0, List.drop_zero] at hu
    exact hD hu.symm
  | inr hdpos =>
    rw [List.length_drop] at hu
    exact hB d hdpos hd hu.symm

theorem findPB_at :
    ∀ (s : List Char) (r : Nat × List Char × List Char × Nat),
      findPB s = some r → matchPBAt (List.drop r.1 s) = some r.2 := by
  intro s
  induction s with
  | nil => intro r h; simp [findPB] at h
  | cons c rest ih =>
    intro r h
    simp only [findPB] at h
    cases hm : matchPBAt (c :: rest) with
    | some rm =>
      rw [hm] at h
      simp only [Option.some.injEq] at h
      subst h
      simpa using hm
    | none =>
      rw [hm] at h
      rw [Option.map_eq_some'] at h
      obtain ⟨r', hr', rfl⟩ := h
      show matchPBAt (List.drop (r'.1 + 1) (c :: rest)) = some r'.2
      rw [List.drop_succ_cons]
      exact ih r' hr'

theorem findPB_min :
    ∀ (s : List Char) (r : Nat × List Char × List Char × Nat),
      findPB s = some r → ∀ p, p < r.1 →
        matchPBAt (List.drop p s) = none := by
  intro s
  induction s with
  | nil => intro r h; simp [findPB] at h
  | cons c rest ih =>
    intro r h
    simp only [findPB] at h
    cases hm : matchPBAt (c :: rest) with
    | some rm =>
      rw [hm] at h
      simp only [Option.some.injEq] at h
      subst h
      intro p hp
      simp at hp
    | none =>
      rw [hm] at h
      rw [Option.map_eq_some'] at h
      obtain ⟨r', hr', rfl⟩ := h
      intro p hp
      cases p with
      | zero => rw [List.drop_zero]; exact hm
      | succ p' =>
        rw [List.drop_succ_cons]
        refine ih r' hr' p' ?_
        have hp' : p' + 1 < r'.1 + 1 := by simpa using hp
        omega

theorem findPB_none_all :
    ∀ (s : List Char), findPB s = none →
      ∀ p, matchPBAt (List.drop p s) = none := by
  intro s
  induction s with
  | nil => intro _ p; rw [List.drop_nil]; exact matchPBAt_nil
  | cons c rest ih =>
    intro h p
    simp only [findPB] at h
    cases hm : matchPBAt (c :: rest) with
    | some rm => rw [hm] at h; exact absurd h (by simp)
    | none =>
      rw [hm] at h
      rw [Option.map_eq_none'] at h
      cases p with
      | zero => rw [List.drop_zero]; exact hm
      | succ p' => rw [List.drop_succ_cons]; exact ih h p'

theorem findPB_eq_some_of :
    ∀ (s : List Char) (i : Nat) (t b : List Char) (n : Nat),
      matchPBAt (List.drop i s) = some (t, b, n) →
      (∀ p, p < i → matchPBAt (List.drop p s) = none) →
      findPB s = some (i, t, b, n) := by
  intro s
  induction s with
  | nil =>
    intro i t b n h hmin
    rw [List.drop_nil, matchPBAt_nil] at h
    exact absurd h (by simp)
  | cons c rest ih =>
    intro i t b n h hmin
    cases i with
    | zero =>
      rw [List.drop_zero] at h
      simp only [findPB, h]
    | succ i' =>
      have hm : matchPBAt (c :: rest) = none := by
        have h0 := hmin 0 (by omega)
        rwa [List.drop_zero] at h0
      simp only [findPB, hm]
      rw [List.drop_succ_cons] at h
      rw [ih i' t b n h (fun p hp => by
        have hpp := hmin (p + 1) (by omega)
        rwa [List.drop_succ_cons] at hpp)]
      rfl

theorem findPB_eq_none_of :
    ∀ (s : List Char), (∀ p, matchPBAt (List.drop p s) = none) →
      findPB s = none := by
  intro s
  induction s with
  | nil => intro _; rfl
  | cons c rest ih =>
    intro h
    have hm : matchPBAt (c :: rest) = none := by
      have h0 := h 0
      rwa [List.drop_zero] at h0
    simp only [findPB, hm]
    rw [ih (fun p => by
      have hpp := h (p + 1)
      rwa [List.drop_succ_cons] at hpp)]
    rfl

theorem findPB_bounds {s t b : List Char} {i n : Nat}
    (h : findPB s = some (i, t, b, n)) : 37 ≤ n ∧ i + n ≤ s.length := by
  have hat : matchPBAt (List.drop i s) = some (t, b, n) :=
    findPB_at s (i, t, b, n) h
  obtain ⟨h37, hlen⟩ := matchPBAt_bounds hat
  rw [List.length_drop] at hlen
  exact ⟨h37, by omega⟩

theorem findPB_insert_after (U V t b : List Char) (i n : Nat)
    (h : findPB (U ++ V) = some (i, t, b, n)) (hq : i + n ≤ U.length) :
    findPB (U ++ qedTok ++ V) = some (i, t, b, n) := by
  have hat : matchPBAt (List.drop i (U ++ V)) = some (t, b, n) :=
    findPB_at _ (i, t, b, n) h
  have hmin := findPB_min _ (i, t, b, n) h
  obtain ⟨h37, hlen⟩ := findPB_bounds h
  apply findPB_eq_some_of
  · have hdi : List.drop i (U ++ qedTok ++ V) =
        List.drop i U ++ qedTok ++ V := by
      rw [List.append_assoc, List.drop_append_of_le_length (by omega)]
      exact (List.append_assoc _ _ _).symm
    have hdi0 : List.drop i (U ++ V) = List.drop i U ++ V :=
      List.drop_append_of_le_length (by omega)
    rw [hdi0] at hat
    rw [hdi]
    refine matchPBAt_locality hat ?_
    have hnlen : n ≤ (List.drop i U).length := by
      rw [List.length_drop]
      omega
    rw [List.take_append_of_le_length hnlen, List.append_assoc,
      List.take_append_of_le_length hnlen]
  · intro p hp
    have hmp := hmin p hp
    have hdp0 : List.drop p (U ++ V) = List.drop p U ++ V :=
      List.drop_append_of_le_length (by omega)
    have hdp : List.drop p (U ++ qedTok ++ V) =
        List.drop p U ++ qedTok ++ V := by
      rw [List.append_assoc, List.drop_append_of_le_length (by omega)]
      exact (List.append_assoc _ _ _).symm
    rw [hdp0] at hmp
    rw [hdp]
    refine matchPBAt_insert_none _ _ ?_ hmp
    intro hlen19
    rw [List.length_drop] at hlen19
    intro _
    have h19 : beginBracketTok.length = 19 := by decide
    omega

theorem findPB_insert_before (U V t b : List Char) (i n : Nat)
    (h : findPB (U ++ V) = some (i, t, b, n)) (hUi : U.length ≤ i)
    (hH2 : beginBracketTok.length ≤ U.length →
      ¬ beginBracketTok <+:
        List.drop (U.length - beginBracketTok.length) (U ++ V)) :
    findPB (U ++ qedTok ++ V) = some (i + qedTok.length, t, b, n) := by
  have hat : matchPBAt (List.drop i (U ++ V)) = some (t, b, n) :=
    findPB_at _ (i, t, b, n) h
  have hmin := findPB_min _ (i, t, b, n) h
  obtain ⟨h37, hlen⟩ := findPB_bounds h
  have h4 : qedTok.length = 4 := by decide
  have h19 : beginBracketTok.length = 19 := by decide
  apply findPB_eq_some_of
  · have hd : List.drop (i + qedTok.length) (U ++ qedTok ++ V) =
        List.drop i (U ++ V) := by
      rw [List.drop_append_eq_append_drop,
        List.drop_of_length_le (show (U ++ qedTok).length ≤ i + qedTok.length
          by rw [List.length_append]; omega),
        List.nil_append, List.drop_append_eq_append_drop,
        List.drop_of_length_le hUi, List.nil_append]
      congr 1
      rw [List.length_append]
      omega
    rw [hd]
    exact hat
  · intro p hp
    rcases Nat.lt_or_ge p U.length with hpU | hpU
    · have hdp : List.drop p (U ++ qedTok ++ V) =
          List.drop p U ++ qedTok ++ V := by
        rw [List.append_assoc, List.drop_append_of_le_length (by omega)]
        exact (List.append_assoc _ _ _).symm
      have hdp0 : List.drop p (U ++ V) = List.drop p U ++ V :=
        List.drop_append_of_le_length (by omega)
      have hmp := hmin p (by omega)
      rw [hdp0] at hmp
      rw [hdp]
      refine matchPBAt_insert_none _ _ ?_ hmp
      intro hlen19
      rw [List.length_drop] at hlen19
      intro hpre
      have h2 := hH2 (by omega)
      refine h2 ?_
      rw [show U.length - beginBracketTok.length = p by omega, hdp0]
      exact hpre.trans (List.prefix_append _ _)
    · rcases Nat.lt_or_ge p (U.length + qedTok.length) with hpq | hpq
      · have hdp : List.drop p (U ++ qedTok ++ V) =
            List.drop (p - U.length) qedTok ++ V := by
          rw [List.append_assoc, List.drop_append_eq_append_drop,
            List.drop_of_length_le hpU, List.nil_append,
            List.drop_append_of_le_length (by omega)]
        rw [hdp]
        exact matchPBAt_qed_suffix_none (p - U.length) (by omega) V
      · have hdp : List.drop p (U ++ qedTok ++ V) =
            List.drop (p - qedTok.length) (U ++ V) := by
          rw [List.drop_append_eq_append_drop,
            List.drop_of_length_le (show (U ++ qedTok).length ≤ p
              by rw [List.length_append]; omega),
            List.nil_append, List.drop_append_eq_append_drop,
            List.drop_of_length_le (show U.length ≤ p - qedTok.length
              by omega),
            List.nil_append]
          congr 1
          rw [List.length_append]
          omega
        rw [hdp]
        exact hmin (p - qedTok.length) (by omega)

theorem findPB_insert_none2 (U V : List Char)
    (h : findPB (U ++ V) = none)
    (hH2 : beginBracketTok.length ≤ U.length →
      ¬ beginBracketTok <+:
        List.drop (U.length - beginBracketTok.length) (U ++ V)) :
    findPB (U ++ qedTok ++ V) = none := by
  have hall := findPB_none_all _ h
  have h4 : qedTok.length = 4 := by decide
  have h19 : beginBracketTok.length = 19 := by decide
  apply findPB_eq_none_of
  intro p
  rcases Nat.lt_or_ge p U.length with hpU | hpU
  · have hdp : List.drop p (U ++ qedTok ++ V) =
        List.drop p U ++ qedTok ++ V := by
      rw [List.append_assoc, List.drop_append_of_le_length (by omega)]
      exact (List.append_assoc _ _ _).symm
    have hdp0 : List.drop p (U ++ V) = List.drop p U ++ V :=
      List.drop_append_of_le_length (by omega)
    have hmp := hall p
    rw [hdp0] at hmp
    rw [hdp]
    refine matchPBAt_insert_none _ _ ?_ hmp
    intro hlen19
    rw [List.length_drop] at hlen19
    intro hpre
    have h2 := hH2 (by omega)
    refine h2 ?_
    rw [show U.length - beginBracketTok.length = p by omega, hdp0]
    exact hpre.trans (List.prefix_append _ _)
  · rcases Nat.lt_or_ge p (U.length + qedTok.length) with hpq | hpq
    · have hdp : List.drop p (U ++ qedTok ++ V) =
          List.drop (p - U.length) qedTok ++ V := by
        rw [List.append_assoc, List.drop_append_eq_append_drop,
          List.drop_of_length_le hpU, List.nil_append,
          List.drop_append_of_le_length (by omega)]
      rw [hdp]
      exact matchPBAt_qed_suffix_none (p - U.length) (by omega) V
    · have hdp : List.drop p (U ++ qedTok ++ V) =
          List.drop (p - qedTok.length) (U ++ V) := by
        rw [List.drop_append_eq_append_drop,
          List.drop_of_length_le (show (U ++ qedTok).length ≤ p
            by rw [List.length_append]; omega),
          List.nil_append, List.drop_append_eq_append_drop,
          List.drop_of_length_le (show U.length ≤ p - qedTok.length
            by omega),
          List.nil_append]
        congr 1
        rw [List.length_append]
        omega
      rw [hdp]
      exact hall (p - qedTok.length)

theorem finditerPB_shift : ∀ (fuel off k : Nat) (s : List Char),
    finditerPB fuel (off + k) s = (finditerPB fuel off s).map (shiftPB k) := by
  intro fuel
  induction fuel with
  | zero => intro off k s; simp [finditerPB]
  | succ fuel ih =>
    intro off k s
    simp only [finditerPB]
    cases hf : findPB s with
    | none => simp
    | some r =>
      obtain ⟨i, t, b, n⟩ := r
      simp only [List.map_cons]
      congr 1
      · simp only [shiftPB, PBMatch.mk.injEq]
        refine ⟨by omega, trivial, trivial, trivial⟩
      · rw [show off + k + i + n = off + i + n + k by omega]
        exact ih (off + i + n) k _

theorem finditerPB_fuel : ∀ (fuel fuel' off : Nat) (s : List Char),
    s.length ≤ fuel → s.length ≤ fuel' →
    finditerPB fuel off s = finditerPB fuel' off s := by
  intro fuel
  induction fuel with
  | zero =>
    intro fuel' off s h h'
    have hs : s = [] := List.length_eq_zero.mp (by omega)
    subst hs
    cases fuel' with
    | zero => rfl
    | succ f => simp [finditerPB, findPB]
  | succ fuel ih =>
    intro fuel' off s h h'
    cases fuel' with
    | zero =>
      have hs : s = [] := List.length_eq_zero.mp (by omega)
      subst hs
      simp [finditerPB, findPB]
    | succ f =>
      simp only [finditerPB]
      cases hf : findPB s with
      | none => rfl
      | some r =>
        obtain ⟨i, t, b, n⟩ := r
        obtain ⟨h37, hin⟩ := findPB_bounds hf
        simp only [List.cons.injEq]
        refine ⟨trivial, ih f (off + i + n) _ ?_ ?_⟩
        · rw [List.length_drop]; omega
        · rw [List.length_drop]; omega

theorem finditerPB_mem_len : ∀ (fuel off : Nat) (s : List Char) (m : PBMatch),
    m ∈ finditerPB fuel off s → m.mend ≤ off + s.length ∧ 37 ≤ m.mlen := by
  intro fuel
  induction fuel with
  | zero => intro off s m h; simp [finditerPB] at h
  | succ fuel ih =>
    intro off s m h
    simp only [finditerPB] at h
    cases hf : findPB s with
    | none => rw [hf] at h; simp at h
    | some r =>
      obtain ⟨i, t, b, n⟩ := r
      rw [hf] at h
      obtain ⟨h37, hin⟩ := findPB_bounds hf
      rcases List.mem_cons.mp h with h0 | hrest
      · subst h0
        refine ⟨?_, h37⟩
        simp only [PBMatch.mend]
        omega
      · obtain ⟨h1, h2⟩ := ih (off + i + n) (List.drop (i + n) s) m hrest
        rw [List.length_drop] at h1
        exact ⟨by omega, h2⟩

theorem extractPB_mem_facts (c : List Char) (m : PBMatch)
    (hm : m ∈ extractPB c) :
    m.mend ≤ c.length ∧ 37 ≤ m.mlen ∧
      beginBracketTok <+: List.drop m.mstart c := by
  have h1 := finditerPB_mem_len c.length 0 c m hm
  have h2 := finditerPB_mem c.length 0 c m hm
  refine ⟨by omega, h1.2, ?_⟩
  have h3 := h2.2
  rwa [Nat.sub_zero] at h3

theorem finditerPB_insert :
    ∀ (fuel fuel2 off qr : Nat) (s : List Char),
      s.length ≤ fuel → s.length + qedTok.length ≤ fuel2 → qr ≤ s.length →
      (beginBracketTok.length ≤ qr →
        ¬ beginBracketTok <+: List.drop (qr - beginBracketTok.length) s) →
      (∀ m ∈ finditerPB fuel off s,
        m.mend ≤ off + qr ∨ off + qr ≤ m.mstart) →
      finditerPB fuel2 off (List.take qr s ++ qedTok ++ List.drop qr s) =
        (finditerPB fuel off s).map
          (fun m => if off + qr ≤ m.mstart then shiftPB qedTok.length m
            else m) := by
  intro fuel
  induction fuel with
  | zero =>
    intro fuel2 off qr s hf hf2 hqr hH2 hsep
    have hs : s = [] := List.length_eq_zero.mp (by omega)
    subst hs
    have hqr0 : qr = 0 := by simpa using hqr
    subst hqr0
    simp only [finditerPB, List.take_nil, List.drop_nil, List.map_nil]
    rw [List.nil_append, List.append_nil]
    cases fuel2 with
    | zero => rfl
    | succ f2 =>
      simp only [finditerPB]
      rw [show findPB qedTok = none by decide]
  | succ fuel ih =>
    intro fuel2 off qr s hf hf2 hqr hH2 hsep
    cases fuel2 with
    | zero =>
      exfalso
      have h4 : qedTok.length = 4 := by decide
      omega
    | succ f2 =>
      have h4 : qedTok.length = 4 := by decide
      have h19 : beginBracketTok.length = 19 := by decide
      have hUV : List.take qr s ++ List.drop qr s = s :=
        List.take_append_drop qr s
      have hUlen : (List.take qr s).length = qr := by
        rw [List.length_take]
        omega
      cases hfp : findPB s with
      | none =>
        have hfp' : findPB (List.take qr s ++ List.drop qr s) = none := by
          rw [hUV]
          exact hfp
        have hnone2 : findPB
            (List.take qr s ++ qedTok ++ List.drop qr s) = none := by
          refine findPB_insert_none2 _ _ hfp' ?_
          intro h19le
          rw [hUlen] at h19le
          rw [hUV, hUlen]
          exact hH2 h19le
        simp only [finditerPB, hfp, hnone2, List.map_nil]
      | some r =>
        obtain ⟨i, t, b, n⟩ := r
        obtain ⟨h37, hin⟩ := findPB_bounds hfp
        have hfp' : findPB (List.take qr s ++ List.drop qr s) =
            some (i, t, b, n) := by
          rw [hUV]
          exact hfp
        have hm0 : (⟨off + i, n, t, b⟩ : PBMatch) ∈
            finditerPB (fuel + 1) off s := by
          simp only [finditerPB, hfp]
          exact List.mem_cons_self _ _
        have hsep0 := hsep _ hm0
        simp only [PBMatch.mend] at hsep0
        rcases hsep0 with hafter | hbefore
        · have hiq : i + n ≤ qr := by omega
          have hfound : findPB (List.take qr s ++ qedTok ++ List.drop qr s) =
              some (i, t, b, n) := by
            refine findPB_insert_after _ _ t b i n hfp' ?_
            rw [hUlen]
            omega
          simp only [finditerPB, hfp, hfound, List.map_cons]
          congr 1
          · rw [if_neg (show ¬ (off + qr ≤ off + i) by omega)]
          · have hdrop : List.drop (i + n)
                (List.take qr s ++ qedTok ++ List.drop qr s) =
                List.take (qr - (i + n)) (List.drop (i + n) s) ++ qedTok ++
                  List.drop (qr - (i + n)) (List.drop (i + n) s) := by
              rw [drop_take_insert s qedTok (i + n) qr hiq hqr,
                List.drop_drop, show i + n + (qr - (i + n)) = qr by omega]
            rw [hdrop]
            have harr : off + i + n + (qr - (i + n)) = off + qr := by omega
            rw [← harr]
            exact ih f2 (off + i + n) (qr - (i + n)) (List.drop (i + n) s)
              (by rw [List.length_drop]; omega)
              (by rw [List.length_drop]; omega)
              (by rw [List.length_drop]; omega)
              (fun hle => by
                rw [List.drop_drop,
                  show i + n + (qr - (i + n) - beginBracketTok.length) =
                    qr - beginBracketTok.length by omega]
                exact hH2 (by omega))
              (fun m hmm => by
                have hmem : m ∈ finditerPB (fuel + 1) off s := by
                  simp only [finditerPB, hfp]
                  exact List.mem_cons_of_mem _ hmm
                rcases hsep m hmem with ha | hb
                · left; omega
                · right; omega)
        · have hqi : qr ≤ i := by omega
          have hfound : findPB (List.take qr s ++ qedTok ++ List.drop qr s) =
              some (i + qedTok.length, t, b, n) := by
            refine findPB_insert_before _ _ t b i n hfp'
              (by rw [hUlen]; omega) ?_
            intro h19le
            rw [hUlen] at h19le
            rw [hUV, hUlen]
            exact hH2 h19le
          simp only [finditerPB, hfp, hfound, List.map_cons]
          congr 1
          · rw [if_pos (show off + qr ≤ off + i by omega)]
            simp only [shiftPB, PBMatch.mk.injEq]
            refine ⟨by omega, trivial, trivial, trivial⟩
          · have hdrop2 : List.drop (i + qedTok.length + n)
                (List.take qr s ++ qedTok ++ List.drop qr s) =
                List.drop (i + n) s := by
              rw [List.drop_append_eq_append_drop,
                List.drop_of_length_le
                  (show (List.take qr s ++ qedTok).length ≤
                    i + qedTok.length + n
                    by rw [List.length_append, hUlen]; omega),
                List.nil_append, List.drop_drop,
                show qr + (i + qedTok.length + n -
                    (List.take qr s ++ qedTok).length) = i + n
                  by rw [List.length_append, hUlen]; omega]
            rw [hdrop2]
            rw [show off + (i + qedTok.length) + n =
              off + i + n + qedTok.length by omega]
            rw [finditerPB_shift f2 (off + i + n) qedTok.length _]
            rw [finditerPB_fuel f2 fuel (off + i + n) _
              (by rw [List.length_drop]; omega)
              (by rw [List.length_drop]; omega)]
            apply List.map_congr_left
            intro m hmm
            have hge := (finditerPB_mem fuel (off + i + n) _ m hmm).1
            rw [if_pos (show off + qr ≤ m.mstart by omega)]

theorem extractPB_insert (c : List Char) (q : Nat) (hq : q ≤ c.length)
    (hH2 : beginBracketTok.length ≤ q →
      ¬ beginBracketTok <+: List.drop (q - beginBracketTok.length) c)
    (hsep : ∀ m ∈ extractPB c, m.mend ≤ q ∨ q ≤ m.mstart) :
    extractPB (insertQed q c) =
      (extractPB c).map
        (fun m => if q ≤ m.mstart then shiftPB qedTok.length m else m) := by
  unfold extractPB insertQed
  have hlen : (List.take q c ++ qedTok ++ List.drop q c).length =
      c.length + qedTok.length := by
    rw [List.length_append, List.length_append, List.length_take,
      List.length_drop]
    omega
  rw [hlen]
  have hres := finditerPB_insert c.length (c.length + qedTok.length) 0 q c
    (le_refl _) (le_refl _) hq hH2
    (fun m hm => by
      rcases hsep m hm with ha | hb
      · left; omega
      · right; omega)
  rw [Nat.zero_add] at hres
  exact hres

theorem fixMissingStep_eq (content : List Char) (m : PBMatch) :
    fixMissingStep content m =
      match insDecisionW m.mend (windowOf content m.mend) with
      | none => (content, 0)
      | some q => (insertQed q content, 1) := by
  cases hs : findSub solutionLabel (windowOf content m.mend) with
  | none => simp only [fixMissingStep, insDecisionW, hs]
  | some so =>
    cases hq : findSub qedTok
        (List.drop (so + solutionLabel.length) (windowOf content m.mend)) with
    | some j => simp only [fixMissingStep, insDecisionW, hs, hq]
    | none =>
      by_cases he : (rstripChars (List.drop (so + solutionLabel.length)
          (windowOf content m.mend))).isEmpty
      · simp [fixMissingStep, insDecisionW, hs, hq, he]
      · simp [fixMissingStep, insDecisionW, insertQed, hs, hq, he]

theorem insDecisionW_shift (e : Nat) (sc : List Char) :
    insDecisionW e sc = (insDecisionW 0 sc).map (fun x => e + x) := by
  cases hs : findSub solutionLabel sc with
  | none =>
    simp only [insDecisionW, hs]
    rfl
  | some so =>
    cases hq : findSub qedTok (List.drop (so + solutionLabel.length) sc) with
    | some j =>
      simp only [insDecisionW, hs, hq]
      rfl
    | none =>
      by_cases he : (rstripChars
          (List.drop (so + solutionLabel.length) sc)).isEmpty
      · simp only [insDecisionW, hs, hq]
        rw [if_pos he, if_pos he]
        rfl
      · simp only [insDecisionW, hs, hq]
        rw [if_neg he, if_neg he]
        simp only [Option.map_some', Option.some.injEq]
        omega

theorem insDecisionW_none_any {e : Nat} {sc : List Char}
    (h : insDecisionW e sc = none) (e' : Nat) : insDecisionW e' sc = none := by
  rw [insDecisionW_shift e sc, Option.map_eq_none'] at h
  rw [insDecisionW_shift e' sc, h]
  rfl

theorem insDecisionW_bounds {e : Nat} {sc : List Char} {q : Nat}
    (h : insDecisionW e sc = some q) :
    e + solutionLabel.length + 1 ≤ q ∧ q ≤ e + sc.length := by
  unfold insDecisionW at h
  cases hs : findSub solutionLabel sc with
  | none => simp only [hs] at h; exact absurd h (by simp)
  | some so =>
    simp only [hs] at h
    cases hq : findSub qedTok (List.drop (so + solutionLabel.length) sc) with
    | some j => simp only [hq] at h; exact absurd h (by simp)
    | none =>
      simp only [hq] at h
      by_cases he : (rstripChars
          (List.drop (so + solutionLabel.length) sc)).isEmpty
      · rw [if_pos he] at h; exact absurd h (by simp)
      · rw [if_neg he] at h
        simp only [Option.some.injEq] at h
        have hsol : so + solutionLabel.length ≤ sc.length :=
          prefix_drop_bound (by decide) ( findSub_some_prefix _ _ _ hs)
        have hlenr : (rstripChars
            (List.drop (so + solutionLabel.length) sc)).length ≤
            sc.length - (so + solutionLabel.length) := by
          refine le_trans (rstrip_length_le _) ?_
          rw [List.length_drop]
        have hpos : 0 < (rstripChars
            (List.drop (so + solutionLabel.length) sc)).length := by
          rcases Nat.eq_zero_or_pos (rstripChars
              (List.drop (so + solutionLabel.length) sc)).length with h0 | hp
          · exfalso
            apply he
            have hnil := List.length_eq_zero.mp h0
            rw [hnil]
            rfl
          · exact hp
        constructor
        · omega
        · omega

theorem windowOf_suffix_congr {c c' : List Char} {e e' : Nat}
    (h : List.drop e c = List.drop e' c') : windowOf c e = windowOf c' e' := by
  unfold windowOf
  rw [h]

theorem length_insertQed (q : Nat) (s : List Char) (hq : q ≤ s.length) :
    (insertQed q s).length = s.length + qedTok.length := by
  unfold insertQed
  rw [List.length_append, List.length_append, List.length_take,
    List.length_drop]
  omega

theorem drop_insertQed_after (s : List Char) (q e : Nat) (hq : q ≤ e)
    (hqs : q ≤ s.length) :
    List.drop (e + qedTok.length) (insertQed q s) = List.drop e s := by
  unfold insertQed
  rw [List.drop_append_eq_append_drop,
    List.drop_of_length_le
      (show (List.take q s ++ qedTok).length ≤ e + qedTok.length
        by rw [List.length_append, List.length_take]; omega),
    List.nil_append, List.drop_drop,
    show q + (e + qedTok.length - (List.take q s ++ qedTok).length) = e
      by rw [List.length_append, List.length_take]; omega]

theorem shiftPB_mend (k : Nat) (m : PBMatch) :
    (shiftPB k m).mend = m.mend + k := by
  simp only [shiftPB, PBMatch.mend]
  omega

theorem insDecisionW_after_fire (cur : List Char) (e q : Nat)
    (hd : insDecisionW e (windowOf cur e) = some q) (e' : Nat) :
    insDecisionW e' (windowOf (insertQed q cur) e) = none := by
  unfold insDecisionW at hd
  cases hs : findSub solutionLabel (windowOf cur e) with
  | none => simp only [hs] at hd; exact absurd hd (by simp)
  | some so =>
    simp only [hs] at hd
    cases hq2 : findSub qedTok
        (List.drop (so + solutionLabel.length) (windowOf cur e)) with
    | some j => simp only [hq2] at hd; exact absurd hd (by simp)
    | none =>
      simp only [hq2] at hd
      by_cases hemp : (rstripChars (List.drop (so + solutionLabel.length)
          (windowOf cur e))).isEmpty
      · rw [if_pos hemp] at hd; exact absurd hd (by simp)
      · rw [if_neg hemp] at hd
        simp only [Option.some.injEq] at hd
        have hsl : solutionLabel.length = 18 := by decide
        have hsol : so + solutionLabel.length ≤ (windowOf cur e).length :=
          prefix_drop_bound (by decide) ( findSub_some_prefix _ _ _ hs)
        have hlenr : (rstripChars (List.drop (so + solutionLabel.length)
            (windowOf cur e))).length ≤
            (windowOf cur e).length - (so + solutionLabel.length) := by
          refine le_trans (rstrip_length_le _) ?_
          rw [List.length_drop]
        have hwl := windowOf_length_le cur e
        have hele : e ≤ cur.length := by omega
        have hip : so + solutionLabel.length + (rstripChars
            (List.drop (so + solutionLabel.length)
              (windowOf cur e))).length ≤ (windowOf cur e).length := by
          omega
        have hq_eq : q = e + (so + solutionLabel.length + (rstripChars
            (List.drop (so + solutionLabel.length)
              (windowOf cur e))).length) := by omega
        have hins : insertQed q cur =
            List.take (e + (so + solutionLabel.length + (rstripChars
              (List.drop (so + solutionLabel.length)
                (windowOf cur e))).length)) cur ++ qedTok ++
            List.drop (e + (so + solutionLabel.length + (rstripChars
              (List.drop (so + solutionLabel.length)
                (windowOf cur e))).length)) cur := by
          rw [← hq_eq]
          rfl
        have hwin := windowOf_insert_qed cur e
          (so + solutionLabel.length + (rstripChars
            (List.drop (so + solutionLabel.length)
              (windowOf cur e))).length) hele hip
        have hsoltake : findSub solutionLabel
            (List.take (so + solutionLabel.length + (rstripChars
              (List.drop (so + solutionLabel.length)
                (windowOf cur e))).length) (windowOf cur e)) = some so := by
          refine findSub_locality solutionLabel (windowOf cur e) _
            (so + solutionLabel.length) so hs (le_refl _) ?_
          rw [List.take_take, Nat.min_eq_left (by omega)]
        have hsolnew : findSub solutionLabel
            (List.take (so + solutionLabel.length + (rstripChars
                (List.drop (so + solutionLabel.length)
                  (windowOf cur e))).length) (windowOf cur e) ++ qedTok ++
              List.drop (so + solutionLabel.length + (rstripChars
                (List.drop (so + solutionLabel.length)
                  (windowOf cur e))).length) (windowOf cur e)) = some so :=
          findSub_insert_left solutionLabel qedTok _ _ (by decide)
            noCross_solutionLabel_qed hsoltake
        have hcount := window_after_insert_count cur e so
          (so + solutionLabel.length + (rstripChars
            (List.drop (so + solutionLabel.length)
              (windowOf cur e))).length)
          (windowOf cur e)
          (List.drop (so + solutionLabel.length) (windowOf cur e))
          (rstripChars (List.drop (so + solutionLabel.length)
            (windowOf cur e)))
          rfl rfl rfl rfl hs hq2
        rw [hwin] at hcount
        have hqedsome : ¬ findSub qedTok (List.drop
            (so + solutionLabel.length)
            (List.take (so + solutionLabel.length + (rstripChars
                (List.drop (so + solutionLabel.length)
                  (windowOf cur e))).length) (windowOf cur e) ++ qedTok ++
              List.drop (so + solutionLabel.length + (rstripChars
                (List.drop (so + solutionLabel.length)
                  (windowOf cur e))).length) (windowOf cur e))) = none := by
          intro hnone
          have hnil := (tokOffsetsAux_nil_iff qedTok (by decide) _).mpr hnone
          rw [show tokOffsetsAux qedTok 0 = tokOffsets qedTok from rfl] at hnil
          rw [hnil] at hcount
          exact absurd hcount (by simp)
        rw [hins, hwin]
        cases hqq : findSub qedTok (List.drop (so + solutionLabel.length)
            (List.take (so + solutionLabel.length + (rstripChars
                (List.drop (so + solutionLabel.length)
                  (windowOf cur e))).length) (windowOf cur e) ++ qedTok ++
              List.drop (so + solutionLabel.length + (rstripChars
                (List.drop (so + solutionLabel.length)
                  (windowOf cur e))).length) (windowOf cur e))) with
        | none => exact absurd hqq hqedsome
        | some j =>
          unfold insDecisionW
          simp only [hsolnew, hqq]

theorem foldl_step_noop : ∀ (L : List PBMatch) (c₁ : List Char) (k : Nat),
    (∀ m ∈ L, fixMissingStep c₁ m = (c₁, 0)) →
    L.foldl (fun acc m =>
      let r := fixMissingStep acc.1 m
      (r.1, acc.2 + r.2)) (c₁, k) = (c₁, k) := by
  intro L
  induction L with
  | nil => intro c₁ k _; rfl
  | cons m L ih =>
    intro c₁ k hall
    rw [List.foldl_cons]
    show (L.foldl (fun acc m =>
        let r := fixMissingStep acc.1 m
        (r.1, acc.2 + r.2))
      ((fixMissingStep c₁ m).1, k + (fixMissingStep c₁ m).2)) = (c₁, k)
    rw [hall m (List.mem_cons_self m L)]
    exact ih c₁ k (fun m' hm' => hall m' (List.mem_cons_of_mem _ hm'))

theorem fixloop_all_none :
    ∀ (pre : List PBMatch) (L : List PBMatch) (cur : List Char) (k : Nat),
      extractPB cur = pre.reverse ++ L →
      (∀ mm ∈ L, insDecisionW mm.mend (windowOf cur mm.mend) = none) →
      ∀ mm ∈ extractPB (pre.foldl (fun acc m =>
          let r := fixMissingStep acc.1 m
          (r.1, acc.2 + r.2)) (cur, k)).1,
        insDecisionW mm.mend (windowOf (pre.foldl (fun acc m =>
          let r := fixMissingStep acc.1 m
          (r.1, acc.2 + r.2)) (cur, k)).1 mm.mend) = none := by
  intro pre
  induction pre with
  | nil =>
    intro L cur k hsplit hnone mm hmm
    simp only [List.foldl_nil] at hmm ⊢
    rw [List.reverse_nil, List.nil_append] at hsplit
    rw [hsplit] at hmm
    exact hnone mm hmm
  | cons m pre ih =>
    intro L cur k hsplit hnone
    rw [List.foldl_cons]
    show ∀ mm ∈ extractPB (pre.foldl (fun acc m =>
        let r := fixMissingStep acc.1 m
        (r.1, acc.2 + r.2))
      ((fixMissingStep cur m).1, k + (fixMissingStep cur m).2)).1,
      insDecisionW mm.mend (windowOf (pre.foldl (fun acc m =>
        let r := fixMissingStep acc.1 m
        (r.1, acc.2 + r.2))
      ((fixMissingStep cur m).1, k + (fixMissingStep cur m).2)).1
        mm.mend) = none
    rw [fixMissingStep_eq cur m]
    rw [List.reverse_cons, List.append_assoc, List.singleton_append] at hsplit
    cases hd : insDecisionW m.mend (windowOf cur m.mend) with
    | none =>
      refine ih (m :: L) cur _ hsplit ?_
      intro mm hmm
      rcases List.mem_cons.mp hmm with rfl | hmm'
      · exact hd
      · exact hnone mm hmm'
    | some q =>
      have hmem_m : m ∈ extractPB cur := by
        rw [hsplit]
        exact List.mem_append_right _ (List.mem_cons_self m L)
      obtain ⟨hmend_le, hmlen37, hbbt⟩ := extractPB_mem_facts cur m hmem_m
      obtain ⟨hq_lo, hq_hi⟩ := insDecisionW_bounds hd
      have hsl18 : solutionLabel.length = 18 := by decide
      have h19 : beginBracketTok.length = 19 := by decide
      have h4q : qedTok.length = 4 := by decide
      have hme : m.mend = m.mstart + m.mlen := rfl
      have hpair : List.Pairwise (fun a b => a.mend ≤ b.mstart)
          (extractPB cur) := finditerPB_pairwise cur.length 0 cur
      rw [hsplit, List.pairwise_append] at hpair
      obtain ⟨hpairA, hpairBC, hcross⟩ := hpair
      rw [List.pairwise_cons] at hpairBC
      obtain ⟨hmL, hpairL⟩ := hpairBC
      have hwl := windowOf_length_le cur m.mend
      have hqcur : q ≤ cur.length := by omega
      have hLq : ∀ mm ∈ L, q ≤ mm.mstart := by
        intro mm hmmL
        have hmmE : mm ∈ extractPB cur := by
          rw [hsplit]
          exact List.mem_append_right _ (List.mem_cons_of_mem _ hmmL)
        obtain ⟨-, hml37, hbbt2⟩ := extractPB_mem_facts cur mm hmmE
        have hbt : beginTok <+: List.drop mm.mstart cur :=
          (show beginTok <+: beginBracketTok by decide).trans hbbt2
        have hme_ms : m.mend ≤ mm.mstart := hmL mm hmmL
        have hoccrel : beginTok <+:
            List.drop (mm.mstart - m.mend) (List.drop m.mend cur) := by
          rw [List.drop_drop,
            show m.mend + (mm.mstart - m.mend) = mm.mstart by omega]
          exact hbt
        cases hfsb : findSub beginTok (List.drop m.mend cur) with
        | none => exact absurd hoccrel (findSub_none_no_occ _ _ hfsb _)
        | some n =>
          have hmin := findSub_min _ _ _ hfsb
          have hnle : n ≤ mm.mstart - m.mend := by
            by_contra hcon
            exact hmin _ (by omega) hoccrel
          have hwin := windowOf_eq_some cur m.mend n hfsb
          have hwlen2 : (windowOf cur m.mend).length ≤ n := by
            rw [hwin, List.length_take]
            omega
          omega
      have hsep : ∀ mm ∈ extractPB cur, mm.mend ≤ q ∨ q ≤ mm.mstart := by
        intro mm hmmE
        rw [hsplit] at hmmE
        rcases List.mem_append.mp hmmE with hA | hBC
        · left
          have h1 := hcross mm hA m (List.mem_cons_self m L)
          omega
        · rcases List.mem_cons.mp hBC with rfl | hL2
          · left; omega
          · right; exact hLq mm hL2
      have hH2 : beginBracketTok.length ≤ q →
          ¬ beginBracketTok <+:
            List.drop (q - beginBracketTok.length) cur := by
        intro h19q hpre2
        have hbt : beginTok <+:
            List.drop (q - beginBracketTok.length) cur :=
          (show beginTok <+: beginBracketTok by decide).trans hpre2
        have hrel : beginTok <+:
            List.drop ((q - beginBracketTok.length) - m.mend)
              (List.drop m.mend cur) := by
          rw [List.drop_drop,
            show m.mend + ((q - beginBracketTok.length) - m.mend) =
              q - beginBracketTok.length by omega]
          exact hbt
        cases hfsb : findSub beginTok (List.drop m.mend cur) with
        | none => exact findSub_none_no_occ _ _ hfsb _ hrel
        | some n =>
          have hmin := findSub_min _ _ _ hfsb
          have hnle : n ≤ (q - beginBracketTok.length) - m.mend := by
            by_contra hcon
            exact hmin _ (by omega) hrel
          have hwin := windowOf_eq_some cur m.mend n hfsb
          have hwlen2 : (windowOf cur m.mend).length ≤ n := by
            rw [hwin, List.length_take]
            omega
          omega
      have hext := extractPB_insert cur q hqcur hH2 hsep
      rw [hsplit, List.map_append, List.map_cons] at hext
      have hmapA : (pre.reverse).map
          (fun mm => if q ≤ mm.mstart then shiftPB qedTok.length mm
            else mm) = pre.reverse := by
        have hall : ∀ mm ∈ pre.reverse,
            (if q ≤ mm.mstart then shiftPB qedTok.length mm else mm) = mm := by
          intro mm hA
          have hmmE : mm ∈ extractPB cur := by
            rw [hsplit]
            exact List.mem_append_left _ hA
          obtain ⟨-, h37, -⟩ := extractPB_mem_facts cur mm hmmE
          have h1 := hcross mm hA m (List.mem_cons_self m L)
          have hmm_me : mm.mend = mm.mstart + mm.mlen := rfl
          rw [if_neg (show ¬ q ≤ mm.mstart by omega)]
        rw [List.map_congr_left hall, List.map_id']
      have hmap_m : (if q ≤ m.mstart then shiftPB qedTok.length m else m)
          = m := by
        rw [if_neg (show ¬ q ≤ m.mstart by omega)]
      have hmapL : L.map
          (fun mm => if q ≤ mm.mstart then shiftPB qedTok.length mm
            else mm) = L.map (shiftPB qedTok.length) := by
        apply List.map_congr_left
        intro mm hmmL
        rw [if_pos (hLq mm hmmL)]
      rw [hmapA, hmap_m, hmapL] at hext
      have hnone' : ∀ mm ∈ (m :: L.map (shiftPB qedTok.length)),
          insDecisionW mm.mend
            (windowOf (insertQed q cur) mm.mend) = none := by
        intro mm hmm
        rcases List.mem_cons.mp hmm with heq | hmm'
        · subst heq
          exact insDecisionW_after_fire cur mm.mend q hd mm.mend
        · obtain ⟨mm0, hmm0L, rfl⟩ := List.mem_map.mp hmm'
          rw [shiftPB_mend]
          have hqm : q ≤ mm0.mend := by
            have h1 := hLq mm0 hmm0L
            have h2 : mm0.mend = mm0.mstart + mm0.mlen := rfl
            omega
          have hwcong : windowOf (insertQed q cur)
              (mm0.mend + qedTok.length) = windowOf cur mm0.mend :=
            windowOf_suffix_congr (drop_insertQed_after cur q mm0.mend
              hqm hqcur)
          rw [hwcong]
          exact insDecisionW_none_any (hnone mm0 hmm0L) _
      refine ih (m :: L.map (shiftPB qedTok.length)) (insertQed q cur) _
        hext hnone'

/-- Claim C5: running the insert-missing-closing-marker pass a second time on
the output of a first run changes nothing: the fixed document is a fixed
point of the pass, the second run applies zero edits, and consequently the
file-level pass performs no write (the on-disk content stays the first run's
output). -/
theorem c5_insert_pass_idempotent (content : List Char) :
    fix_missing_qed (fix_missing_qed content).1 =
      ((fix_missing_qed content).1, 0) ∧
    ∀ writeOk : Bool,
      fixMissingQedRun writeOk (fix_missing_qed content).1 =
        ((fix_missing_qed content).1, 0) := by
  have hall : ∀ mm ∈ extractPB (fix_missing_qed content).1,
      insDecisionW mm.mend
        (windowOf (fix_missing_qed content).1 mm.mend) = none := by
    have hm := fixloop_all_none ((extractPB content).reverse) [] content 0
      (by rw [List.reverse_reverse, List.append_nil])
      (by intro mm hmm; simp at hmm)
    exact hm
  have hmain : fix_missing_qed (fix_missing_qed content).1 =
      ((fix_missing_qed content).1, 0) := by
    show ((extractPB (fix_missing_qed content).1).reverse).foldl
      (fun acc m =>
        let r := fixMissingStep acc.1 m
        (r.1, acc.2 + r.2)) ((fix_missing_qed content).1, 0) =
      ((fix_missing_qed content).1, 0)
    apply foldl_step_noop
    intro m hm
    rw [fixMissingStep_eq, hall m (List.mem_reverse.mp hm)]
  refine ⟨hmain, ?_⟩
  intro writeOk
  unfold fixMissingQedRun
  rw [hmain]
  simp

/-! ### Claim C7: idempotence of the importance-wrapping pass -/

theorem impFold_noop (sc : List Char) (pbEnd : Nat) :
    ∀ (l : List (Nat × Nat × List Char)) (c : List Char) (k : Nat),
      (∀ im ∈ l, impSkip sc im = true) →
      l.foldl (fun acc im =>
        if containsSub importanceOpen (lastN 50 (List.take im.1 sc)) then acc
        else if containsSub importanceClose
            (List.take 50 (List.drop im.2.1 sc)) then acc
        else
          (List.take (pbEnd + im.1) acc.1 ++
            (importanceOpen ++ nlChar ++ importanceLabel ++
              stripChars im.2.2 ++ nlChar ++ importanceClose) ++
            List.drop (pbEnd + im.2.1) acc.1,
           acc.2 + 1)) (c, k) = (c, k) := by
  intro l
  induction l with
  | nil => intro c k _; rfl
  | cons im l ih =>
    intro c k hall
    rw [List.foldl_cons]
    have hskip := hall im (List.mem_cons_self im l)
    unfold impSkip at hskip
    rw [Bool.or_eq_true] at hskip
    by_cases hor : containsSub importanceOpen
        (lastN 50 (List.take im.1 sc)) = true
    · rw [if_pos hor]
      exact ih c k (fun im' him' => hall im' (List.mem_cons_of_mem _ him'))
    · have hcl : containsSub importanceClose
          (List.take 50 (List.drop im.2.1 sc)) = true := by
        rcases hskip with h1 | h2
        · exact absurd h1 hor
        · exact h2
      rw [if_neg hor, if_pos hcl]
      exact ih c k (fun im' him' => hall im' (List.mem_cons_of_mem _ him'))

theorem impStep_noop (c : List Char) (m : PBMatch)
    (h : MarkedW (windowOf c m.mend)) : fixImportanceStep c m = (c, 0) := by
  show ((impMatchesIn (windowOf c m.mend)).reverse).foldl (fun acc im =>
    if containsSub importanceOpen
        (lastN 50 (List.take im.1 (windowOf c m.mend))) then acc
    else if containsSub importanceClose
        (List.take 50 (List.drop im.2.1 (windowOf c m.mend))) then acc
    else
      (List.take (m.mend + im.1) acc.1 ++
        (importanceOpen ++ nlChar ++ importanceLabel ++
          stripChars im.2.2 ++ nlChar ++ importanceClose) ++
        List.drop (m.mend + im.2.1) acc.1,
       acc.2 + 1)) (c, 0) = (c, 0)
  exact impFold_noop (windowOf c m.mend) m.mend _ c 0
    (fun im him => h im (List.mem_reverse.mp him))

theorem impOuterFold_noop : ∀ (L : List PBMatch) (c : List Char) (k : Nat),
    (∀ m ∈ L, fixImportanceStep c m = (c, 0)) →
    L.foldl (fun acc m =>
      let r := fixImportanceStep acc.1 m
      (r.1, acc.2 + r.2)) (c, k) = (c, k) := by
  intro L
  induction L with
  | nil => intro c k _; rfl
  | cons m L ih =>
    intro c k hall
    rw [List.foldl_cons]
    show (L.foldl (fun acc m =>
        let r := fixImportanceStep acc.1 m
        (r.1, acc.2 + r.2))
      ((fixImportanceStep c m).1, k + (fixImportanceStep c m).2)) = (c, k)
    rw [hall m (List.mem_cons_self m L)]
    exact ih c k (fun m' hm' => hall m' (List.mem_cons_of_mem _ hm'))

theorem impPass_noop (c : List Char)
    (h : ∀ m ∈ extractPB c, MarkedW (windowOf c m.mend)) :
    fix_importance_sections c = (c, 0) := by
  unfold fix_importance_sections
  exact impOuterFold_noop _ c 0
    (fun m hm => impStep_noop c m (h m (List.mem_reverse.mp hm)))

theorem fixImportanceStep_eq (c : List Char) (m : PBMatch) :
    fixImportanceStep c m =
      ((impMatchesIn (windowOf c m.mend)).reverse).foldl
        (impInnerStep (windowOf c m.mend) m.mend) (c, 0) := rfl

theorem impInnerStep_skip (sc : List Char) (pbEnd : Nat)
    (acc : List Char × Nat) (im : Nat × Nat × List Char)
    (h : impSkip sc im = true) : impInnerStep sc pbEnd acc im = acc := by
  unfold impInnerStep
  unfold impSkip at h
  rw [Bool.or_eq_true] at h
  by_cases hor : containsSub importanceOpen
      (lastN 50 (List.take im.1 sc)) = true
  · rw [if_pos hor]
  · have hcl : containsSub importanceClose
        (List.take 50 (List.drop im.2.1 sc)) = true := by
      rcases h with h1 | h2
      · exact absurd h1 hor
      · exact h2
    rw [if_neg hor, if_pos hcl]

theorem containsSub_of_occ {pat s : List Char} {i : Nat}
    (h : pat <+: List.drop i s) : containsSub pat s = true := by
  obtain ⟨j, hj, -⟩ := findSub_exists_le pat s i h
  unfold containsSub
  rw [hj]
  rfl

theorem containsSub_elim {pat s : List Char} (h : containsSub pat s = true) :
    ∃ i, pat <+: List.drop i s := by
  unfold containsSub at h
  cases hf : findSub pat s with
  | none => rw [hf] at h; exact absurd h (by simp)
  | some j => exact ⟨j, findSub_some_prefix _ _ _ hf⟩

theorem occ_in_lastN {pat s : List Char} {o n : Nat}
    (h : pat <+: List.drop o s) (hn : s.length - n ≤ o) :
    pat <+: List.drop (o - (s.length - n)) (lastN n s) := by
  unfold lastN
  rw [List.drop_drop, show s.length - n + (o - (s.length - n)) = o by omega]
  exact h

theorem containsSub_lastN_of_occ {pat s : List Char} {o p n : Nat}
    (h : pat <+: List.drop o s) (ho : o + pat.length ≤ p)
    (ho2 : p ≤ o + n) :
    containsSub pat (lastN n (List.take p s)) = true := by
  have h1 : pat <+: List.drop o (List.take p s) := prefix_take_of_drop h ho
  refine containsSub_of_occ (occ_in_lastN h1 ?_)
  rw [List.length_take]
  omega

theorem containsSub_take_of_occ {pat t : List Char} {r n : Nat}
    (h : pat <+: List.drop r t) (hr : r + pat.length ≤ n) :
    containsSub pat (List.take n t) = true :=
  containsSub_of_occ (prefix_take_of_drop h hr)

theorem firstBoundary_nil : firstBoundary [] = 0 := rfl

theorem firstBoundary_cons (c : Char) (rest : List Char) :
    firstBoundary (c :: rest) =
      if isBoundary (c :: rest) then 0 else 1 + firstBoundary rest := rfl

theorem firstBoundary_le : ∀ s : List Char, firstBoundary s ≤ s.length := by
  intro s
  induction s with
  | nil => exact le_refl 0
  | cons c rest ih =>
    rw [firstBoundary_cons]
    by_cases h : isBoundary (c :: rest) = true
    · rw [if_pos h]
      exact Nat.zero_le _
    · rw [if_neg h, List.length_cons]
      omega

theorem firstBoundary_min : ∀ (s : List Char) (i : Nat),
    i < firstBoundary s → isBoundary (List.drop i s) = false := by
  intro s
  induction s with
  | nil => intro i h; rw [firstBoundary_nil] at h; omega
  | cons c rest ih =>
    intro i h
    rw [firstBoundary_cons] at h
    by_cases hb : isBoundary (c :: rest) = true
    · rw [if_pos hb] at h; omega
    · rw [if_neg hb] at h
      cases i with
      | zero =>
        rw [List.drop_zero]
        cases hB : isBoundary (c :: rest) with
        | false => rfl
        | true => exact absurd hB hb
      | succ i' =>
        rw [List.drop_succ_cons]
        exact ih i' (by omega)

theorem firstBoundary_at : ∀ (s : List Char),
    firstBoundary s = s.length ∨
      isBoundary (List.drop (firstBoundary s) s) = true := by
  intro s
  induction s with
  | nil => left; rfl
  | cons c rest ih =>
    rw [firstBoundary_cons]
    by_cases hb : isBoundary (c :: rest) = true
    · right
      rw [if_pos hb, List.drop_zero]
      exact hb
    · rw [if_neg hb]
      rcases ih with h1 | h2
      · left
        rw [List.length_cons]
        omega
      · right
        rw [show 1 + firstBoundary rest = firstBoundary rest + 1 by omega,
          List.drop_succ_cons]
        exact h2

theorem firstBoundary_eq_of : ∀ (s : List Char) (b : Nat),
    (∀ i, i < b → isBoundary (List.drop i s) = false) →
    (b = s.length ∨ isBoundary (List.drop b s) = true) →
    firstBoundary s = b := by
  intro s
  induction s with
  | nil =>
    intro b hmin hb
    rcases hb with h1 | h2
    · rw [firstBoundary_nil]
      simp at h1
      omega
    · rw [List.drop_nil] at h2
      exact absurd h2 (by decide)
  | cons c rest ih =>
    intro b hmin hb
    rw [firstBoundary_cons]
    cases b with
    | zero =>
      rcases hb with h1 | h2
      · simp at h1
      · rw [List.drop_zero] at h2
        rw [if_pos h2]
    | succ b' =>
      have h0 := hmin 0 (by omega)
      rw [List.drop_zero] at h0
      rw [if_neg (by rw [h0]; simp)]
      have hres := ih b' (fun i hi => by
        have h2 := hmin (i + 1) (by omega)
        rwa [List.drop_succ_cons] at h2)
        (by
          rcases hb with h1 | h2
          · left
            rw [List.length_cons] at h1
            omega
          · right
            rwa [List.drop_succ_cons] at h2)
      omega

theorem no_cross_occurrence (tok g t : List Char) (ch : Char)
    (htok : ∀ d, d < tok.length → 0 < d →
      List.take 1 (List.drop d tok) ≠ [ch])
    (ht : t = [] ∨ List.take 1 t = [ch])
    (i : Nat) (hi : i < g.length) (hcross : g.length < i + tok.length)
    (hocc : tok <+: List.drop i (g ++ t)) : False := by
  rcases ht with rfl | hts
  · rw [List.append_nil] at hocc
    have hb := hocc.length_le
    rw [List.length_drop] at hb
    omega
  · have heq := List.prefix_iff_eq_take.mp hocc
    have hd : List.take 1 (List.drop (g.length - i) tok) = [ch] := by
      conv_lhs => rw [heq]
      rw [List.drop_take, List.take_take,
        Nat.min_eq_left (show 1 ≤ tok.length - (g.length - i) by omega),
        List.drop_drop, show i + (g.length - i) = g.length by omega,
        List.drop_left]
      exact hts
    exact htok (g.length - i) (by omega) (by omega) hd

theorem occ_disjoint_of_noOverlap {pat s : List Char} (hno : noOverlap pat)
    {j i : Nat} (hj : pat <+: List.drop j s) (hi : pat <+: List.drop i s)
    (hlt : j < i) : j + pat.length ≤ i := by
  by_contra hcon
  obtain ⟨z, hz⟩ := hj
  have hdi : List.drop i s = List.drop (i - j) pat ++ z := by
    have hdd : List.drop i s = List.drop (i - j) (List.drop j s) := by
      rw [List.drop_drop]
      congr 1
      omega
    rw [hdd, ← hz, List.drop_append_of_le_length (by omega)]
  rw [hdi] at hi
  have hflip := append_prefix_flip z hi (by rw [List.length_drop]; omega)
  rw [List.length_drop] at hflip
  have hk := hno (pat.length - (i - j)) (by omega) (by omega)
  rw [show pat.length - (pat.length - (i - j)) = i - j by omega] at hk
  exact hk hflip.symm

theorem tokOffsetsAux_ge_skip (pat : List Char) :
    ∀ (s : List Char) (skip q : Nat), q ∈ tokOffsetsAux pat skip s →
      skip ≤ q := by
  intro s
  induction s with
  | nil => intro skip q h; simp [tokOffsetsAux] at h
  | cons c rest ih =>
    intro skip q h
    simp only [tokOffsetsAux] at h
    cases skip with
    | succ k =>
      rw [List.mem_map] at h
      obtain ⟨q', hq', rfl⟩ := h
      have := ih k q' hq'
      omega
    | zero => omega

theorem tokOffsetsAux_pairwise (pat : List Char) :
    ∀ (s : List Char) (skip : Nat),
      List.Pairwise (fun a b => a + pat.length ≤ b)
        (tokOffsetsAux pat skip s) := by
  intro s
  induction s with
  | nil => intro skip; simp [tokOffsetsAux]
  | cons c rest ih =>
    intro skip
    simp only [tokOffsetsAux]
    cases skip with
    | succ k =>
      refine List.Pairwise.map _ ?_ (ih k)
      intro a b hab
      omega
    | zero =>
      by_cases hpre : pat.isPrefixOf (c :: rest)
      · rw [if_pos hpre]
        refine List.Pairwise.cons ?_ (List.Pairwise.map _ (fun a b hab => by omega) (ih (pat.length - 1)))
        intro x hx
        rw [List.mem_map] at hx
        obtain ⟨q', hq', rfl⟩ := hx
        have := tokOffsetsAux_ge_skip pat rest (pat.length - 1) q' hq'
        omega
      · rw [if_neg hpre]
        exact List.Pairwise.map _ (fun a b hab => by omega) (ih 0)

theorem tokOffsetsAux_complete (pat : List Char) (hno : noOverlap pat)
    (hpat : pat ≠ []) :
    ∀ (s : List Char) (skip i : Nat), skip ≤ i →
      pat <+: List.drop i s → i ∈ tokOffsetsAux pat skip s := by
  intro s
  induction s with
  | nil =>
    intro skip i _ hocc
    rw [List.drop_nil] at hocc
    rw [List.prefix_nil] at hocc
    exact absurd hocc hpat
  | cons c rest ih =>
    intro skip i hskip hocc
    simp only [tokOffsetsAux]
    cases skip with
    | succ k =>
      have hi1 : 1 ≤ i := by omega
      rw [List.mem_map]
      refine ⟨i - 1, ih k (i - 1) (by omega) ?_, by omega⟩
      rw [show i = (i - 1) + 1 by omega, List.drop_succ_cons] at hocc
      exact hocc
    | zero =>
      by_cases hpre : pat.isPrefixOf (c :: rest)
      · rw [if_pos hpre]
        cases hi : i with
        | zero => exact List.mem_cons_self _ _
        | succ i' =>
          refine List.mem_cons_of_mem _ ?_
          rw [List.mem_map]
          have h0 : pat <+: List.drop 0 (c :: rest) := by
            rw [List.drop_zero]
            exact List.isPrefixOf_iff_prefix.mp hpre
          have hdisj : 0 + pat.length ≤ i :=
            occ_disjoint_of_noOverlap hno h0 hocc (by omega)
          refine ⟨i', ih (pat.length - 1) i' (by omega) ?_, by omega⟩
          rw [hi, List.drop_succ_cons] at hocc
          exact hocc
      · rw [if_neg hpre]
        cases hi : i with
        | zero =>
          rw [hi, List.drop_zero] at hocc
          exact absurd (List.isPrefixOf_iff_prefix.mpr hocc) hpre
        | succ i' =>
          rw [List.mem_map]
          refine ⟨i', ih 0 i' (by omega) ?_, by omega⟩
          rw [hi, List.drop_succ_cons] at hocc
          exact hocc

theorem importanceLabel_noOverlap : noOverlap importanceLabel := by
  intro k h1 h2
  have h20 : importanceLabel.length = 20 := rfl
  rw [h20] at h2
  interval_cases k <;> decide

theorem impMatchesIn_mem {sc : List Char} {im : Nat × Nat × List Char}
    (h : im ∈ impMatchesIn sc) :
    importanceLabel <+: List.drop im.1 sc ∧
    im.2.1 = im.1 + importanceLabel.length +
      firstBoundary (List.drop (im.1 + importanceLabel.length) sc) ∧
    im.2.2 = List.take
      (firstBoundary (List.drop (im.1 + importanceLabel.length) sc))
      (List.drop (im.1 + importanceLabel.length) sc) := by
  unfold impMatchesIn at h
  rw [List.mem_map] at h
  obtain ⟨p, hp, rfl⟩ := h
  have hocc := tokOffsetsAux_mem importanceLabel sc 0 p hp
  exact ⟨hocc, rfl, rfl⟩

theorem impMatchesIn_complete {sc : List Char} {p : Nat}
    (h : importanceLabel <+: List.drop p sc) :
    (p, p + importanceLabel.length +
      firstBoundary (List.drop (p + importanceLabel.length) sc),
     List.take (firstBoundary (List.drop (p + importanceLabel.length) sc))
       (List.drop (p + importanceLabel.length) sc)) ∈ impMatchesIn sc := by
  unfold impMatchesIn
  rw [List.mem_map]
  exact ⟨p, tokOffsetsAux_complete importanceLabel importanceLabel_noOverlap
    (by decide) sc 0 p (by omega) h, rfl⟩

theorem isBoundary_take {k : Nat} {x : List Char}
    (h : isBoundary (List.take k x) = true) : isBoundary x = true := by
  unfold isBoundary at h ⊢
  rw [Bool.or_eq_true, Bool.or_eq_true] at h ⊢
  rcases h with (h1 | h2) | h3
  · left; left
    exact List.isPrefixOf_iff_prefix.mpr
      (((List.isPrefixOf_iff_prefix.mp h1).trans (List.take_prefix k x)))
  · left; right
    exact List.isPrefixOf_iff_prefix.mpr
      (((List.isPrefixOf_iff_prefix.mp h2).trans (List.take_prefix k x)))
  · right
    exact List.isPrefixOf_iff_prefix.mpr
      (((List.isPrefixOf_iff_prefix.mp h3).trans (List.take_prefix k x)))

theorem group_boundaryFree (rest : List Char) :
    boundaryFree (List.take (firstBoundary rest) rest) := by
  intro i
  cases hB : isBoundary (List.drop i (List.take (firstBoundary rest) rest)) with
  | false => rfl
  | true =>
    exfalso
    by_cases hi : i < firstBoundary rest
    · rw [List.drop_take] at hB
      have := isBoundary_take hB
      rw [firstBoundary_min rest i hi] at this
      exact absurd this (by simp)
    · rw [List.drop_of_length_le (by rw [List.length_take]; omega)] at hB
      exact absurd hB (by decide)

theorem isBoundary_of_label {s : List Char}
    (h : importanceLabel <+: s) : isBoundary s = true := by
  unfold isBoundary
  rw [Bool.or_eq_true, Bool.or_eq_true]
  left; left
  exact List.isPrefixOf_iff_prefix.mpr
    ((show textbfBrace <+: importanceLabel by decide).trans h)

theorem impMatchesIn_pairwise (sc : List Char) :
    List.Pairwise (fun im im' : Nat × Nat × List Char => im.2.1 ≤ im'.1)
      (impMatchesIn sc) := by
  have hP := tokOffsetsAux_pairwise importanceLabel sc 0
  have hP2 : List.Pairwise (fun p p' => p + importanceLabel.length +
      firstBoundary (List.drop (p + importanceLabel.length) sc) ≤ p')
      (tokOffsetsAux importanceLabel 0 sc) := by
    refine hP.imp_of_mem ?_
    intro p p' hp hp' hgap
    have hocc' := tokOffsetsAux_mem importanceLabel sc 0 p' hp'
    have hbnd : isBoundary
        (List.drop (p' - (p + importanceLabel.length))
          (List.drop (p + importanceLabel.length) sc)) = true := by
      rw [List.drop_drop, show p + importanceLabel.length +
        (p' - (p + importanceLabel.length)) = p' by omega]
      exact isBoundary_of_label hocc'
    by_contra hcon
    rw [firstBoundary_min _ _ (by omega)] at hbnd
    exact absurd hbnd (by simp)
  unfold impMatchesIn
  exact List.pairwise_map.mpr hP2

theorem take_one_append (a b : List Char) (ha : a ≠ []) :
    List.take 1 (a ++ b) = List.take 1 a := by
  cases a with
  | nil => exact absurd rfl ha
  | cons x xs => rfl

theorem no_occ_of_bounded (tok X : List Char) (htok : tok ≠ [])
    (hdec : ∀ i, i < X.length → ¬ tok <+: List.drop i X) :
    ∀ i, ¬ tok <+: List.drop i X := by
  intro i h
  rcases Nat.lt_or_ge i X.length with hi | hi
  · exact hdec i hi h
  · rw [List.drop_of_length_le hi, List.prefix_nil] at h
    exact htok h

theorem occ_append_elim (tok A B : List Char) (ch : Char)
    (htok : ∀ d, d < tok.length → 0 < d →
      List.take 1 (List.drop d tok) ≠ [ch])
    (hB : B = [] ∨ List.take 1 B = [ch])
    (i : Nat) (hocc : tok <+: List.drop i (A ++ B)) :
    tok <+: List.drop i A ∨
      (A.length ≤ i ∧ tok <+: List.drop (i - A.length) B) := by
  rcases Nat.lt_or_ge i A.length with hiA | hiA
  · rcases le_or_lt (i + tok.length) A.length with hfit | hcross
    · left
      rw [List.drop_append_of_le_length (by omega)] at hocc
      rw [prefix_append_iff_of_le _ (by rw [List.length_drop]; omega)] at hocc
      exact hocc
    · exact absurd hocc
        (fun h => no_cross_occurrence tok A B ch htok hB i hiA (by omega) h)
  · right
    exact ⟨hiA, by rwa [List.drop_append_eq_append_drop,
      List.drop_of_length_le hiA, List.nil_append] at hocc⟩

theorem occ_append_elim2 (tok A B : List Char)
    (hcond : ∀ d, d < A.length → A.length < d + tok.length →
      ¬ List.drop d A <+: tok)
    (i : Nat) (hocc : tok <+: List.drop i (A ++ B)) :
    tok <+: List.drop i A ∨
      (A.length ≤ i ∧ tok <+: List.drop (i - A.length) B) := by
  rcases Nat.lt_or_ge i A.length with hiA | hiA
  · rcases le_or_lt (i + tok.length) A.length with hfit | hcross
    · left
      rw [List.drop_append_of_le_length (by omega)] at hocc
      rw [prefix_append_iff_of_le _ (by rw [List.length_drop]; omega)] at hocc
      exact hocc
    · exfalso
      rw [List.drop_append_of_le_length (by omega)] at hocc
      have hflip := append_prefix_flip B hocc (by rw [List.length_drop]; omega)
      refine hcond i hiA (by omega) ?_
      rw [hflip]
      exact List.take_prefix _ _
  · right
    exact ⟨hiA, by rwa [List.drop_append_eq_append_drop,
      List.drop_of_length_le hiA, List.nil_append] at hocc⟩

theorem boundaryFree_elim {g : List Char} (hg : boundaryFree g) (i : Nat) :
    ¬ textbfBrace <+: List.drop i g ∧ ¬ beginBrace <+: List.drop i g ∧
      ¬ endBrace <+: List.drop i g := by
  have h := hg i
  unfold isBoundary at h
  rw [Bool.or_eq_false_iff, Bool.or_eq_false_iff] at h
  obtain ⟨⟨h1, h2⟩, h3⟩ := h
  refine ⟨?_, ?_, ?_⟩
  · intro hc
    rw [List.isPrefixOf_iff_prefix.mpr hc] at h1
    exact absurd h1 (by simp)
  · intro hc
    rw [List.isPrefixOf_iff_prefix.mpr hc] at h2
    exact absurd h2 (by simp)
  · intro hc
    rw [List.isPrefixOf_iff_prefix.mpr hc] at h3
    exact absurd h3 (by simp)

theorem wrapBlock_eq (g : List Char) : wrapBlock g =
    importanceOpen ++ (nlChar ++ (importanceLabel ++ (g ++ (nlChar ++
      importanceClose)))) := by
  unfold wrapBlock
  simp only [List.append_assoc]

theorem wrapBlock_head (g : List Char) :
    List.take 1 (wrapBlock g) = [backslashChar] := by
  rw [wrapBlock_eq, take_one_append _ _ (by decide)]
  decide

theorem wrapBlock_length (g : List Char) :
    (wrapBlock g).length = g.length + 56 := by
  unfold wrapBlock
  simp only [List.length_append]
  rw [show importanceOpen.length = 18 from by decide,
    show nlChar.length = 1 from by decide,
    show importanceLabel.length = 20 from by decide,
    show importanceClose.length = 16 from by decide]
  omega

theorem wrapBlock_no_beginTok {g : List Char} (hg : boundaryFree g) :
    ∀ i, ¬ beginTok <+: List.drop i (wrapBlock g) := by
  intro i h
  rw [wrapBlock_eq] at h
  rcases occ_append_elim2 beginTok importanceOpen _
      (by decide) i h with h1 | ⟨hge1, h2⟩
  · exact no_occ_of_bounded beginTok importanceOpen (by decide)
      (by decide) i h1
  · rcases occ_append_elim2 beginTok nlChar _ (by decide) _ h2 with
      h3 | ⟨hge2, h4⟩
    · exact no_occ_of_bounded beginTok nlChar (by decide) (by decide) _ h3
    · rcases occ_append_elim2 beginTok importanceLabel _ (by decide) _ h4 with
        h5 | ⟨hge3, h6⟩
      · exact no_occ_of_bounded beginTok importanceLabel (by decide)
          (by decide) _ h5
      · rcases occ_append_elim beginTok g (nlChar ++ importanceClose)
          (Char.ofNat 10) (by decide)
          (Or.inr (by rw [take_one_append _ _ (by decide)]; decide)) _ h6 with
          h7 | ⟨hge4, h8⟩
        · exact (boundaryFree_elim hg _).2.1
            ((show beginBrace <+: beginTok by decide).trans h7)
        · rcases occ_append_elim2 beginTok nlChar _ (by decide) _ h8 with
            h9 | ⟨hge5, h10⟩
          · exact no_occ_of_bounded beginTok nlChar (by decide) (by decide)
              _ h9
          · exact no_occ_of_bounded beginTok importanceClose (by decide)
              (by decide) _ h10

theorem dropWhile_eq_drop (l : List Char) :
    ∃ k, k ≤ l.length ∧ List.dropWhile pySpace l = List.drop k l := by
  induction l with
  | nil => exact ⟨0, by omega, rfl⟩
  | cons c rest ih =>
    by_cases hc : pySpace c = true
    · obtain ⟨k, hk, hd⟩ := ih
      refine ⟨k + 1, by simp; omega, ?_⟩
      rw [List.dropWhile_cons_of_pos hc, List.drop_succ_cons]
      exact hd
    · refine ⟨0, by omega, ?_⟩
      rw [List.dropWhile_cons_of_neg (by simpa using hc), List.drop_zero]

theorem rstripChars_prefix (s : List Char) : rstripChars s <+: s := by
  unfold rstripChars
  obtain ⟨k, hk, hd⟩ := dropWhile_eq_drop s.reverse
  rw [hd]
  refine ⟨(List.take k s.reverse).reverse, ?_⟩
  rw [← List.reverse_append, List.take_append_drop, List.reverse_reverse]

theorem stripChars_eq_take_drop (s : List Char) :
    ∃ k j, stripChars s = List.take j (List.drop k s) := by
  unfold stripChars
  obtain ⟨k, hk, hd⟩ := dropWhile_eq_drop s
  rw [hd]
  have hpre := rstripChars_prefix (List.drop k s)
  refine ⟨k, (rstripChars (List.drop k s)).length, ?_⟩
  exact List.prefix_iff_eq_take.mp hpre

theorem boundaryFree_drop {g : List Char} (h : boundaryFree g) (k : Nat) :
    boundaryFree (List.drop k g) := by
  intro i
  rw [List.drop_drop]
  exact h (k + i)

theorem boundaryFree_take {g : List Char} (h : boundaryFree g) (k : Nat) :
    boundaryFree (List.take k g) := by
  intro i
  cases hB : isBoundary (List.drop i (List.take k g)) with
  | false => rfl
  | true =>
    exfalso
    rw [List.drop_take] at hB
    have h2 := isBoundary_take hB
    rw [h i] at h2
    exact absurd h2 (by simp)

theorem boundaryFree_stripChars {g : List Char} (h : boundaryFree g) :
    boundaryFree (stripChars g) := by
  obtain ⟨k, j, hkj⟩ := stripChars_eq_take_drop g
  rw [hkj]
  exact boundaryFree_take (boundaryFree_drop h k) j

theorem firstBoundary_boundaryFree {g : List Char} (h : boundaryFree g) :
    firstBoundary g = g.length := by
  rcases firstBoundary_at g with h1 | h2
  · exact h1
  · rw [h (firstBoundary g)] at h2
    exact absurd h2 (by simp)

theorem isPrefixOf_congr {pat x y : List Char}
    (heq : List.take pat.length x = List.take pat.length y) :
    pat.isPrefixOf x = pat.isPrefixOf y := by
  cases hp : pat.isPrefixOf x with
  | true =>
    have h1 := List.isPrefixOf_iff_prefix.mp hp
    have h2 : pat <+: List.take pat.length x :=
      List.prefix_take_iff.mpr ⟨h1, le_refl _⟩
    rw [heq] at h2
    exact (List.isPrefixOf_iff_prefix.mpr
      (h2.trans (List.take_prefix _ _))).symm
  | false =>
    cases hq : pat.isPrefixOf y with
    | false => rfl
    | true =>
      exfalso
      have h1 := List.isPrefixOf_iff_prefix.mp hq
      have h2 : pat <+: List.take pat.length y :=
        List.prefix_take_iff.mpr ⟨h1, le_refl _⟩
      rw [← heq] at h2
      have h3 := List.isPrefixOf_iff_prefix.mpr
        (h2.trans (List.take_prefix _ _))
      rw [hp] at h3
      exact absurd h3 (by simp)

theorem isBoundary_congr {x y : List Char}
    (heq : List.take 8 x = List.take 8 y) : isBoundary x = isBoundary y := by
  unfold isBoundary
  have h8 : textbfBrace.length = 8 := by decide
  have h7 : beginBrace.length = 7 := by decide
  have h5 : endBrace.length = 5 := by decide
  have e1 : textbfBrace.isPrefixOf x = textbfBrace.isPrefixOf y :=
    isPrefixOf_congr (by rw [h8]; exact heq)
  have e2 : beginBrace.isPrefixOf x = beginBrace.isPrefixOf y := by
    refine isPrefixOf_congr ?_
    rw [h7, show (7 : Nat) = min 7 8 by omega, ← List.take_take, heq,
      List.take_take]
  have e3 : endBrace.isPrefixOf x = endBrace.isPrefixOf y := by
    refine isPrefixOf_congr ?_
    rw [h5, show (5 : Nat) = min 5 8 by omega, ← List.take_take, heq,
      List.take_take]
  rw [e1, e2, e3]

theorem firstBoundary_congr {x y : List Char} {n : Nat}
    (heq : List.take (n + 8) x = List.take (n + 8) y)
    (hx : firstBoundary x = n) : firstBoundary y = n := by
  have hlen : n ≤ x.length := hx ▸ firstBoundary_le x
  have htk : ∀ i, i ≤ n → List.take 8 (List.drop i x) =
      List.take 8 (List.drop i y) := by
    intro i hi
    have h1 := congrArg (fun l => List.take 8 (List.drop i l)) heq
    simp only [List.drop_take, List.take_take] at h1
    rwa [Nat.min_eq_left (by omega)] at h1
  refine firstBoundary_eq_of y n ?_ ?_
  · intro i hi
    rw [← isBoundary_congr (htk i (by omega))]
    exact firstBoundary_min x i (by omega)
  · rcases firstBoundary_at x with h1 | h2
    · left
      have hxy : x = y := by
        have hlx : List.take (n + 8) x = x :=
          List.take_of_length_le (by omega)
        have hly : y.length ≤ n + 8 := by
          by_contra hcon
          have := congrArg List.length heq
          rw [List.length_take, List.length_take] at this
          omega
        rw [hlx, List.take_of_length_le hly] at heq
        exact heq
      rw [← hxy, ← hx, h1]
    · right
      rw [hx] at h2
      rw [← isBoundary_congr (htk n (le_refl n))]
      exact h2

theorem impMatchesIn_bounds {sc : List Char} {im : Nat × Nat × List Char}
    (h : im ∈ impMatchesIn sc) :
    im.1 + importanceLabel.length ≤ im.2.1 ∧ im.2.1 ≤ sc.length := by
  obtain ⟨hocc, hi, -⟩ := impMatchesIn_mem h
  have hb := prefix_drop_bound (show importanceLabel ≠ [] by decide) hocc
  have hfb := firstBoundary_le (List.drop (im.1 + importanceLabel.length) sc)
  rw [List.length_drop] at hfb
  exact ⟨by omega, by omega⟩

theorem take_drop_merge (s : List Char) (c c' d : Nat) (h1 : c ≤ c')
    (h2 : c' ≤ d) :
    List.take (c' - c) (List.drop c s) ++ List.take (d - c') (List.drop c' s) =
      List.take (d - c) (List.drop c s) := by
  rw [show List.drop c' s = List.drop (c' - c) (List.drop c s) by
      rw [List.drop_drop]; congr 1; omega,
    ← List.take_add]
  congr 1
  omega

theorem impRewrite_slide (sc : List Char) :
    ∀ (M : List (Nat × Nat × List Char)) (c c' : Nat), c ≤ c' →
      (∀ im ∈ M, c' ≤ im.1) →
      List.take (c' - c) (List.drop c sc) ++ impRewrite sc c' M =
        impRewrite sc c M := by
  intro M
  induction M with
  | nil =>
    intro c c' h1 _
    show List.take (c' - c) (List.drop c sc) ++ List.drop c' sc =
      List.drop c sc
    rw [show List.drop c' sc = List.drop (c' - c) (List.drop c sc) by
      rw [List.drop_drop]; congr 1; omega]
    exact List.take_append_drop _ _
  | cons im rest ih =>
    intro c c' h1 hM
    by_cases hsk : impSkip sc im = true
    · show List.take (c' - c) (List.drop c sc) ++
        (if impSkip sc im then impRewrite sc c' rest else _) =
        (if impSkip sc im then impRewrite sc c rest else _)
      rw [if_pos hsk, if_pos hsk]
      exact ih c c' h1 (fun im' h' => hM im' (List.mem_cons_of_mem _ h'))
    · have him := hM im (List.mem_cons_self im rest)
      show List.take (c' - c) (List.drop c sc) ++
        (if impSkip sc im then _ else List.take (im.1 - c') (List.drop c' sc) ++
          wrapBlock (stripChars im.2.2) ++ impRewrite sc im.2.1 rest) =
        (if impSkip sc im then _ else List.take (im.1 - c) (List.drop c sc) ++
          wrapBlock (stripChars im.2.2) ++ impRewrite sc im.2.1 rest)
      rw [if_neg hsk, if_neg hsk, ← take_drop_merge sc c c' im.1 h1 him]
      simp only [List.append_assoc]

theorem impRewrite_head (sc : List Char) :
    ∀ (M : List (Nat × Nat × List Char)) (c : Nat),
      impRewrite sc c M = [] ∨
      List.take 1 (impRewrite sc c M) = List.take 1 (List.drop c sc) ∨
      List.take 1 (impRewrite sc c M) = [backslashChar] := by
  intro M
  induction M with
  | nil => intro c; right; left; rfl
  | cons im rest ih =>
    intro c
    by_cases hsk : impSkip sc im = true
    · have h1 : impRewrite sc c (im :: rest) = impRewrite sc c rest := by
        show (if impSkip sc im then impRewrite sc c rest else _) = _
        rw [if_pos hsk]
      rw [h1]
      exact ih c
    · have h1 : impRewrite sc c (im :: rest) =
          List.take (im.1 - c) (List.drop c sc) ++
            (wrapBlock (stripChars im.2.2) ++ impRewrite sc im.2.1 rest) := by
        show (if impSkip sc im then _ else
          List.take (im.1 - c) (List.drop c sc) ++
            wrapBlock (stripChars im.2.2) ++ impRewrite sc im.2.1 rest) = _
        rw [if_neg hsk, List.append_assoc]
      rw [h1]
      cases htk : List.take (im.1 - c) (List.drop c sc) with
      | nil =>
        right; right
        rw [List.nil_append,
          take_one_append _ _ (by
            intro hw
            have := congrArg List.length hw
            rw [wrapBlock_length] at this
            simp at this)]
        exact wrapBlock_head _
      | cons x xs =>
        right; left
        rw [take_one_append _ _ (by simp)]
        have hpos : 0 < im.1 - c := by
          by_contra hcon
          rw [show im.1 - c = 0 by omega] at htk
          simp at htk
        have h2 : List.take 1 (List.take (im.1 - c) (List.drop c sc)) =
            List.take 1 (List.drop c sc) := by
          rw [List.take_take, Nat.min_eq_left (by omega)]
        rw [htk] at h2
        exact h2

theorem take_self_len (k : Nat) (X : List Char) :
    List.take (List.take k X).length X = List.take k X := by
  rw [List.length_take]
  rcases le_or_lt k X.length with h | h
  · rw [Nat.min_eq_left h]
  · rw [Nat.min_eq_right (by omega), List.take_of_length_le (le_refl _),
      List.take_of_length_le (by omega)]

theorem window_take_drop (Y : List Char) (n : Nat) :
    List.take n Y ++ List.drop (List.take n Y).length Y = Y := by
  rw [List.length_take]
  have h1 : List.take n Y = List.take (min n Y.length) Y := by
    rcases le_or_lt n Y.length with h | h
    · rw [Nat.min_eq_left h]
    · rw [Nat.min_eq_right (by omega), List.take_of_length_le (le_refl _),
        List.take_of_length_le (by omega)]
  rw [h1]
  exact List.take_append_drop _ _

theorem windowOf_decomp (cur : List Char) (e : Nat) :
    windowOf cur e ++
      List.drop (e + (windowOf cur e).length) cur = List.drop e cur := by
  have hdd : List.drop (e + (windowOf cur e).length) cur =
      List.drop (windowOf cur e).length (List.drop e cur) := by
    rw [List.drop_drop]
    try rw [Nat.add_comm e (windowOf cur e).length]
  rw [hdd]
  unfold windowOf
  cases hf : findSub beginTok (List.drop e cur) with
  | some n =>
    show List.take n (List.drop e cur) ++
      List.drop (List.take n (List.drop e cur)).length (List.drop e cur) =
      List.drop e cur
    exact window_take_drop _ n
  | none =>
    show List.drop e cur ++
      List.drop (List.drop e cur).length (List.drop e cur) = List.drop e cur
    rw [List.drop_of_length_le (le_refl _), List.append_nil]

theorem impFired_cons_skip {sc : List Char} {im : Nat × Nat × List Char}
    (h : impSkip sc im = true) (rest : List (Nat × Nat × List Char)) :
    impFired sc (im :: rest) = impFired sc rest := by
  unfold impFired
  rw [List.filter_cons, if_neg (by rw [h]; simp)]

theorem impFired_cons_fire {sc : List Char} {im : Nat × Nat × List Char}
    (h : ¬ impSkip sc im = true) (rest : List (Nat × Nat × List Char)) :
    impFired sc (im :: rest) = impFired sc rest + 1 := by
  unfold impFired
  rw [List.filter_cons, if_pos (by rw [Bool.eq_false_iff.mpr h]; simp)]
  rw [List.length_cons]

theorem impInnerStep_fire (sc : List Char) (pbEnd : Nat)
    (acc : List Char × Nat) (im : Nat × Nat × List Char)
    (h : ¬ impSkip sc im = true) :
    impInnerStep sc pbEnd acc im =
      (List.take (pbEnd + im.1) acc.1 ++ wrapBlock (stripChars im.2.2) ++
        List.drop (pbEnd + im.2.1) acc.1, acc.2 + 1) := by
  unfold impInnerStep
  unfold impSkip at h
  rw [Bool.or_eq_true] at h
  push_neg at h
  obtain ⟨h1, h2⟩ := h
  rw [if_neg h1, if_neg h2]

theorem impFold_char (sc X T : List Char) (pbEnd : Nat)
    (hX : X.length = pbEnd) :
    ∀ (M : List (Nat × Nat × List Char)) (c k0 : Nat),
      c ≤ sc.length →
      (∀ im ∈ M, c ≤ im.1 ∧ im.1 + importanceLabel.length ≤ im.2.1 ∧
        im.2.1 ≤ sc.length) →
      List.Pairwise (fun a b => a.2.1 ≤ b.1) M →
      List.foldr (fun im acc => impInnerStep sc pbEnd acc im)
        (X ++ (sc ++ T), k0) M =
      (X ++ (List.take c sc ++ (impRewrite sc c M ++ T)),
        k0 + impFired sc M) := by
  intro M
  induction M with
  | nil =>
    intro c k0 hc hM hp
    show (X ++ (sc ++ T), k0) = _
    rw [show impFired sc [] = 0 from rfl, Nat.add_zero]
    show (X ++ (sc ++ T), k0) =
      (X ++ (List.take c sc ++ (List.drop c sc ++ T)), k0)
    rw [← List.append_assoc (List.take c sc) (List.drop c sc) T,
      List.take_append_drop]
  | cons im rest ih =>
    intro c k0 hc hM hp
    rw [List.foldr_cons]
    obtain ⟨hc_im, hlab_im, hiend_im⟩ := hM im (List.mem_cons_self im rest)
    rw [List.pairwise_cons] at hp
    obtain ⟨hrel, hp'⟩ := hp
    have ihr := ih im.2.1 k0 hiend_im
      (fun im' h' => ⟨hrel im' h', (hM im' (List.mem_cons_of_mem _ h')).2.1,
        (hM im' (List.mem_cons_of_mem _ h')).2.2⟩) hp'
    rw [ihr]
    have hlen_take : (List.take im.2.1 sc).length = im.2.1 := by
      rw [List.length_take]
      omega
    by_cases hsk : impSkip sc im = true
    · rw [impInnerStep_skip sc pbEnd _ im hsk, impFired_cons_skip hsk]
      have he : impRewrite sc c (im :: rest) = impRewrite sc c rest := by
        show (if impSkip sc im then impRewrite sc c rest else _) = _
        rw [if_pos hsk]
      rw [he, ← impRewrite_slide sc rest c im.2.1 (by omega)
        (fun im' h' => hrel im' h')]
      have hm : List.take c sc ++ List.take (im.2.1 - c) (List.drop c sc) =
          List.take im.2.1 sc := by
        have h0 := take_drop_merge sc 0 c im.2.1 (by omega) (by omega)
        simpa using h0
      rw [← hm]
      simp only [List.append_assoc]
    · rw [impInnerStep_fire sc pbEnd _ im hsk, impFired_cons_fire hsk]
      have hfr : impRewrite sc c (im :: rest) =
          List.take (im.1 - c) (List.drop c sc) ++
            wrapBlock (stripChars im.2.2) ++ impRewrite sc im.2.1 rest := by
        show (if impSkip sc im then _ else _) = _
        rw [if_neg hsk]
      rw [hfr]
      have htake : List.take (pbEnd + im.1)
          (X ++ (List.take im.2.1 sc ++ (impRewrite sc im.2.1 rest ++ T))) =
          X ++ List.take im.1 sc := by
        rw [List.take_append_eq_append_take,
          List.take_of_length_le (by omega),
          show pbEnd + im.1 - X.length = im.1 by omega,
          List.take_append_of_le_length (by rw [hlen_take]; omega),
          List.take_take, Nat.min_eq_left (by omega)]
      have hdrop : List.drop (pbEnd + im.2.1)
          (X ++ (List.take im.2.1 sc ++ (impRewrite sc im.2.1 rest ++ T))) =
          impRewrite sc im.2.1 rest ++ T := by
        rw [List.drop_append_eq_append_drop,
          List.drop_of_length_le (by omega),
          show pbEnd + im.2.1 - X.length = im.2.1 by omega,
          List.nil_append, List.drop_append_eq_append_drop,
          List.drop_of_length_le (by rw [hlen_take]),
          show im.2.1 - (List.take im.2.1 sc).length = 0 by
            rw [hlen_take]; omega,
          List.nil_append, List.drop_zero]
      rw [htake, hdrop]
      have hm : List.take c sc ++ List.take (im.1 - c) (List.drop c sc) =
          List.take im.1 sc := by
        have h0 := take_drop_merge sc 0 c im.1 (by omega) (by omega)
        simpa using h0
      rw [← hm]
      simp only [List.append_assoc, Prod.mk.injEq]
      exact ⟨trivial, by omega⟩

theorem fixImportanceStep_char (cur : List Char) (m : PBMatch)
    (he : m.mend ≤ cur.length) :
    fixImportanceStep cur m =
      (List.take m.mend cur ++
        (impRewrite (windowOf cur m.mend) 0
           (impMatchesIn (windowOf cur m.mend)) ++
         List.drop (m.mend + (windowOf cur m.mend).length) cur),
       impFired (windowOf cur m.mend) (impMatchesIn (windowOf cur m.mend))) := by
  have hcur : cur = List.take m.mend cur ++ (windowOf cur m.mend ++
      List.drop (m.mend + (windowOf cur m.mend).length) cur) := by
    rw [windowOf_decomp, List.take_append_drop]
  rw [fixImportanceStep_eq, List.foldl_reverse]
  have hbase : ((cur, 0) : List Char × Nat) =
      (List.take m.mend cur ++ (windowOf cur m.mend ++
        List.drop (m.mend + (windowOf cur m.mend).length) cur), 0) := by
    rw [← hcur]
  rw [hbase]
  have hres := impFold_char (windowOf cur m.mend) (List.take m.mend cur)
    (List.drop (m.mend + (windowOf cur m.mend).length) cur) m.mend
    (by rw [List.length_take]; omega)
    (impMatchesIn (windowOf cur m.mend)) 0 0 (by omega)
    (fun im h => ⟨by omega, (impMatchesIn_bounds h).1,
      (impMatchesIn_bounds h).2⟩)
    (impMatchesIn_pairwise _)
  rw [hres, List.take_zero, List.nil_append, Nat.zero_add]

theorem prefix_drop_mono {x y : List Char} (h : x <+: y) (k : Nat) :
    List.drop k x <+: List.drop k y := by
  obtain ⟨w, rfl⟩ := h
  rcases le_or_lt k x.length with hk | hk
  · rw [List.drop_append_of_le_length hk]
    exact List.prefix_append _ _
  · rw [List.drop_of_length_le (by omega)]
    exact List.nil_prefix

theorem take_one_of_prefix {x y : List Char} (h : x <+: y) (hx : x ≠ []) :
    List.take 1 y = List.take 1 x := by
  obtain ⟨w, rfl⟩ := h
  exact take_one_append x w hx

theorem wrapBlock_front_length (g : List Char) :
    (importanceOpen ++ nlChar ++ importanceLabel ++ g).length =
      g.length + 39 := by
  simp only [List.length_append]
  rw [show importanceOpen.length = 18 from by decide,
    show nlChar.length = 1 from by decide,
    show importanceLabel.length = 20 from by decide]
  omega

theorem wrapBlock_split (g : List Char) :
    wrapBlock g = (importanceOpen ++ nlChar ++ importanceLabel ++ g) ++
      (nlChar ++ importanceClose) := by
  unfold wrapBlock
  simp only [List.append_assoc]

theorem wrapBlock_suffix (g : List Char) (d : Nat)
    (hd : g.length + 39 ≤ d) :
    List.drop d (wrapBlock g) =
      List.drop (d - (g.length + 39)) (nlChar ++ importanceClose) := by
  rw [wrapBlock_split, List.drop_append_eq_append_drop,
    List.drop_of_length_le (by rw [wrapBlock_front_length]; omega),
    List.nil_append, wrapBlock_front_length]

theorem wrapBlock_no_cross_tok (g : List Char) (tok : List Char)
    (hlen : tok.length ≤ 18)
    (hu : ∀ u, u ≤ 16 → ¬ List.drop u (nlChar ++ importanceClose) <+: tok)
    (d : Nat) (hd : d < (wrapBlock g).length)
    (hcross : (wrapBlock g).length < d + tok.length) :
    ¬ List.drop d (wrapBlock g) <+: tok := by
  intro hpre
  have hwl := wrapBlock_length g
  have hd39 : g.length + 39 ≤ d := by omega
  rw [wrapBlock_suffix g d hd39] at hpre
  exact hu (d - (g.length + 39)) (by omega) hpre

theorem wrapBlock_no_cross_label (g : List Char) (d : Nat)
    (hd : d < (wrapBlock g).length)
    (hcross : (wrapBlock g).length < d + importanceLabel.length) :
    ¬ List.drop d (wrapBlock g) <+: importanceLabel := by
  intro hpre
  have hwl := wrapBlock_length g
  have h20 : importanceLabel.length = 20 := by decide
  rcases le_or_lt (g.length + 39) d with hd39 | hd39
  · rw [wrapBlock_suffix g d hd39] at hpre
    exact (show ∀ u, u ≤ 16 →
        ¬ List.drop u (nlChar ++ importanceClose) <+: importanceLabel
      by decide) (d - (g.length + 39)) (by omega) hpre
  · have hk : g.length + 39 - d ≤ 2 := by omega
    have hk1 : 1 ≤ g.length + 39 - d := by omega
    have h2 := prefix_drop_mono hpre (g.length + 39 - d)
    rw [List.drop_drop, show d + (g.length + 39 - d) = g.length + 39 by omega,
      wrapBlock_suffix g (g.length + 39) (le_refl _), Nat.sub_self,
      List.drop_zero] at h2
    have h3 := take_one_of_prefix h2 (by decide)
    rcases (show g.length + 39 - d = 1 ∨ g.length + 39 - d = 2 by omega) with
      hk2 | hk2
    · rw [hk2] at h3
      exact absurd h3 (by decide)
    · rw [hk2] at h3
      exact absurd h3 (by decide)

theorem wrapBlock_label_occ {g : List Char} (hg : boundaryFree g) {i : Nat}
    (h : importanceLabel <+: List.drop i (wrapBlock g)) :
    i = importanceOpen.length + nlChar.length := by
  have ho : importanceOpen.length = 18 := by decide
  have hn : nlChar.length = 1 := by decide
  have hl : importanceLabel.length = 20 := by decide
  have hnc : (nlChar ++ importanceClose).length = 17 := by decide
  rw [wrapBlock_eq] at h
  rcases occ_append_elim2 importanceLabel importanceOpen _ (by decide)
      i h with h1 | ⟨hge1, h2⟩
  · exfalso
    have hb := prefix_drop_bound (show importanceLabel ≠ [] by decide) h1
    omega
  · rcases occ_append_elim2 importanceLabel nlChar _ (by decide) _ h2 with
      h3 | ⟨hge2, h4⟩
    · exfalso
      have hb := prefix_drop_bound (show importanceLabel ≠ [] by decide) h3
      omega
    · rcases occ_append_elim2 importanceLabel importanceLabel _ (by decide)
        _ h4 with h5 | ⟨hge3, h6⟩
      · have hb := prefix_drop_bound (show importanceLabel ≠ [] by decide) h5
        omega
      · exfalso
        rcases occ_append_elim importanceLabel g (nlChar ++ importanceClose)
            (Char.ofNat 10) (by decide)
            (Or.inr (by rw [take_one_append _ _ (by decide)]; decide))
            _ h6 with h7 | ⟨hge4, h8⟩
        · exact (boundaryFree_elim hg _).1
            ((show textbfBrace <+: importanceLabel by decide).trans h7)
        · have hb := prefix_drop_bound (show importanceLabel ≠ [] by decide) h8
          omega

theorem wrap_context_label_occ {g t : List Char} (hg : boundaryFree g)
    {i : Nat} (hi : i < (wrapBlock g).length)
    (h : importanceLabel <+: List.drop i (wrapBlock g ++ t)) :
    i = importanceOpen.length + nlChar.length := by
  rcases occ_append_elim2 importanceLabel (wrapBlock g) t
      (fun d hd hc => wrapBlock_no_cross_label g d hd hc) i h with
    h1 | ⟨hge, -⟩
  · exact wrapBlock_label_occ hg h1
  · omega

theorem wrapBlock_label_at (g t : List Char) :
    importanceLabel <+:
      List.drop (importanceOpen.length + nlChar.length) (wrapBlock g ++ t) := by
  have h1 : wrapBlock g ++ t = (importanceOpen ++ nlChar) ++
      (importanceLabel ++ (g ++ (nlChar ++ (importanceClose ++ t)))) := by
    unfold wrapBlock
    simp only [List.append_assoc]
  have h2 : importanceOpen.length + nlChar.length =
      (importanceOpen ++ nlChar).length := by
    rw [List.length_append]
  rw [h1, h2, List.drop_left]
  exact List.prefix_append _ _

theorem wrapBlock_isBoundary (g t : List Char) :
    isBoundary (wrapBlock g ++ t) = true := by
  unfold isBoundary
  rw [Bool.or_eq_true, Bool.or_eq_true]
  left; right
  rw [List.isPrefixOf_iff_prefix, wrapBlock_eq, List.append_assoc]
  exact (show beginBrace <+: importanceOpen by decide).trans
    (List.prefix_append _ _)

theorem impRewrite_no_beginTok (sc Tail : List Char)
    (hIn : ∀ i, i < sc.length → ¬ beginTok <+: List.drop i (sc ++ Tail)) :
    ∀ (M : List (Nat × Nat × List Char)) (c : Nat),
      c ≤ sc.length →
      (∀ im ∈ M, c ≤ im.1 ∧ importanceLabel <+: List.drop im.1 sc ∧
        im.2.1 = im.1 + importanceLabel.length + firstBoundary
          (List.drop (im.1 + importanceLabel.length) sc) ∧
        im.2.2 = List.take (firstBoundary
          (List.drop (im.1 + importanceLabel.length) sc))
          (List.drop (im.1 + importanceLabel.length) sc)) →
      List.Pairwise (fun a b => a.2.1 ≤ b.1) M →
      ∀ i, i < (impRewrite sc c M).length →
        ¬ beginTok <+: List.drop i (impRewrite sc c M ++ Tail) := by
  intro M
  induction M with
  | nil =>
    intro c hc hM hp i hi hocc
    have hd : List.drop i (impRewrite sc c [] ++ Tail) =
        List.drop (c + i) (sc ++ Tail) := by
      show List.drop i (List.drop c sc ++ Tail) = _
      rw [← List.drop_append_of_le_length hc, List.drop_drop]
    rw [hd] at hocc
    have hi' : i < sc.length - c := by
      have : (impRewrite sc c []).length = (List.drop c sc).length := rfl
      rw [this, List.length_drop] at hi
      omega
    exact hIn (c + i) (by omega) hocc
  | cons im rest ih =>
    intro c hc hM hp i hi hocc
    obtain ⟨hc_im, hlab_im, hiend_eq, hgrp_im⟩ :=
      hM im (List.mem_cons_self im rest)
    rw [List.pairwise_cons] at hp
    obtain ⟨hrel, hp'⟩ := hp
    have hg : boundaryFree (stripChars im.2.2) := by
      rw [hgrp_im]
      exact boundaryFree_stripChars (group_boundaryFree _)
    by_cases hsk : impSkip sc im = true
    · have he : impRewrite sc c (im :: rest) = impRewrite sc c rest := by
        show (if impSkip sc im then impRewrite sc c rest else _) = _
        rw [if_pos hsk]
      rw [he] at hi hocc
      exact ih c hc (fun im' h' => hM im' (List.mem_cons_of_mem _ h')) hp'
        i hi hocc
    · have hfr : impRewrite sc c (im :: rest) =
          List.take (im.1 - c) (List.drop c sc) ++
            (wrapBlock (stripChars im.2.2) ++ impRewrite sc im.2.1 rest) := by
        show (if impSkip sc im then _ else _) = _
        rw [if_neg hsk, List.append_assoc]
      rw [hfr] at hi hocc
      rw [List.length_append, List.length_append] at hi
      have hb20 := prefix_drop_bound (show importanceLabel ≠ [] by decide)
        hlab_im
      have hfb := firstBoundary_le
        (List.drop (im.1 + importanceLabel.length) sc)
      rw [List.length_drop] at hfb
      have h20 : importanceLabel.length = 20 := by decide
      have hiend : im.2.1 ≤ sc.length := by rw [hiend_eq]; omega
      simp only [List.append_assoc] at hocc
      rcases occ_append_elim beginTok (List.take (im.1 - c) (List.drop c sc))
          (wrapBlock (stripChars im.2.2) ++ (impRewrite sc im.2.1 rest ++ Tail))
          backslashChar (by decide)
          (Or.inr (by
            rw [take_one_append _ _ (by
              intro hw
              have hlw := congrArg List.length hw
              rw [wrapBlock_length] at hlw
              simp at hlw)]
            exact wrapBlock_head _)) i hocc with h1 | ⟨hge1, h2⟩
      · have hbnd := prefix_drop_bound (show beginTok ≠ [] by decide) h1
        rw [List.length_take, List.length_drop] at hbnd
        have h18 : beginTok.length = 18 := by decide
        refine hIn (c + i) (by omega) ?_
        rw [List.drop_take, List.drop_drop] at h1
        rw [List.drop_append_of_le_length (show c + i ≤ sc.length by omega)]
        exact (h1.trans (List.take_prefix _ _)).trans (List.prefix_append _ _)
      · rcases occ_append_elim2 beginTok (wrapBlock (stripChars im.2.2))
            (impRewrite sc im.2.1 rest ++ Tail)
            (fun d hd hcr => wrapBlock_no_cross_tok (stripChars im.2.2)
              beginTok (by decide) (by decide) d hd hcr) _ h2 with
          h3 | ⟨hge2, h4⟩
        · exact wrapBlock_no_beginTok hg _ h3
        · refine ih im.2.1 hiend
            (fun im' h' => ⟨hrel im' h',
              (hM im' (List.mem_cons_of_mem _ h')).2.1,
              (hM im' (List.mem_cons_of_mem _ h')).2.2.1,
              (hM im' (List.mem_cons_of_mem _ h')).2.2.2⟩) hp'
            (i - (List.take (im.1 - c) (List.drop c sc)).length -
              (wrapBlock (stripChars im.2.2)).length) (by omega) h4

theorem prefix_of_prefix_len {t1 t2 z : List Char} (h1 : t1 <+: z)
    (h2 : t2 <+: z) (hle : t1.length ≤ t2.length) : t1 <+: t2 := by
  have e1 := List.prefix_iff_eq_take.mp h1
  have ht : t1 = List.take t1.length t2 := by
    rw [List.prefix_iff_eq_take.mp h2, List.take_take,
      Nat.min_eq_left hle, ← e1]
  refine ⟨List.drop t1.length t2, ?_⟩
  have hfin := congrArg (fun l => l ++ List.drop t1.length t2) ht
  simp only at hfin
  rw [List.take_append_drop] at hfin
  exact hfin

theorem occ_overlap_head (t1 t2 s : List Char) (o q : Nat)
    (h1 : t1 <+: List.drop o s) (h2 : t2 <+: List.drop q s)
    (hoq : o ≤ q) (hlt : q < o + t1.length) (ht2 : t2 ≠ []) :
    List.take 1 (List.drop (q - o) t1) = List.take 1 t2 := by
  obtain ⟨w, hw⟩ := h1
  have hq : List.drop q s = List.drop (q - o) t1 ++ w := by
    have hd : List.drop q s = List.drop (q - o) (List.drop o s) := by
      rw [List.drop_drop]
      congr 1
      omega
    rw [hd, ← hw, List.drop_append_of_le_length (by omega)]
  rw [hq] at h2
  have h3 := take_one_of_prefix h2 ht2
  rw [take_one_append _ _ (by
    intro hnil
    have hln := congrArg List.length hnil
    rw [List.length_drop, List.length_nil] at hln
    omega)] at h3
  exact h3

theorem isBoundary_of_open {s : List Char} (h : importanceOpen <+: s) :
    isBoundary s = true := by
  unfold isBoundary
  rw [Bool.or_eq_true, Bool.or_eq_true]
  left; right
  exact List.isPrefixOf_iff_prefix.mpr
    ((show beginBrace <+: importanceOpen by decide).trans h)

theorem isBoundary_of_close {s : List Char} (h : importanceClose <+: s) :
    isBoundary s = true := by
  unfold isBoundary
  rw [Bool.or_eq_true, Bool.or_eq_true]
  right
  exact List.isPrefixOf_iff_prefix.mpr
    ((show endBrace <+: importanceClose by decide).trans h)

theorem label_region_block (sc : List Char) (a q : Nat) (tk : List Char)
    (hlab : importanceLabel <+: List.drop a sc)
    (htk : tk <+: List.drop q sc)
    (hhead : List.take 1 tk = [backslashChar])
    (hbd : ∀ s' : List Char, tk <+: s' → isBoundary s' = true)
    (ha : a < q) (hq : q < impExtent sc a) : False := by
  have h20 : importanceLabel.length = 20 := by decide
  unfold impExtent at hq
  rcases lt_or_ge q (a + importanceLabel.length) with hA | hA
  · have hoh := occ_overlap_head importanceLabel tk sc a q hlab htk
      (by omega) (by omega) (by
        intro hnil
        rw [hnil] at hhead
        exact absurd hhead (by decide))
    rw [hhead] at hoh
    exact (show ∀ d, d < 20 → 0 < d →
        List.take 1 (List.drop d importanceLabel) ≠ [backslashChar]
      by decide) (q - a) (by omega) (by omega) hoh
  · have hbq : isBoundary (List.drop q sc) = true := hbd _ htk
    have hmin := firstBoundary_min
      (List.drop (a + importanceLabel.length) sc)
      (q - (a + importanceLabel.length)) (by omega)
    rw [List.drop_drop,
      show a + importanceLabel.length + (q - (a + importanceLabel.length)) =
        q by omega] at hmin
    rw [hmin] at hbq
    exact absurd hbq (by simp)

theorem impSkip_def (sc : List Char) (a b : Nat) (g : List Char) :
    impSkip sc (a, b, g) =
      (containsSub importanceOpen (lastN 50 (List.take a sc)) ||
       containsSub importanceClose (List.take 50 (List.drop b sc))) := rfl

theorem lastN50_witness {pat sc : List Char} {π : Nat}
    (hpat : pat ≠ [])
    (h : containsSub pat (lastN 50 (List.take π sc)) = true)
    (hπ : π ≤ sc.length) :
    ∃ o, pat <+: List.drop o sc ∧ o + pat.length ≤ π ∧ π ≤ o + 50 := by
  obtain ⟨ρ, hρ⟩ := containsSub_elim h
  have hlen : (List.take π sc).length = π := by
    rw [List.length_take]
    omega
  unfold lastN at hρ
  rw [hlen, List.drop_drop] at hρ
  have hb := prefix_drop_bound hpat hρ
  rw [List.length_take] at hb
  have hmin : min π sc.length = π := Nat.min_eq_left hπ
  refine ⟨π - 50 + ρ, ?_, by omega, by omega⟩
  rw [List.drop_take] at hρ
  exact hρ.trans (List.take_prefix _ _)

theorem take50_witness {pat sc : List Char} {e : Nat}
    (hpat : pat ≠ [])
    (h : containsSub pat (List.take 50 (List.drop e sc)) = true) :
    ∃ r, pat <+: List.drop (e + r) sc ∧ r + pat.length ≤ 50 := by
  obtain ⟨r, hr⟩ := containsSub_elim h
  have hb := prefix_drop_bound hpat hr
  rw [List.length_take] at hb
  have hm := Nat.min_le_left 50 (List.drop e sc).length
  refine ⟨r, ?_, by omega⟩
  rw [List.drop_take] at hr
  have h2 := hr.trans (List.take_prefix _ _)
  rw [List.drop_drop] at h2
  exact h2

theorem skipped_witness (sc : List Char) (c π : Nat)
    (hocc : importanceLabel <+: List.drop π sc) (hcπ : c ≤ π)
    (hskip : impSkip sc (π, impExtent sc π, ([] : List Char)) = true)
    (hpv : c = 0 ∨ ∃ pv : Nat × Nat × List Char,
      importanceLabel <+: List.drop pv.1 sc ∧ pv.2.1 = impExtent sc pv.1 ∧
      impSkip sc pv = false ∧ pv.2.1 = c)
    (hlo : ∀ γ, importanceLabel <+: List.drop γ sc →
      impSkip sc (γ, impExtent sc γ, ([] : List Char)) = false →
      c ≤ γ → π ≤ γ) :
    (∃ o, importanceOpen <+: List.drop o sc ∧ c ≤ o ∧
      o + importanceOpen.length ≤ π ∧ π ≤ o + 50) ∨
    (∃ r, importanceClose <+: List.drop (impExtent sc π + r) sc ∧
      r + importanceClose.length ≤ 50 ∧
      isBoundary (List.drop (impExtent sc π) sc) = true ∧
      ∀ γ, importanceLabel <+: List.drop γ sc →
        impSkip sc (γ, impExtent sc γ, ([] : List Char)) = false →
        c ≤ γ → impExtent sc π + r + importanceClose.length ≤ γ) := by
  have h20 : importanceLabel.length = 20 := by decide
  have h18 : importanceOpen.length = 18 := by decide
  have h16 : importanceClose.length = 16 := by decide
  have hb20 := prefix_drop_bound (show importanceLabel ≠ [] by decide) hocc
  have hfbπ := firstBoundary_le (List.drop (π + importanceLabel.length) sc)
  rw [List.length_drop] at hfbπ
  have hπe1 : π + importanceLabel.length ≤ impExtent sc π := by
    unfold impExtent
    omega
  have hπe2 : impExtent sc π ≤ sc.length := by
    unfold impExtent
    omega
  rw [impSkip_def, Bool.or_eq_true] at hskip
  rcases hskip with hopen | hclose
  · left
    obtain ⟨o, hoOcc, hoLe, hoGe⟩ := lastN50_witness (by decide) hopen
      (by omega)
    refine ⟨o, hoOcc, ?_, by omega, by omega⟩
    rcases hpv with rfl | ⟨pv, hpvlab, hpve, hpvskip, hpvc⟩
    · omega
    · by_contra hoc
      push_neg at hoc
      have hpvb := prefix_drop_bound (show importanceLabel ≠ [] by decide)
        hpvlab
      have hpv20 : pv.1 + importanceLabel.length ≤ c := by
        rw [← hpvc, hpve]
        unfold impExtent
        omega
      rcases lt_trichotomy o pv.1 with ho1 | ho1 | ho1
      · rcases le_or_lt (o + importanceOpen.length) pv.1 with hsep | hovl
        · have hcs : containsSub importanceOpen
              (lastN 50 (List.take pv.1 sc)) = true :=
            containsSub_lastN_of_occ hoOcc hsep (by omega)
          have hsk2 : impSkip sc pv = true := by
            rw [show pv = (pv.1, pv.2.1, pv.2.2) from rfl, impSkip_def,
              Bool.or_eq_true]
            left
            exact hcs
          rw [hpvskip] at hsk2
          exact absurd hsk2 (by simp)
        · have hoh := occ_overlap_head importanceOpen importanceLabel sc o
            pv.1 hoOcc hpvlab (by omega) (by omega) (by decide)
          rw [show List.take 1 importanceLabel = [backslashChar] by decide]
            at hoh
          exact (show ∀ d, d < 18 → 0 < d →
              List.take 1 (List.drop d importanceOpen) ≠ [backslashChar]
            by decide) (pv.1 - o) (by omega) (by omega) hoh
      · rw [ho1] at hoOcc
        have hpp := prefix_of_prefix_len hoOcc hpvlab (by omega)
        exact absurd hpp (by decide)
      · exact label_region_block sc pv.1 o importanceOpen hpvlab hoOcc
          (by decide) (fun s' h' => isBoundary_of_open h') ho1
          (by rw [← hpve, hpvc]; omega)
  · right
    obtain ⟨r, hrOcc, hrLe⟩ := take50_witness (by decide) hclose
    have hbd : isBoundary (List.drop (impExtent sc π) sc) = true := by
      rcases firstBoundary_at (List.drop (π + importanceLabel.length) sc)
        with hend | hb
      · exfalso
        have hlen := prefix_drop_bound
          (show importanceClose ≠ [] by decide) hrOcc
        have hsce : impExtent sc π = sc.length := by
          unfold impExtent
          rw [hend, List.length_drop]
          omega
        omega
      · rw [List.drop_drop] at hb
        show isBoundary (List.drop (π + importanceLabel.length +
          firstBoundary (List.drop (π + importanceLabel.length) sc)) sc) = true
        exact hb
    refine ⟨r, hrOcc, by omega, hbd, ?_⟩
    intro γ hγlab hγskip hγc
    by_contra hcon
    push_neg at hcon
    have hγπ := hlo γ hγlab hγskip hγc
    have hγb := prefix_drop_bound (show importanceLabel ≠ [] by decide) hγlab
    rcases eq_or_lt_of_le hγπ with heq | hgt
    · have htr : impSkip sc (π, impExtent sc π, ([] : List Char)) = true := by
        rw [impSkip_def, Bool.or_eq_true]
        right
        exact hclose
      rw [heq] at htr
      rw [hγskip] at htr
      exact absurd htr (by simp)
    · rcases lt_or_ge γ (π + importanceLabel.length) with hA | hA
      · have hoh := occ_overlap_head importanceLabel importanceLabel sc π γ
          hocc hγlab (by omega) (by omega) (by decide)
        rw [show List.take 1 importanceLabel = [backslashChar] by decide]
          at hoh
        exact (show ∀ d, d < 20 → 0 < d →
            List.take 1 (List.drop d importanceLabel) ≠ [backslashChar]
          by decide) (γ - π) (by omega) (by omega) hoh
      · rcases lt_or_ge γ (impExtent sc π) with hB | hB
        · exact label_region_block sc π γ importanceLabel hocc hγlab
            (by decide) (fun s' h' => isBoundary_of_label h') (by omega) hB
        · have hγe1 : γ + importanceLabel.length ≤ impExtent sc γ := by
            unfold impExtent
            omega
          rcases le_or_lt (impExtent sc γ) (impExtent sc π + r) with hC | hC
          · have hocc2 : importanceClose <+: List.drop (impExtent sc γ +
                (impExtent sc π + r - impExtent sc γ)) sc := by
              rw [show impExtent sc γ + (impExtent sc π + r -
                impExtent sc γ) = impExtent sc π + r by omega]
              exact hrOcc
            have hkey : importanceClose <+: List.drop
                (impExtent sc π + r - impExtent sc γ)
                (List.drop (impExtent sc γ) sc) := by
              rw [List.drop_drop]
              exact hocc2
            have hcs : containsSub importanceClose
                (List.take 50 (List.drop (impExtent sc γ) sc)) = true :=
              containsSub_take_of_occ hkey (by omega)
            have htr : impSkip sc (γ, impExtent sc γ, ([] : List Char)) =
                true := by
              rw [impSkip_def, Bool.or_eq_true]
              right
              exact hcs
            rw [hγskip] at htr
            exact absurd htr (by simp)
          · rcases lt_trichotomy (impExtent sc π + r) γ with hD | hD | hD
            · have hoh := occ_overlap_head importanceClose importanceLabel sc
                (impExtent sc π + r) γ hrOcc hγlab (by omega) (by omega)
                (by decide)
              rw [show List.take 1 importanceLabel = [backslashChar] by decide]
                at hoh
              exact (show ∀ d, d < 16 → 0 < d →
                  List.take 1 (List.drop d importanceClose) ≠ [backslashChar]
                by decide) (γ - (impExtent sc π + r)) (by omega) (by omega)
                hoh
            · rw [← hD] at hγlab
              have hpp := prefix_of_prefix_len hrOcc hγlab (by omega)
              exact absurd hpp (by decide)
            · exact label_region_block sc γ (impExtent sc π + r)
                importanceClose hγlab hrOcc (by decide)
                (fun s' h' => isBoundary_of_close h') hD hC

theorem drop_drop_idx (s : List Char) (a b k : Nat) (h : a + b = k) :
    List.drop b (List.drop a s) = List.drop k s := by
  rw [List.drop_drop, h]

theorem drop_offset (X C : List Char) (k : Nat) :
    List.drop (X.length + k) (X ++ C) = List.drop k C := by
  rw [List.drop_append_eq_append_drop, List.drop_of_length_le (by omega),
    List.nil_append]
  congr 1
  omega

theorem impRewrite_marked (sc : List Char) :
    ∀ (M : List (Nat × Nat × List Char)) (c : Nat),
      c ≤ sc.length →
      (∀ im ∈ M, c ≤ im.1 ∧ importanceLabel <+: List.drop im.1 sc ∧
        im.2.1 = impExtent sc im.1 ∧
        im.2.2 = List.take (firstBoundary
          (List.drop (im.1 + importanceLabel.length) sc))
          (List.drop (im.1 + importanceLabel.length) sc)) →
      List.Pairwise (fun a b => a.2.1 ≤ b.1) M →
      (∀ π, c ≤ π → importanceLabel <+: List.drop π sc →
        (π, impExtent sc π, List.take (firstBoundary
          (List.drop (π + importanceLabel.length) sc))
          (List.drop (π + importanceLabel.length) sc)) ∈ M ∨
        impSkip sc (π, impExtent sc π, ([] : List Char)) = true) →
      (c = 0 ∨ ∃ pv : Nat × Nat × List Char,
        importanceLabel <+: List.drop pv.1 sc ∧ pv.2.1 = impExtent sc pv.1 ∧
        impSkip sc pv = false ∧ pv.2.1 = c) →
      ∀ p, importanceLabel <+: List.drop p (impRewrite sc c M) →
        p < (impRewrite sc c M).length →
        (∃ o, importanceOpen <+: List.drop o (impRewrite sc c M) ∧
          o + importanceOpen.length ≤ p ∧ p ≤ o + 50) ∨
        (∃ r, importanceClose <+: List.drop (p + importanceLabel.length +
          firstBoundary (List.drop (p + importanceLabel.length)
            (impRewrite sc c M)) + r) (impRewrite sc c M) ∧
          r + importanceClose.length ≤ 50) := by
  intro M
  induction M with
  | nil =>
    intro c hc hM hp hcov hpv p hlab hplen
    have h20 : importanceLabel.length = 20 := by decide
    have hV : impRewrite sc c ([] : List (Nat × Nat × List Char)) =
        List.drop c sc := rfl
    rw [hV] at hlab hplen ⊢
    rw [drop_drop_idx sc c p (c + p) rfl] at hlab
    have hlo : ∀ γ, importanceLabel <+: List.drop γ sc →
        impSkip sc (γ, impExtent sc γ, ([] : List Char)) = false →
        c ≤ γ → c + p ≤ γ := by
      intro γ hγl hγs hγc
      rcases hcov γ hγc hγl with hmem | hskip2
      · exact absurd hmem (List.not_mem_nil _)
      · rw [hγs] at hskip2
        exact absurd hskip2 (by simp)
    have hskipπ : impSkip sc (c + p, impExtent sc (c + p),
        ([] : List Char)) = true := by
      rcases hcov (c + p) (by omega) hlab with hmem | hskip2
      · exact absurd hmem (List.not_mem_nil _)
      · exact hskip2
    rcases skipped_witness sc c (c + p) hlab (by omega) hskipπ hpv hlo with
      ⟨o, hoOcc, hoc, hoLe, hoGe⟩ | ⟨r, hrOcc, hr16, hbd, hall⟩
    · left
      refine ⟨o - c, ?_, by omega, by omega⟩
      rw [drop_drop_idx sc c (o - c) o (by omega)]
      exact hoOcc
    · right
      have hfbeq : firstBoundary (List.drop (p + importanceLabel.length)
          (List.drop c sc)) = firstBoundary
          (List.drop (c + p + importanceLabel.length) sc) := by
        rw [drop_drop_idx sc c (p + importanceLabel.length)
          (c + p + importanceLabel.length) (by omega)]
      refine ⟨r, ?_, hr16⟩
      rw [hfbeq, drop_drop_idx sc c (p + importanceLabel.length +
        firstBoundary (List.drop (c + p + importanceLabel.length) sc) + r)
        (impExtent sc (c + p) + r) (by unfold impExtent; omega)]
      exact hrOcc
  | cons im rest ih =>
    intro c hc hM hp hcov hpv p hlab hplen
    have h20 : importanceLabel.length = 20 := by decide
    have h18 : importanceOpen.length = 18 := by decide
    have h16 : importanceClose.length = 16 := by decide
    obtain ⟨hc_im, hlab_im, hiend_eq, hgrp_im⟩ :=
      hM im (List.mem_cons_self im rest)
    rw [List.pairwise_cons] at hp
    obtain ⟨hrel, hp'⟩ := hp
    have hg : boundaryFree (stripChars im.2.2) := by
      rw [hgrp_im]
      exact boundaryFree_stripChars (group_boundaryFree _)
    have hbim := prefix_drop_bound (show importanceLabel ≠ [] by decide)
      hlab_im
    have hfbim := firstBoundary_le
      (List.drop (im.1 + importanceLabel.length) sc)
    rw [List.length_drop] at hfbim
    have him20 : im.1 + importanceLabel.length ≤ im.2.1 := by
      rw [hiend_eq]
      unfold impExtent
      omega
    have hiend : im.2.1 ≤ sc.length := by
      rw [hiend_eq]
      unfold impExtent
      omega
    by_cases hsk : impSkip sc im = true
    · have he : impRewrite sc c (im :: rest) = impRewrite sc c rest := by
        show (if impSkip sc im then impRewrite sc c rest else _) = _
        rw [if_pos hsk]
      rw [he] at hlab hplen ⊢
      refine ih c hc (fun im' h' => hM im' (List.mem_cons_of_mem _ h')) hp'
        ?_ hpv p hlab hplen
      intro π hπc hπl
      rcases hcov π hπc hπl with hmem | hskip2
      · rcases List.mem_cons.mp hmem with heq | hmem2
        · right
          have h2 : impSkip sc im = true := hsk
          rw [← heq, impSkip_def] at h2
          rw [impSkip_def]
          exact h2
        · left
          exact hmem2
      · right
        exact hskip2
    · have hfr : impRewrite sc c (im :: rest) =
          List.take (im.1 - c) (List.drop c sc) ++
            (wrapBlock (stripChars im.2.2) ++ impRewrite sc im.2.1 rest) := by
        show (if impSkip sc im then _ else _) = _
        rw [if_neg hsk, List.append_assoc]
      rw [hfr] at hlab hplen ⊢
      have hseglen : (List.take (im.1 - c) (List.drop c sc)).length =
          im.1 - c := by
        rw [List.length_take, List.length_drop]
        omega
      have him_skip_false : impSkip sc (im.1, impExtent sc im.1,
          ([] : List Char)) = false := by
        rw [impSkip_def]
        have h0 : impSkip sc im = false := Bool.eq_false_iff.mpr hsk
        rw [show im = (im.1, im.2.1, im.2.2) from rfl, impSkip_def] at h0
        rw [← hiend_eq]
        exact h0
      rcases occ_append_elim importanceLabel
          (List.take (im.1 - c) (List.drop c sc))
          (wrapBlock (stripChars im.2.2) ++ impRewrite sc im.2.1 rest)
          backslashChar (by decide)
          (Or.inr (by
            rw [take_one_append _ _ (by
              intro hw
              have hlw := congrArg List.length hw
              rw [wrapBlock_length] at hlw
              simp at hlw)]
            exact wrapBlock_head _)) p hlab with h1 | ⟨hge1, h2⟩
      · have hbp := prefix_drop_bound (show importanceLabel ≠ [] by decide) h1
        rw [hseglen] at hbp
        have hoccπ : importanceLabel <+: List.drop (c + p) sc := by
          rw [List.drop_take] at h1
          have h1c := h1.trans (List.take_prefix _ _)
          rw [drop_drop_idx sc c p (c + p) rfl] at h1c
          exact h1c
        have hlo : ∀ γ, importanceLabel <+: List.drop γ sc →
            impSkip sc (γ, impExtent sc γ, ([] : List Char)) = false →
            c ≤ γ → c + p ≤ γ := by
          intro γ hγl hγs hγc
          rcases hcov γ hγc hγl with hmem | hskip2
          · rcases List.mem_cons.mp hmem with heq | hmem2
            · have hγ1 : γ = im.1 := congrArg (fun t => t.1) heq
              omega
            · have hγrel : im.2.1 ≤ γ := hrel _ hmem2
              omega
          · rw [hγs] at hskip2
            exact absurd hskip2 (by simp)
        have hskipπ : impSkip sc (c + p, impExtent sc (c + p),
            ([] : List Char)) = true := by
          rcases hcov (c + p) (by omega) hoccπ with hmem | hskip2
          · rcases List.mem_cons.mp hmem with heq | hmem2
            · have hγ1 : c + p = im.1 := congrArg (fun t => t.1) heq
              exact absurd hγ1 (by omega)
            · have hγrel : im.2.1 ≤ c + p := hrel _ hmem2
              exact absurd hγrel (by omega)
          · exact hskip2
        rcases skipped_witness sc c (c + p) hoccπ (by omega) hskipπ hpv hlo
          with ⟨o, hoOcc, hoc, hoLe, hoGe⟩ | ⟨r, hrOcc, hr16, hbd, hall⟩
        · left
          refine ⟨o - c, ?_, by omega, by omega⟩
          rw [List.drop_append_of_le_length (by rw [hseglen]; omega)]
          refine List.IsPrefix.trans ?_ (List.prefix_append _ _)
          refine prefix_take_of_drop ?_ (by omega)
          rw [drop_drop_idx sc c (o - c) o (by omega)]
          exact hoOcc
        · right
          have hwb : impExtent sc (c + p) + r + importanceClose.length ≤
              im.1 := hall im.1 hlab_im him_skip_false hc_im
          have hπe1 : c + p + importanceLabel.length ≤
              impExtent sc (c + p) := by
            unfold impExtent
            omega
          have hπe2 : impExtent sc (c + p) = c + p + importanceLabel.length +
              firstBoundary (List.drop (c + p + importanceLabel.length) sc) :=
            rfl
          have hy : List.drop (p + importanceLabel.length)
              (List.take (im.1 - c) (List.drop c sc) ++
                (wrapBlock (stripChars im.2.2) ++
                  impRewrite sc im.2.1 rest)) =
              List.take (im.1 - c - (p + importanceLabel.length))
                (List.drop (c + p + importanceLabel.length) sc) ++
                (wrapBlock (stripChars im.2.2) ++
                  impRewrite sc im.2.1 rest) := by
            rw [List.drop_append_of_le_length (by rw [hseglen]; omega),
              List.drop_take, drop_drop_idx sc c (p + importanceLabel.length)
                (c + p + importanceLabel.length) (by omega)]
          have htkeq : List.take (firstBoundary
              (List.drop (c + p + importanceLabel.length) sc) + 8)
              (List.drop (p + importanceLabel.length)
                (List.take (im.1 - c) (List.drop c sc) ++
                  (wrapBlock (stripChars im.2.2) ++
                    impRewrite sc im.2.1 rest))) =
              List.take (firstBoundary
                (List.drop (c + p + importanceLabel.length) sc) + 8)
                (List.drop (c + p + importanceLabel.length) sc) := by
            rw [hy, List.take_append_of_le_length
              (by rw [List.length_take, List.length_drop]; omega),
              List.take_take, Nat.min_eq_left (by omega)]
          have hfbV : firstBoundary (List.drop (p + importanceLabel.length)
              (List.take (im.1 - c) (List.drop c sc) ++
                (wrapBlock (stripChars im.2.2) ++
                  impRewrite sc im.2.1 rest))) =
              firstBoundary
                (List.drop (c + p + importanceLabel.length) sc) :=
            firstBoundary_congr htkeq.symm rfl
          refine ⟨r, ?_, hr16⟩
          rw [hfbV]
          rw [List.drop_append_of_le_length (by rw [hseglen]; omega)]
          refine List.IsPrefix.trans ?_ (List.prefix_append _ _)
          refine prefix_take_of_drop ?_ (by omega)
          rw [drop_drop_idx sc c (p + importanceLabel.length +
            firstBoundary (List.drop (c + p + importanceLabel.length) sc) + r)
            (impExtent sc (c + p) + r) (by unfold impExtent; omega)]
          exact hrOcc
      · rcases occ_append_elim2 importanceLabel
            (wrapBlock (stripChars im.2.2)) (impRewrite sc im.2.1 rest)
            (fun d hd hcr => wrapBlock_no_cross_label _ d hd hcr)
            (p - (List.take (im.1 - c) (List.drop c sc)).length) h2 with
          h3 | ⟨hge2, h4⟩
        · have hpos := wrapBlock_label_occ hg h3
          have hn : nlChar.length = 1 := by decide
          left
          refine ⟨(List.take (im.1 - c) (List.drop c sc)).length, ?_,
            by omega, by omega⟩
          rw [List.drop_left, wrapBlock_eq, List.append_assoc]
          exact List.prefix_append _ _
        · rw [List.length_append, List.length_append] at hplen
          have hcov2 : ∀ π, im.2.1 ≤ π →
              importanceLabel <+: List.drop π sc →
              (π, impExtent sc π, List.take (firstBoundary
                (List.drop (π + importanceLabel.length) sc))
                (List.drop (π + importanceLabel.length) sc)) ∈ rest ∨
              impSkip sc (π, impExtent sc π, ([] : List Char)) = true := by
            intro π hπc hπl
            rcases hcov π (by omega) hπl with hmem | hskip2
            · rcases List.mem_cons.mp hmem with heq | hmem2
              · have hπ1 : π = im.1 := congrArg (fun t => t.1) heq
                exact absurd hπ1 (by omega)
              · left
                exact hmem2
            · right
              exact hskip2
          have hpv2 : im.2.1 = 0 ∨ ∃ pv : Nat × Nat × List Char,
              importanceLabel <+: List.drop pv.1 sc ∧
              pv.2.1 = impExtent sc pv.1 ∧
              impSkip sc pv = false ∧ pv.2.1 = im.2.1 :=
            Or.inr ⟨im, hlab_im, hiend_eq, Bool.eq_false_iff.mpr hsk, rfl⟩
          rcases ih im.2.1 hiend
              (fun im' h' => ⟨hrel im' h',
                (hM im' (List.mem_cons_of_mem _ h')).2.1,
                (hM im' (List.mem_cons_of_mem _ h')).2.2.1,
                (hM im' (List.mem_cons_of_mem _ h')).2.2.2⟩) hp'
              hcov2 hpv2
              (p - (List.take (im.1 - c) (List.drop c sc)).length -
                (wrapBlock (stripChars im.2.2)).length) h4 (by omega) with
            ⟨o, hoOcc, hoLe, hoGe⟩ | ⟨r, hrOcc, hr16⟩
          · left
            refine ⟨(List.take (im.1 - c) (List.drop c sc)).length +
              (wrapBlock (stripChars im.2.2)).length + o, ?_,
              by omega, by omega⟩
            rw [show List.take (im.1 - c) (List.drop c sc) ++
                (wrapBlock (stripChars im.2.2) ++ impRewrite sc im.2.1 rest) =
                (List.take (im.1 - c) (List.drop c sc) ++
                  wrapBlock (stripChars im.2.2)) ++
                  impRewrite sc im.2.1 rest from
                (List.append_assoc _ _ _).symm,
              show (List.take (im.1 - c) (List.drop c sc)).length +
                (wrapBlock (stripChars im.2.2)).length + o =
                (List.take (im.1 - c) (List.drop c sc) ++
                  wrapBlock (stripChars im.2.2)).length + o by
                rw [List.length_append],
              drop_offset]
            exact hoOcc
          · right
            have hdropEq : List.drop (p + importanceLabel.length)
                (List.take (im.1 - c) (List.drop c sc) ++
                  (wrapBlock (stripChars im.2.2) ++
                    impRewrite sc im.2.1 rest)) =
                List.drop ((p - (List.take (im.1 - c)
                  (List.drop c sc)).length -
                  (wrapBlock (stripChars im.2.2)).length) +
                  importanceLabel.length) (impRewrite sc im.2.1 rest) := by
              rw [show List.take (im.1 - c) (List.drop c sc) ++
                  (wrapBlock (stripChars im.2.2) ++
                    impRewrite sc im.2.1 rest) =
                  (List.take (im.1 - c) (List.drop c sc) ++
                    wrapBlock (stripChars im.2.2)) ++
                    impRewrite sc im.2.1 rest from
                  (List.append_assoc _ _ _).symm,
                show p + importanceLabel.length =
                  (List.take (im.1 - c) (List.drop c sc) ++
                    wrapBlock (stripChars im.2.2)).length +
                    ((p - (List.take (im.1 - c) (List.drop c sc)).length -
                      (wrapBlock (stripChars im.2.2)).length) +
                      importanceLabel.length) by
                  rw [List.length_append]
                  omega,
                drop_offset]
            refine ⟨r, ?_, hr16⟩
            rw [hdropEq]
            rw [show List.take (im.1 - c) (List.drop c sc) ++
                (wrapBlock (stripChars im.2.2) ++ impRewrite sc im.2.1 rest) =
                (List.take (im.1 - c) (List.drop c sc) ++
                  wrapBlock (stripChars im.2.2)) ++
                  impRewrite sc im.2.1 rest from
                (List.append_assoc _ _ _).symm,
              show p + importanceLabel.length + firstBoundary
                  (List.drop ((p - (List.take (im.1 - c)
                    (List.drop c sc)).length -
                    (wrapBlock (stripChars im.2.2)).length) +
                    importanceLabel.length) (impRewrite sc im.2.1 rest)) + r =
                (List.take (im.1 - c) (List.drop c sc) ++
                  wrapBlock (stripChars im.2.2)).length +
                  ((p - (List.take (im.1 - c) (List.drop c sc)).length -
                    (wrapBlock (stripChars im.2.2)).length) +
                    importanceLabel.length + firstBoundary
                    (List.drop ((p - (List.take (im.1 - c)
                      (List.drop c sc)).length -
                      (wrapBlock (stripChars im.2.2)).length) +
                      importanceLabel.length)
                      (impRewrite sc im.2.1 rest)) + r) by
                rw [List.length_append]
                omega,
              drop_offset]
            exact hrOcc

theorem impRewrite_MarkedW (sc : List Char) :
    MarkedW (impRewrite sc 0 (impMatchesIn sc)) := by
  intro im' him'
  have h20 : importanceLabel.length = 20 := by decide
  obtain ⟨hocc', hiend', hgrp'⟩ := impMatchesIn_mem him'
  have hb := prefix_drop_bound (show importanceLabel ≠ [] by decide) hocc'
  rcases impRewrite_marked sc (impMatchesIn sc) 0 (by omega)
      (fun im h => ⟨by omega, (impMatchesIn_mem h).1,
        (impMatchesIn_mem h).2.1, (impMatchesIn_mem h).2.2⟩)
      (impMatchesIn_pairwise sc)
      (fun π h0 hπl => Or.inl (impMatchesIn_complete hπl))
      (Or.inl rfl) im'.1 hocc' (by omega) with
    ⟨o, hoOcc, hoLe, hoGe⟩ | ⟨r, hrOcc, hr16⟩
  · rw [show im' = (im'.1, im'.2.1, im'.2.2) from rfl, impSkip_def,
      Bool.or_eq_true]
    left
    exact containsSub_lastN_of_occ hoOcc hoLe hoGe
  · rw [show im' = (im'.1, im'.2.1, im'.2.2) from rfl, impSkip_def,
      Bool.or_eq_true]
    right
    have hkey : importanceClose <+: List.drop r (List.drop im'.2.1
        (impRewrite sc 0 (impMatchesIn sc))) := by
      rw [drop_drop_idx _ im'.2.1 r (im'.2.1 + r) rfl, hiend']
      exact hrOcc
    exact containsSub_take_of_occ hkey (by omega)

theorem matchPBAt_decompose {s t b : List Char} {n : Nat}
    (h : matchPBAt s = some (t, b, n)) :
    rbrackTok <+: List.drop (beginBracketTok.length + t.length) s ∧
    endTok <+: List.drop (n - endTok.length) s ∧
    n = beginBracketTok.length + t.length + 1 + b.length + endTok.length := by
  have hpre : beginBracketTok <+: s := matchPBAt_isPrefix s _ h
  have h19 : beginBracketTok.length = 19 := by decide
  have h1r : rbrackTok.length = 1 := by decide
  have h16 : endTok.length = 16 := by decide
  rw [matchPBAt_pos s (List.isPrefixOf_iff_prefix.mpr hpre)] at h
  cases hr : findSub rbrackTok (List.drop beginBracketTok.length s) with
  | none => simp only [hr] at h; exact absurd h (by simp)
  | some j =>
    simp only [hr] at h
    by_cases hj : j = 0
    · rw [if_pos hj] at h
      exact absurd h (by simp)
    · rw [if_neg hj] at h
      cases he : findSub endTok
          (List.drop (j + 1) (List.drop beginBracketTok.length s)) with
      | none => simp only [he] at h; exact absurd h (by simp)
      | some k =>
        simp only [he, Option.some.injEq, Prod.mk.injEq] at h
        obtain ⟨ht, hb, hn⟩ := h
        have hjb := prefix_drop_bound (show rbrackTok ≠ [] by decide)
          ( findSub_some_prefix _ _ _ hr)
        rw [List.length_drop] at hjb
        have hkb := prefix_drop_bound (show endTok ≠ [] by decide)
          ( findSub_some_prefix _ _ _ he)
        rw [List.length_drop, List.length_drop] at hkb
        have htl : t.length = j := by
          rw [← ht, List.length_take, List.length_drop]
          omega
        have hbl : b.length = k := by
          rw [← hb, List.length_take, List.length_drop, List.length_drop]
          omega
        refine ⟨?_, ?_, by omega⟩
        · rw [htl]
          have hocc := findSub_some_prefix _ _ _ hr
          rw [drop_drop_idx s beginBracketTok.length j
            (beginBracketTok.length + j) rfl] at hocc
          exact hocc
        · have hocc := findSub_some_prefix _ _ _ he
          rw [drop_drop_idx s beginBracketTok.length (j + 1)
            (beginBracketTok.length + (j + 1)) rfl,
            drop_drop_idx s (beginBracketTok.length + (j + 1)) k
              (n - endTok.length) (by omega)] at hocc
          exact hocc

theorem matchPBAt_gap_none_transfer (s s' t bb : List Char) (p i n K : Nat)
    (h : matchPBAt (List.drop p s) = none)
    (hsome : matchPBAt (List.drop i s) = some (t, bb, n))
    (hpi : p < i) (hiK : i + n ≤ K)
    (heq : List.take K s = List.take K s') :
    matchPBAt (List.drop p s') = none := by
  obtain ⟨h37, hlen⟩ := matchPBAt_bounds hsome
  obtain ⟨hrb, hend, hneq⟩ := matchPBAt_decompose hsome
  have h19 : beginBracketTok.length = 19 := by decide
  have h1r : rbrackTok.length = 1 := by decide
  have h16 : endTok.length = 16 := by decide
  rw [drop_drop_idx s i (beginBracketTok.length + t.length)
    (i + (beginBracketTok.length + t.length)) rfl] at hrb
  rw [drop_drop_idx s i (n - endTok.length) (i + (n - endTok.length))
    rfl] at hend
  have htr : ∀ (pat : List Char) (z : Nat), z + pat.length ≤ K →
      pat <+: List.drop z s → pat <+: List.drop z s' := by
    intro pat z hz hx
    have h1 : pat <+: List.drop z (List.take K s) := prefix_take_of_drop hx hz
    rw [heq, List.drop_take] at h1
    exact h1.trans (List.take_prefix _ _)
  by_cases hpre' : beginBracketTok.isPrefixOf (List.drop p s')
  · have hK19 : p + beginBracketTok.length ≤ K := by omega
    have hpre : beginBracketTok <+: List.drop p s := by
      have hx := List.isPrefixOf_iff_prefix.mp hpre'
      have h1 : beginBracketTok <+: List.drop p (List.take K s') :=
        prefix_take_of_drop hx hK19
      rw [← heq, List.drop_take] at h1
      exact h1.trans (List.take_prefix _ _)
    rw [matchPBAt_pos _ (List.isPrefixOf_iff_prefix.mpr hpre)] at h
    rw [matchPBAt_pos _ hpre']
    rw [drop_drop_idx s p beginBracketTok.length
      (p + beginBracketTok.length) rfl] at h
    rw [drop_drop_idx s' p beginBracketTok.length
      (p + beginBracketTok.length) rfl]
    have hRocc : rbrackTok <+:
        List.drop ((i + (beginBracketTok.length + t.length)) -
          (p + beginBracketTok.length))
          (List.drop (p + beginBracketTok.length) s) := by
      rw [drop_drop_idx s (p + beginBracketTok.length) _
        (i + (beginBracketTok.length + t.length)) (by omega)]
      exact hrb
    cases hfr : findSub rbrackTok (List.drop (p + beginBracketTok.length) s)
      with
    | none => exact absurd hRocc (findSub_none_no_occ _ _ hfr _)
    | some j =>
      simp only [hfr] at h
      have hjmin := findSub_min _ _ _ hfr
      have hjle : j ≤ (i + (beginBracketTok.length + t.length)) -
          (p + beginBracketTok.length) := by
        by_contra hcon
        exact hjmin _ (by omega) hRocc
      have hfr' : findSub rbrackTok
          (List.drop (p + beginBracketTok.length) s') = some j := by
        refine findSub_locality rbrackTok _ _
          (K - (p + beginBracketTok.length)) j hfr (by omega) ?_
        rw [show List.take (K - (p + beginBracketTok.length))
            (List.drop (p + beginBracketTok.length) s) =
            List.drop (p + beginBracketTok.length) (List.take K s) from
            by rw [List.drop_take],
          show List.take (K - (p + beginBracketTok.length))
            (List.drop (p + beginBracketTok.length) s') =
            List.drop (p + beginBracketTok.length) (List.take K s') from
            by rw [List.drop_take],
          heq]
      simp only [hfr']
      by_cases hj0 : j = 0
      · rw [if_pos hj0]
      · rw [if_neg hj0] at h
        rw [if_neg hj0]
        have hEocc : endTok <+:
            List.drop ((i + (n - endTok.length)) -
              (p + beginBracketTok.length + (j + 1)))
              (List.drop (j + 1)
                (List.drop (p + beginBracketTok.length) s)) := by
          rw [drop_drop_idx s (p + beginBracketTok.length) (j + 1)
              (p + beginBracketTok.length + (j + 1)) rfl,
            drop_drop_idx s (p + beginBracketTok.length + (j + 1)) _
              (i + (n - endTok.length)) (by omega)]
          exact hend
        cases hfe : findSub endTok
            (List.drop (j + 1)
              (List.drop (p + beginBracketTok.length) s)) with
        | none => exact absurd hEocc (findSub_none_no_occ _ _ hfe _)
        | some k =>
          simp only [hfe] at h
          exact absurd h (by simp)
  · exact matchPBAt_none_of_not_prefix _ hpre'

theorem take_drop_congr {x y : List Char} {K : Nat}
    (heq : List.take K x = List.take K y) (i n : Nat) (h : i + n ≤ K) :
    List.take n (List.drop i x) = List.take n (List.drop i y) := by
  have h1 := congrArg (List.drop i) heq
  rw [List.drop_take, List.drop_take] at h1
  have h2 := congrArg (List.take n) h1
  rw [List.take_take, List.take_take, Nat.min_eq_left (by omega)] at h2
  exact h2

theorem take_a_new (s W T : List Char) (a : Nat) (ha : a ≤ s.length) :
    List.take a (List.take a s ++ (W ++ T)) = List.take a s := by
  rw [List.take_append_of_le_length (by rw [List.length_take]; omega),
    List.take_take, Nat.min_self]

theorem findPB_replace_before (s W t bb : List Char) (a b i n : Nat)
    (h : findPB s = some (i, t, bb, n)) (hin : i + n ≤ a) (hab : a ≤ b)
    (hbs : b ≤ s.length) :
    findPB (List.take a s ++ (W ++ List.drop b s)) = some (i, t, bb, n) := by
  have hKeq : List.take a s =
      List.take a (List.take a s ++ (W ++ List.drop b s)) :=
    (take_a_new s W (List.drop b s) a (by omega)).symm
  apply findPB_eq_some_of
  · refine matchPBAt_locality (findPB_at s (i, t, bb, n) h) ?_
    exact take_drop_congr hKeq i n (by omega)
  · intro p hp
    obtain ⟨h37, hlen⟩ := findPB_bounds h
    exact matchPBAt_gap_none_transfer s _ t bb p i n a
      (findPB_min s (i, t, bb, n) h p hp)
      (findPB_at s (i, t, bb, n) h) hp hin hKeq

theorem findPB_replace_after (s W t bb : List Char) (b i n : Nat)
    (h : findPB s = some (i, t, bb, n)) (hbi : b ≤ i) (hbs : b ≤ s.length)
    (hW : ∀ q, q < W.length →
      ¬ beginTok <+: List.drop q (W ++ List.drop b s)) :
    findPB (W ++ List.drop b s) =
      some (W.length + (i - b), t, bb, n) := by
  apply findPB_eq_some_of
  · rw [drop_offset, drop_drop_idx s b (i - b) i (by omega)]
    exact findPB_at s (i, t, bb, n) h
  · intro p hp
    rcases lt_or_ge p W.length with hpW | hpW
    · apply matchPBAt_none_of_not_prefix
      intro hbbt
      exact hW p hpW ((show beginTok <+: beginBracketTok by decide).trans
        (List.isPrefixOf_iff_prefix.mp hbbt))
    · have hdp : List.drop p (W ++ List.drop b s) =
          List.drop (b + (p - W.length)) s := by
        rw [show p = W.length + (p - W.length) by omega, drop_offset,
          drop_drop_idx s b (p - W.length) _ rfl]
        congr 1
        omega
      rw [hdp]
      exact findPB_min s (i, t, bb, n) h (b + (p - W.length)) (by omega)

theorem findPB_replace_none (s W : List Char) (b : Nat)
    (h : findPB s = none) (hbs : b ≤ s.length)
    (hW : ∀ q, q < W.length →
      ¬ beginTok <+: List.drop q (W ++ List.drop b s)) :
    findPB (W ++ List.drop b s) = none := by
  apply findPB_eq_none_of
  intro p
  rcases lt_or_ge p W.length with hpW | hpW
  · apply matchPBAt_none_of_not_prefix
    intro hbbt
    exact hW p hpW ((show beginTok <+: beginBracketTok by decide).trans
      (List.isPrefixOf_iff_prefix.mp hbbt))
  · have hdp : List.drop p (W ++ List.drop b s) =
        List.drop (b + (p - W.length)) s := by
      rw [show p = W.length + (p - W.length) by omega, drop_offset,
        drop_drop_idx s b (p - W.length) _ rfl]
      congr 1
      omega
    rw [hdp]
    exact findPB_none_all s h _

theorem finditerPB_replace :
    ∀ (fuel fuel2 off a b : Nat) (s W : List Char),
      s.length ≤ fuel →
      a + (W.length + (s.length - b)) ≤ fuel2 →
      a ≤ b → b ≤ s.length →
      (∀ q, q < W.length →
        ¬ beginTok <+: List.drop q (W ++ List.drop b s)) →
      (∀ m ∈ finditerPB fuel off s,
        m.mend ≤ off + a ∨ off + b ≤ m.mstart) →
      (a = 0 ∨ ∃ m ∈ finditerPB fuel off s, m.mend = off + a) →
      finditerPB fuel2 off (List.take a s ++ (W ++ List.drop b s)) =
        (finditerPB fuel off s).map
          (fun m => if off + b ≤ m.mstart
            then ⟨off + a + W.length + (m.mstart - (off + b)),
              m.mlen, m.title, m.body⟩
            else m) := by
  intro fuel
  induction fuel with
  | zero =>
    intro fuel2 off a b s W hf hf2 hab hbs hW hsep hA
    have hs : s = [] := List.length_eq_zero.mp (by omega)
    subst hs
    have hb0 : b = 0 := by
      have := List.length_nil (α := Char)
      omega
    have ha0 : a = 0 := by omega
    subst hb0
    subst ha0
    simp only [finditerPB, List.map_nil, List.take_nil, List.nil_append]
    cases fuel2 with
    | zero => rfl
    | succ f2 =>
      have hnone := findPB_replace_none [] W 0
        (show findPB [] = none from rfl) (by omega) hW
      simp only [finditerPB, hnone]
  | succ fuel ih =>
    intro fuel2 off a b s W hf hf2 hab hbs hW hsep hA
    cases fuel2 with
    | zero =>
      have ha0 : a = 0 := by omega
      subst ha0
      have hW0 : W.length = 0 := by omega
      cases hfl : finditerPB (fuel + 1) off s with
      | nil => rfl
      | cons m rest =>
        exfalso
        have hm : m ∈ finditerPB (fuel + 1) off s := by
          rw [hfl]
          exact List.mem_cons_self _ _
        have h1 := (finditerPB_mem (fuel + 1) off s m hm).1
        have h2 := finditerPB_mem_len (fuel + 1) off s m hm
        have hme : m.mend = m.mstart + m.mlen := rfl
        rcases hsep m hm with hx | hx
        · omega
        · omega
    | succ f2 =>
      cases hfp : findPB s with
      | none =>
        have ha0 : a = 0 := by
          rcases hA with h0 | ⟨m, hm, -⟩
          · exact h0
          · simp only [finditerPB, hfp] at hm
            exact absurd hm (List.not_mem_nil _)
        subst ha0
        have hnone := findPB_replace_none s W b hfp hbs hW
        simp only [finditerPB, hfp, List.map_nil, List.take_zero,
          List.nil_append, hnone]
      | some r =>
        obtain ⟨i, t, bb, n⟩ := r
        obtain ⟨h37, hin⟩ := findPB_bounds hfp
        have hm0 : (⟨off + i, n, t, bb⟩ : PBMatch) ∈
            finditerPB (fuel + 1) off s := by
          simp only [finditerPB, hfp]
          exact List.mem_cons_self _ _
        rcases hsep _ hm0 with hbefore | hafter
        · simp only [PBMatch.mend, PBMatch.mstart] at hbefore
          have hina : i + n ≤ a := by omega
          have hfound := findPB_replace_before s W t bb a b i n hfp hina
            hab hbs
          simp only [finditerPB, hfp, hfound, List.map_cons]
          congr 1
          · rw [if_neg (show ¬ off + b ≤ off + i by omega)]
          · have hdrop : List.drop (i + n)
                (List.take a s ++ (W ++ List.drop b s)) =
                List.take (a - (i + n)) (List.drop (i + n) s) ++
                  (W ++ List.drop (b - (i + n)) (List.drop (i + n) s)) := by
              rw [List.drop_append_of_le_length
                  (by rw [List.length_take]; omega),
                List.drop_take,
                ← drop_drop_idx s (i + n) (b - (i + n)) b (by omega)]
            rw [hdrop]
            have hsep2 : ∀ m ∈ finditerPB fuel (off + i + n)
                (List.drop (i + n) s),
                m.mend ≤ off + i + n + (a - (i + n)) ∨
                off + i + n + (b - (i + n)) ≤ m.mstart := by
              intro m hm
              have hmm : m ∈ finditerPB (fuel + 1) off s := by
                simp only [finditerPB, hfp]
                exact List.mem_cons_of_mem _ hm
              rcases hsep m hmm with hx | hx
              · left; omega
              · right; omega
            have hA2 : a - (i + n) = 0 ∨
                ∃ m ∈ finditerPB fuel (off + i + n) (List.drop (i + n) s),
                  m.mend = off + i + n + (a - (i + n)) := by
              rcases hA with h0 | ⟨m, hm, hmend⟩
              · left; omega
              · simp only [finditerPB, hfp] at hm
                rcases List.mem_cons.mp hm with rfl | hmt
                · left
                  simp only [PBMatch.mend] at hmend
                  omega
                · right
                  exact ⟨m, hmt, by omega⟩
            have hW2 : ∀ q, q < W.length → ¬ beginTok <+:
                List.drop q (W ++ List.drop (b - (i + n))
                  (List.drop (i + n) s)) := by
              intro q hq
              rw [drop_drop_idx s (i + n) (b - (i + n)) b (by omega)]
              exact hW q hq
            have hrec := ih f2 (off + i + n) (a - (i + n)) (b - (i + n))
              (List.drop (i + n) s) W
              (by rw [List.length_drop]; omega)
              (by rw [List.length_drop]; omega)
              (by omega) (by rw [List.length_drop]; omega)
              hW2 hsep2 hA2
            rw [hrec]
            apply List.map_congr_left
            intro m hm
            have hge := (finditerPB_mem fuel (off + i + n) _ m hm).1
            by_cases hc : off + b ≤ m.mstart
            · rw [if_pos (show off + i + n + (b - (i + n)) ≤ m.mstart by
                omega), if_pos hc]
              simp only [PBMatch.mk.injEq]
              refine ⟨by omega, trivial, trivial, trivial⟩
            · rw [if_neg (show ¬ off + i + n + (b - (i + n)) ≤ m.mstart by
                omega), if_neg hc]
        · simp only [PBMatch.mstart] at hafter
          have hbi : b ≤ i := by omega
          have ha0 : a = 0 := by
            rcases hA with h0 | ⟨m, hm, hmend⟩
            · exact h0
            · exfalso
              simp only [finditerPB, hfp] at hm
              rcases List.mem_cons.mp hm with rfl | hmt
              · simp only [PBMatch.mend] at hmend
                omega
              · have hge := (finditerPB_mem fuel (off + i + n) _ m hmt).1
                have hme : m.mend = m.mstart + m.mlen := rfl
                have h2 := finditerPB_mem_len fuel (off + i + n) _ m hmt
                omega
          subst ha0
          have hfound := findPB_replace_after s W t bb b i n hfp hbi hbs hW
          simp only [finditerPB, hfp, List.take_zero, List.nil_append,
            hfound, List.map_cons]
          congr 1
          · rw [if_pos (show off + b ≤ off + i by omega)]
            simp only [PBMatch.mk.injEq]
            refine ⟨by omega, trivial, trivial, trivial⟩
          · have hdrop2 : List.drop (W.length + (i - b) + n)
                (W ++ List.drop b s) = List.drop (i + n) s := by
              rw [show W.length + (i - b) + n = W.length + ((i - b) + n)
                  by omega, drop_offset,
                drop_drop_idx s b ((i - b) + n) (i + n) (by omega)]
            rw [hdrop2]
            have hlen_tail : (List.drop (i + n) s).length ≤ f2 := by
              rw [List.length_drop]
              omega
            have hlen_tail2 : (List.drop (i + n) s).length ≤ fuel := by
              rw [List.length_drop]
              omega
            have hshift1 : finditerPB f2 (off + (W.length + (i - b)) + n)
                (List.drop (i + n) s) =
                (finditerPB f2 0 (List.drop (i + n) s)).map
                  (shiftPB (off + (W.length + (i - b)) + n)) := by
              have hs1 := finditerPB_shift f2 0
                (off + (W.length + (i - b)) + n) (List.drop (i + n) s)
              rw [Nat.zero_add] at hs1
              exact hs1
            have hshift2 : finditerPB fuel (off + i + n)
                (List.drop (i + n) s) =
                (finditerPB fuel 0 (List.drop (i + n) s)).map
                  (shiftPB (off + i + n)) := by
              have hs2 := finditerPB_shift fuel 0 (off + i + n)
                (List.drop (i + n) s)
              rw [Nat.zero_add] at hs2
              exact hs2
            rw [hshift1, hshift2,
              finditerPB_fuel f2 fuel 0 _ hlen_tail hlen_tail2,
              List.map_map]
            apply List.map_congr_left
            intro m hm
            simp only [Function.comp_apply, shiftPB, PBMatch.mstart]
            rw [if_pos (show off + b ≤ m.mstart + (off + i + n) by omega)]
            simp only [PBMatch.mk.injEq]
            refine ⟨by omega, trivial, trivial, trivial⟩

theorem extractPB_replace (cur W : List Char) (a b : Nat)
    (hab : a ≤ b) (hbs : b ≤ cur.length)
    (hW : ∀ q, q < W.length →
      ¬ beginTok <+: List.drop q (W ++ List.drop b cur))
    (hsep : ∀ m ∈ extractPB cur, m.mend ≤ a ∨ b ≤ m.mstart)
    (hA : a = 0 ∨ ∃ m ∈ extractPB cur, m.mend = a) :
    extractPB (List.take a cur ++ (W ++ List.drop b cur)) =
      (extractPB cur).map (fun m => if b ≤ m.mstart
        then ⟨a + W.length + (m.mstart - b), m.mlen, m.title, m.body⟩
        else m) := by
  unfold extractPB
  have hlen : (List.take a cur ++ (W ++ List.drop b cur)).length =
      a + (W.length + (cur.length - b)) := by
    rw [List.length_append, List.length_append, List.length_take,
      List.length_drop, Nat.min_eq_left (by omega)]
  rw [hlen]
  have hres := finditerPB_replace cur.length
    (a + (W.length + (cur.length - b))) 0 a b cur W (le_refl _) (le_refl _)
    hab hbs hW
    (fun m hm => by
      rcases hsep m hm with h | h
      · left; omega
      · right; omega)
    (by
      rcases hA with h0 | ⟨m, hm, hmend⟩
      · left; exact h0
      · right; exact ⟨m, hm, by omega⟩)
  rw [hres]
  apply List.map_congr_left
  intro m hm
  by_cases hc : b ≤ m.mstart
  · rw [if_pos (show 0 + b ≤ m.mstart by omega), if_pos hc]
    simp only [PBMatch.mk.injEq]
    refine ⟨by omega, trivial, trivial, trivial⟩
  · rw [if_neg (show ¬ 0 + b ≤ m.mstart by omega), if_neg hc]

theorem windowOf_no_beginTok (cur : List Char) (e : Nat) :
    ∀ i, i < (windowOf cur e).length →
      ¬ beginTok <+: List.drop i (windowOf cur e ++
        List.drop (e + (windowOf cur e).length) cur) := by
  intro i hi hocc
  rw [windowOf_decomp] at hocc
  cases hf : findSub beginTok (List.drop e cur) with
  | none => exact findSub_none_no_occ _ _ hf i hocc
  | some n =>
    have hlen : (windowOf cur e).length ≤ n := by
      rw [windowOf_eq_some cur e n hf, List.length_take]
      exact Nat.min_le_left _ _
    exact findSub_min _ _ _ hf i (by omega) hocc

theorem windowOf_tail (cur : List Char) (e : Nat) :
    List.drop (e + (windowOf cur e).length) cur = [] ∨
      beginTok <+: List.drop (e + (windowOf cur e).length) cur := by
  cases hf : findSub beginTok (List.drop e cur) with
  | none =>
    left
    rw [windowOf_eq_none cur e hf, List.length_drop]
    rw [List.drop_of_length_le (by omega)]
  | some n =>
    right
    have hocc := findSub_some_prefix _ _ _ hf
    have hb := prefix_drop_bound (show beginTok ≠ [] by decide) hocc
    rw [List.length_drop] at hb
    rw [windowOf_eq_some cur e n hf, List.length_take, List.length_drop,
      Nat.min_eq_left (by omega),
      ← drop_drop_idx cur e n (e + n) rfl]
    exact hocc

theorem windowOf_replace (cur W : List Char) (a b : Nat)
    (ha : a ≤ cur.length)
    (hW : ∀ q, q < W.length →
      ¬ beginTok <+: List.drop q (W ++ List.drop b cur))
    (htail : List.drop b cur = [] ∨ beginTok <+: List.drop b cur) :
    windowOf (List.take a cur ++ (W ++ List.drop b cur)) a = W := by
  have hdrop : List.drop a (List.take a cur ++ (W ++ List.drop b cur)) =
      W ++ List.drop b cur := by
    have h1 : List.drop ((List.take a cur).length + 0)
        (List.take a cur ++ (W ++ List.drop b cur)) =
        W ++ List.drop b cur := by
      rw [drop_offset, List.drop_zero]
    rw [List.length_take, Nat.min_eq_left (by omega), Nat.add_zero] at h1
    exact h1
  rcases htail with hnil | hbt
  · unfold windowOf
    rw [hdrop, hnil, List.append_nil]
    cases hfw : findSub beginTok W with
    | none => rfl
    | some q =>
      exfalso
      have hocc := findSub_some_prefix _ _ _ hfw
      have hb := prefix_drop_bound (show beginTok ≠ [] by decide) hocc
      have h2 := hW q (by
        have h18 : beginTok.length = 18 := by decide
        omega)
      rw [hnil, List.append_nil] at h2
      exact h2 hocc
  · have hfs : findSub beginTok (W ++ List.drop b cur) = some W.length := by
      refine findSub_eq_some_of _ _ _ ?_ ?_
      · rw [List.drop_left]
        exact hbt
      · intro q hq
        exact hW q hq
    unfold windowOf
    rw [hdrop, hfs]
    exact List.take_left _ _

theorem imploop_all_marked :
    ∀ (pre : List PBMatch) (L : List PBMatch) (cur : List Char) (k : Nat),
      extractPB cur = pre.reverse ++ L →
      (∀ mm ∈ L, MarkedW (windowOf cur mm.mend)) →
      ∀ mm ∈ extractPB (pre.foldl (fun acc m =>
          let r := fixImportanceStep acc.1 m
          (r.1, acc.2 + r.2)) (cur, k)).1,
        MarkedW (windowOf (pre.foldl (fun acc m =>
          let r := fixImportanceStep acc.1 m
          (r.1, acc.2 + r.2)) (cur, k)).1 mm.mend) := by
  intro pre
  induction pre with
  | nil =>
    intro L cur k hsplit hmk mm hmm
    simp only [List.foldl_nil] at hmm ⊢
    rw [List.reverse_nil, List.nil_append] at hsplit
    rw [hsplit] at hmm
    exact hmk mm hmm
  | cons m pre ih =>
    intro L cur k hsplit hmk
    rw [List.foldl_cons]
    show ∀ mm ∈ extractPB (pre.foldl (fun acc m =>
        let r := fixImportanceStep acc.1 m
        (r.1, acc.2 + r.2))
      ((fixImportanceStep cur m).1, k + (fixImportanceStep cur m).2)).1,
      MarkedW (windowOf (pre.foldl (fun acc m =>
        let r := fixImportanceStep acc.1 m
        (r.1, acc.2 + r.2))
      ((fixImportanceStep cur m).1, k + (fixImportanceStep cur m).2)).1
        mm.mend)
    rw [List.reverse_cons, List.append_assoc, List.singleton_append] at hsplit
    have hmem_m : m ∈ extractPB cur := by
      rw [hsplit]
      exact List.mem_append_right _ (List.mem_cons_self m L)
    obtain ⟨hmend_le, hmlen37, hbbt⟩ := extractPB_mem_facts cur m hmem_m
    have hme : m.mend = m.mstart + m.mlen := rfl
    have hwl := windowOf_length_le cur m.mend
    have hpair : List.Pairwise (fun a b => a.mend ≤ b.mstart)
        (extractPB cur) := finditerPB_pairwise cur.length 0 cur
    rw [hsplit, List.pairwise_append] at hpair
    obtain ⟨hpairA, hpairBC, hcross⟩ := hpair
    rw [List.pairwise_cons] at hpairBC
    obtain ⟨hmL, hpairL⟩ := hpairBC
    have hLb : ∀ mm ∈ L,
        m.mend + (windowOf cur m.mend).length ≤ mm.mstart := by
      intro mm hmmL
      have hmmE : mm ∈ extractPB cur := by
        rw [hsplit]
        exact List.mem_append_right _ (List.mem_cons_of_mem _ hmmL)
      obtain ⟨-, hml37, hbbt2⟩ := extractPB_mem_facts cur mm hmmE
      have hbt : beginTok <+: List.drop mm.mstart cur :=
        (show beginTok <+: beginBracketTok by decide).trans hbbt2
      have hme_ms : m.mend ≤ mm.mstart := hmL mm hmmL
      have hoccrel : beginTok <+:
          List.drop (mm.mstart - m.mend) (List.drop m.mend cur) := by
        rw [List.drop_drop,
          show m.mend + (mm.mstart - m.mend) = mm.mstart by omega]
        exact hbt
      cases hfsb : findSub beginTok (List.drop m.mend cur) with
      | none => exact absurd hoccrel (findSub_none_no_occ _ _ hfsb _)
      | some n =>
        have hmin := findSub_min _ _ _ hfsb
        have hnle : n ≤ mm.mstart - m.mend := by
          by_contra hcon
          exact hmin _ (by omega) hoccrel
        have hwin := windowOf_eq_some cur m.mend n hfsb
        have hwlen2 : (windowOf cur m.mend).length ≤ n := by
          rw [hwin, List.length_take]
          exact Nat.min_le_left _ _
        omega
    have hsep : ∀ mm ∈ extractPB cur, mm.mend ≤ m.mend ∨
        m.mend + (windowOf cur m.mend).length ≤ mm.mstart := by
      intro mm hmmE
      rw [hsplit] at hmmE
      rcases List.mem_append.mp hmmE with hA2 | hBC
      · left
        have h1 := hcross mm hA2 m (List.mem_cons_self m L)
        omega
      · rcases List.mem_cons.mp hBC with rfl | hL2
        · left; omega
        · right; exact hLb mm hL2
    have hW : ∀ q, q < (impRewrite (windowOf cur m.mend) 0
        (impMatchesIn (windowOf cur m.mend))).length →
        ¬ beginTok <+: List.drop q
          (impRewrite (windowOf cur m.mend) 0
            (impMatchesIn (windowOf cur m.mend)) ++
           List.drop (m.mend + (windowOf cur m.mend).length) cur) :=
      impRewrite_no_beginTok (windowOf cur m.mend)
        (List.drop (m.mend + (windowOf cur m.mend).length) cur)
        (windowOf_no_beginTok cur m.mend)
        (impMatchesIn (windowOf cur m.mend)) 0 (Nat.zero_le _)
        (fun im h => ⟨Nat.zero_le _, (impMatchesIn_mem h).1,
          (impMatchesIn_mem h).2.1, (impMatchesIn_mem h).2.2⟩)
        (impMatchesIn_pairwise _)
    have hext := extractPB_replace cur
      (impRewrite (windowOf cur m.mend) 0
        (impMatchesIn (windowOf cur m.mend)))
      m.mend (m.mend + (windowOf cur m.mend).length)
      (by omega) (by omega) hW hsep (Or.inr ⟨m, hmem_m, rfl⟩)
    rw [hsplit, List.map_append, List.map_cons] at hext
    have hmapA : (pre.reverse).map
        (fun mm => if m.mend + (windowOf cur m.mend).length ≤ mm.mstart
          then (⟨m.mend + (impRewrite (windowOf cur m.mend) 0
              (impMatchesIn (windowOf cur m.mend))).length +
              (mm.mstart - (m.mend + (windowOf cur m.mend).length)),
            mm.mlen, mm.title, mm.body⟩ : PBMatch)
          else mm) = pre.reverse := by
      have hall : ∀ mm ∈ pre.reverse,
          (if m.mend + (windowOf cur m.mend).length ≤ mm.mstart
            then (⟨m.mend + (impRewrite (windowOf cur m.mend) 0
                (impMatchesIn (windowOf cur m.mend))).length +
                (mm.mstart - (m.mend + (windowOf cur m.mend).length)),
              mm.mlen, mm.title, mm.body⟩ : PBMatch)
            else mm) = mm := by
        intro mm hA2
        have h1 := hcross mm hA2 m (List.mem_cons_self m L)
        have hmm_me : mm.mend = mm.mstart + mm.mlen := rfl
        rw [if_neg (show ¬ m.mend + (windowOf cur m.mend).length ≤ mm.mstart
          by omega)]
      rw [List.map_congr_left hall, List.map_id']
    have hmap_m : (if m.mend + (windowOf cur m.mend).length ≤ m.mstart
        then (⟨m.mend + (impRewrite (windowOf cur m.mend) 0
            (impMatchesIn (windowOf cur m.mend))).length +
            (m.mstart - (m.mend + (windowOf cur m.mend).length)),
          m.mlen, m.title, m.body⟩ : PBMatch)
        else m) = m := by
      rw [if_neg (show ¬ m.mend + (windowOf cur m.mend).length ≤ m.mstart
        by omega)]
    have hmapL : L.map
        (fun mm => if m.mend + (windowOf cur m.mend).length ≤ mm.mstart
          then (⟨m.mend + (impRewrite (windowOf cur m.mend) 0
              (impMatchesIn (windowOf cur m.mend))).length +
              (mm.mstart - (m.mend + (windowOf cur m.mend).length)),
            mm.mlen, mm.title, mm.body⟩ : PBMatch)
          else mm) =
        L.map (fun mm => (⟨m.mend + (impRewrite (windowOf cur m.mend) 0
            (impMatchesIn (windowOf cur m.mend))).length +
            (mm.mstart - (m.mend + (windowOf cur m.mend).length)),
          mm.mlen, mm.title, mm.body⟩ : PBMatch)) := by
      apply List.map_congr_left
      intro mm hmmL
      rw [if_pos (hLb mm hmmL)]
    rw [hmapA, hmap_m, hmapL] at hext
    have hmk' : ∀ mm ∈ (m :: L.map (fun mm => (⟨m.mend +
        (impRewrite (windowOf cur m.mend) 0
          (impMatchesIn (windowOf cur m.mend))).length +
        (mm.mstart - (m.mend + (windowOf cur m.mend).length)),
        mm.mlen, mm.title, mm.body⟩ : PBMatch))),
        MarkedW (windowOf (List.take m.mend cur ++
          (impRewrite (windowOf cur m.mend) 0
            (impMatchesIn (windowOf cur m.mend)) ++
           List.drop (m.mend + (windowOf cur m.mend).length) cur))
          mm.mend) := by
      intro mm hmm
      rcases List.mem_cons.mp hmm with heq | hmm'
      · rw [heq]
        rw [windowOf_replace cur
          (impRewrite (windowOf cur m.mend) 0
            (impMatchesIn (windowOf cur m.mend)))
          m.mend (m.mend + (windowOf cur m.mend).length)
          hmend_le hW (windowOf_tail cur m.mend)]
        exact impRewrite_MarkedW (windowOf cur m.mend)
      · obtain ⟨mm0, hmm0L, rfl⟩ := List.mem_map.mp hmm'
        have hbm := hLb mm0 hmm0L
        have hmm0me : mm0.mend = mm0.mstart + mm0.mlen := rfl
        have hcongr : windowOf (List.take m.mend cur ++
            (impRewrite (windowOf cur m.mend) 0
              (impMatchesIn (windowOf cur m.mend)) ++
             List.drop (m.mend + (windowOf cur m.mend).length) cur))
            ((⟨m.mend + (impRewrite (windowOf cur m.mend) 0
                (impMatchesIn (windowOf cur m.mend))).length +
              (mm0.mstart - (m.mend + (windowOf cur m.mend).length)),
              mm0.mlen, mm0.title, mm0.body⟩ : PBMatch).mend) =
            windowOf cur mm0.mend := by
          apply windowOf_suffix_congr
          have hmend2 : (⟨m.mend + (impRewrite (windowOf cur m.mend) 0
                (impMatchesIn (windowOf cur m.mend))).length +
              (mm0.mstart - (m.mend + (windowOf cur m.mend).length)),
              mm0.mlen, mm0.title, mm0.body⟩ : PBMatch).mend =
              (List.take m.mend cur).length +
              ((impRewrite (windowOf cur m.mend) 0
                (impMatchesIn (windowOf cur m.mend))).length +
               (mm0.mstart - (m.mend + (windowOf cur m.mend).length) +
                mm0.mlen)) := by
            show m.mend + (impRewrite (windowOf cur m.mend) 0
                (impMatchesIn (windowOf cur m.mend))).length +
              (mm0.mstart - (m.mend + (windowOf cur m.mend).length)) +
              mm0.mlen = _
            rw [List.length_take, Nat.min_eq_left hmend_le]
            omega
          rw [hmend2, drop_offset, drop_offset, List.drop_drop]
          congr 1
          omega
        rw [hcongr]
        exact hmk mm0 hmm0L
    have hstep := fixImportanceStep_char cur m hmend_le
    rw [hstep]
    exact ih (m :: L.map (fun mm => (⟨m.mend +
        (impRewrite (windowOf cur m.mend) 0
          (impMatchesIn (windowOf cur m.mend))).length +
        (mm.mstart - (m.mend + (windowOf cur m.mend).length)),
        mm.mlen, mm.title, mm.body⟩ : PBMatch)))
      (List.take m.mend cur ++
        (impRewrite (windowOf cur m.mend) 0
          (impMatchesIn (windowOf cur m.mend)) ++
         List.drop (m.mend + (windowOf cur m.mend).length) cur))
      (k + impFired (windowOf cur m.mend)
        (impMatchesIn (windowOf cur m.mend)))
      hext hmk'

/-- Claim C7: an importance remark that is detected as already wrapped (the
wrapper-open token occurs in the fixed 50-character lookback before the match
or the wrapper-close token occurs in the fixed 50-character lookahead after
it) is never wrapped again — the corresponding inner-loop iteration leaves
the document text and the edit count unchanged; and in particular, rerunning
the importance-wrapping pass on its own output applies zero edits, so the
file-level pass performs no write. -/
theorem c7_importance_pass_idempotent (content : List Char) :
    (∀ (sc : List Char) (pbEnd : Nat) (acc : List Char × Nat)
      (im : Nat × Nat × List Char),
      impSkip sc im = true → impInnerStep sc pbEnd acc im = acc) ∧
    fix_importance_sections (fix_importance_sections content).1 =
      ((fix_importance_sections content).1, 0) ∧
    ∀ writeOk : Bool,
      fixImportanceRun writeOk (fix_importance_sections content).1 =
        ((fix_importance_sections content).1, 0) := by
  have hall : ∀ mm ∈ extractPB (fix_importance_sections content).1,
      MarkedW (windowOf (fix_importance_sections content).1 mm.mend) := by
    have hm := imploop_all_marked ((extractPB content).reverse) [] content 0
      (by rw [List.reverse_reverse, List.append_nil])
      (by intro mm hmm; simp at hmm)
    exact hm
  have hmain : fix_importance_sections (fix_importance_sections content).1 =
      ((fix_importance_sections content).1, 0) :=
    impPass_noop _ hall
  refine ⟨fun sc pbEnd acc im h => impInnerStep_skip sc pbEnd acc im h,
    hmain, ?_⟩
  intro writeOk
  unfold fixImportanceRun
  rw [hmain]
  simp

/-- Witness for claim C7 at a concrete input: the window consisting of the
wrapper-open token directly followed by the importance label detects its
importance match as already wrapped, and the inner-loop iteration for that
match leaves the accumulator unchanged. -/
theorem c7_importance_pass_idempotent_witness :
    impSkip (importanceOpen ++ importanceLabel) (18, 38, []) = true ∧
    impInnerStep (importanceOpen ++ importanceLabel) 0
      (([], 0) : List Char × Nat) (18, 38, []) = ([], 0) :=
  ⟨by decide,
   (c7_importance_pass_idempotent ([] : List Char)).1
     (importanceOpen ++ importanceLabel) 0 (([], 0) : List Char × Nat)
     (18, 38, []) (by decide)⟩

end CheckProblems
